import Mathlib

/-!
# Verification of the damasen floor-generation and view engine

Shallow embedding of the computational core of the `damasen` repository:

* `damasen/finder.py`  — `compute_mst`, `dijkstra`, `recursive_shadowcast`,
  `compute_fov`;
* `damasen/floor.py`   — `build_mapping`, `place_template_entrances`;
* `damasen/current.py` — `generate`, `update_visible_map`, `display_tile`,
  `move_player`, `project_coords`.

Python integers are modelled as `ℤ`/`ℕ`, Python floats (distances, slopes,
path costs) as exact rationals/reals, dicts as insertion-ordered association
lists, and `numpy` arrays as lists of rows.  Randomness (`random.randint`,
`np.random`) is modelled by an explicit stream of choices passed as an
argument.  Fallible code returns `Except`/`Option`.
-/

namespace Damasen

/-! ## Terrain kinds and templates

Terrain kinds are Python classes compared by identity
(`terrain not in self.mapping.values()`); we model each kind by a
numeric identity.  `Wall` is the distinguished impassable kind that
`Floor.__init__` installs at code 0. -/

abbrev Terrain := ℕ

def Wall : Terrain := 0

def Empty : Terrain := 1

def Entrance : Terrain := 2

/-- The fields of `damasen.template.Template` that floor generation reads.
`symbols` is the insertion-ordered `symbols` dict (glyph → terrain kind);
`max_entrances : int | None = 1` in the source, hence the `Option`. -/
structure Template where
  symbols : List (Char × Terrain)
  min_entrances : ℕ := 1
  max_entrances : Option ℕ := some 1
  no_entrance_tile : Terrain := Wall

/-! ## `Floor.build_mapping` (floor.py lines 57-76)

```python
self.mapping = {0: Wall}; self.reversed_mapping = {Wall: 0}
for template in self.templates:
    for symbol, terrain in template.symbols.items():
        if terrain not in self.mapping.values():
            index = max(self.mapping.keys(), default=-1) + 1
            if index > 255:
                raise ValueError("too many tiles to set in this floor")
            self.mapping[index] = terrain
            self.reversed_mapping[terrain] = index
```

The two dicts are modelled as insertion-ordered association lists.
`max(self.mapping.keys(), default=-1)` is computed with a fold; the
`default=-1` branch never fires because key 0 is always present, so a
fold starting at 0 gives the same value. -/

structure MappingState where
  mapping : List (ℕ × Terrain)
  reversed_mapping : List (Terrain × ℕ)
deriving DecidableEq, Repr

def initialMappingState : MappingState :=
  { mapping := [(0, Wall)], reversed_mapping := [(Wall, 0)] }

def maxKey (m : List (ℕ × Terrain)) : ℕ :=
  (m.map Prod.fst).foldl max 0

def buildMappingStep (st : MappingState) (terrain : Terrain) :
    Except String MappingState :=
  if terrain ∈ st.mapping.map Prod.snd then .ok st
  else
    let index := maxKey st.mapping + 1
    if index > 255 then .error "too many tiles to set in this floor"
    else .ok { mapping := st.mapping ++ [(index, terrain)],
               reversed_mapping := st.reversed_mapping ++ [(terrain, index)] }

def build_mapping (templates : List Template) : Except String MappingState :=
  templates.foldlM
    (fun st t => t.symbols.foldlM (fun st2 p => buildMappingStep st2 p.2) st)
    initialMappingState

/-- All terrain kinds mentioned by the templates' symbol tables, in
iteration order (templates in order, each dict in insertion order). -/
def allTerrains (templates : List Template) : List Terrain :=
  templates.flatMap (fun t => t.symbols.map Prod.snd)

/-- First-occurrence deduplication relative to an accumulator of
already-seen kinds. -/
def dedupFrom (acc : List Terrain) (l : List Terrain) : List Terrain :=
  l.foldl (fun a t => if t ∈ a then a else a ++ [t]) acc

/-- The newly seen terrain kinds, in first-occurrence order, excluding
the pre-installed `Wall`. -/
def newKinds (templates : List Template) : List Terrain :=
  (dedupFrom [Wall] (allTerrains templates)).drop 1

/-- The mapping state after assigning codes `1..ks.length` to the newly
seen kinds `ks`, in order. -/
def stateOf (ks : List Terrain) : MappingState :=
  { mapping := (0, Wall) :: (List.range' 1 ks.length).zip ks,
    reversed_mapping := (Wall, 0) :: ks.zip (List.range' 1 ks.length) }

def foldTerrains (st : MappingState) (l : List Terrain) :
    Except String MappingState :=
  l.foldlM buildMappingStep st

lemma except_ok_bind {α β : Type} (a : α) (f : α → Except String β) :
    (Except.ok a >>= f) = f a := rfl

lemma except_error_bind {α β : Type} (e : String) (f : α → Except String β) :
    ((Except.error e : Except String α) >>= f) = Except.error e := rfl

lemma except_pure_eq {α : Type} (a : α) :
    (pure a : Except String α) = Except.ok a := rfl

lemma foldl_max_range' (k : ℕ) : (List.range' 1 k).foldl max 0 = k := by
  induction k with
  | zero => rfl
  | succ n ih =>
      rw [List.range'_1_concat, List.foldl_append, ih]
      simp [Nat.max_def]
      omega

lemma stateOf_nil : stateOf [] = initialMappingState := rfl

lemma mapping_stateOf_fst (ks : List Terrain) :
    (stateOf ks).mapping.map Prod.fst = 0 :: List.range' 1 ks.length := by
  have h := List.map_fst_zip (List.range' 1 ks.length) ks (by simp)
  simp [stateOf, h]

lemma mapping_stateOf_snd (ks : List Terrain) :
    (stateOf ks).mapping.map Prod.snd = Wall :: ks := by
  have h := List.map_snd_zip (List.range' 1 ks.length) ks (by simp)
  simp [stateOf, h]

lemma maxKey_stateOf (ks : List Terrain) :
    maxKey (stateOf ks).mapping = ks.length := by
  unfold maxKey
  rw [mapping_stateOf_fst]
  simpa using foldl_max_range' ks.length

lemma step_stateOf_seen (ks : List Terrain) (t : Terrain)
    (h : t = Wall ∨ t ∈ ks) :
    buildMappingStep (stateOf ks) t = .ok (stateOf ks) := by
  unfold buildMappingStep
  rw [mapping_stateOf_snd, if_pos (by simpa [List.mem_cons] using h)]

lemma stateOf_snoc (ks : List Terrain) (t : Terrain) :
    stateOf (ks ++ [t]) =
      { mapping := (stateOf ks).mapping ++ [(ks.length + 1, t)],
        reversed_mapping :=
          (stateOf ks).reversed_mapping ++ [(t, ks.length + 1)] } := by
  unfold stateOf
  simp only [MappingState.mk.injEq]
  constructor
  · rw [List.length_append, List.length_singleton, List.range'_1_concat,
      List.zip_append (by simp)]
    simp [Nat.add_comm]
  · rw [List.length_append, List.length_singleton, List.range'_1_concat,
      List.zip_append (by simp)]
    simp [Nat.add_comm]

lemma step_stateOf_new (ks : List Terrain) (t : Terrain)
    (h : ¬(t = Wall ∨ t ∈ ks)) (hlen : ks.length < 255) :
    buildMappingStep (stateOf ks) t = .ok (stateOf (ks ++ [t])) := by
  unfold buildMappingStep
  rw [mapping_stateOf_snd, if_neg (by simpa [List.mem_cons] using h)]
  simp only [maxKey_stateOf]
  rw [if_neg (by omega), stateOf_snoc]

lemma step_stateOf_overflow (ks : List Terrain) (t : Terrain)
    (h : ¬(t = Wall ∨ t ∈ ks)) (hlen : ks.length = 255) :
    buildMappingStep (stateOf ks) t =
      .error "too many tiles to set in this floor" := by
  unfold buildMappingStep
  rw [mapping_stateOf_snd, if_neg (by simpa [List.mem_cons] using h)]
  simp only [maxKey_stateOf]
  rw [if_pos (by omega)]

lemma dedupFrom_nil (acc : List Terrain) : dedupFrom acc [] = acc := rfl

lemma dedupFrom_cons (acc : List Terrain) (t : Terrain) (l : List Terrain) :
    dedupFrom acc (t :: l) =
      dedupFrom (if t ∈ acc then acc else acc ++ [t]) l := rfl

lemma dedupFrom_length_mono (l acc : List Terrain) :
    acc.length ≤ (dedupFrom acc l).length := by
  induction l generalizing acc with
  | nil => simp [dedupFrom_nil]
  | cons t l ih =>
      rw [dedupFrom_cons]
      by_cases h : t ∈ acc
      · rw [if_pos h]; exact ih acc
      · rw [if_neg h]
        calc acc.length ≤ (acc ++ [t]).length := by simp
          _ ≤ _ := ih (acc ++ [t])

lemma dedupFrom_eq_append (l acc : List Terrain) :
    ∃ fresh, dedupFrom acc l = acc ++ fresh := by
  induction l generalizing acc with
  | nil => exact ⟨[], by simp [dedupFrom_nil]⟩
  | cons t l ih =>
      rw [dedupFrom_cons]
      by_cases h : t ∈ acc
      · rw [if_pos h]; exact ih acc
      · rw [if_neg h]
        obtain ⟨fresh, hf⟩ := ih (acc ++ [t])
        exact ⟨t :: fresh, by simp [hf]⟩

lemma dedupFrom_nodup (l acc : List Terrain) (h : acc.Nodup) :
    (dedupFrom acc l).Nodup := by
  induction l generalizing acc with
  | nil => simpa [dedupFrom_nil]
  | cons t l ih =>
      rw [dedupFrom_cons]
      by_cases hc : t ∈ acc
      · rw [if_pos hc]; exact ih acc h
      · rw [if_neg hc]
        refine ih (acc ++ [t]) ?_
        simp [List.nodup_append, h, hc]

lemma foldTerrains_stateOf (l ks : List Terrain) (hk : ks.length ≤ 255) :
    foldTerrains (stateOf ks) l =
      if (dedupFrom (Wall :: ks) l).length ≤ 256
      then .ok (stateOf ((dedupFrom (Wall :: ks) l).drop 1))
      else .error "too many tiles to set in this floor" := by
  induction l generalizing ks with
  | nil =>
      have hlen : (Wall :: ks).length ≤ 256 := by simp; omega
      simp [foldTerrains, dedupFrom_nil, hlen, hk, except_pure_eq]
  | cons t l ih =>
      have hstep : foldTerrains (stateOf ks) (t :: l) =
          buildMappingStep (stateOf ks) t >>=
            fun st => foldTerrains st l := by
        simp [foldTerrains]
      by_cases hmem : t = Wall ∨ t ∈ ks
      · have hc : t ∈ Wall :: ks := by simpa [List.mem_cons] using hmem
        rw [hstep, step_stateOf_seen ks t hmem]
        rw [dedupFrom_cons, if_pos hc]
        simpa using ih ks hk
      · have hc : t ∉ Wall :: ks := by simpa [List.mem_cons] using hmem
        rw [dedupFrom_cons, if_neg hc]
        by_cases hlen : ks.length < 255
        · rw [hstep, step_stateOf_new ks t hmem hlen]
          have hws : (Wall :: ks) ++ [t] = Wall :: (ks ++ [t]) := by simp
          rw [hws]
          simpa using ih (ks ++ [t]) (by simp; omega)
        · have h255 : ks.length = 255 := by omega
          rw [hstep, step_stateOf_overflow ks t hmem h255]
          have hws : (Wall :: ks) ++ [t] = Wall :: (ks ++ [t]) := by simp
          rw [hws]
          have hge : 257 ≤ (dedupFrom (Wall :: (ks ++ [t])) l).length := by
            have h2 := dedupFrom_length_mono l (Wall :: (ks ++ [t]))
            simp at h2
            omega
          have hgt : ¬((dedupFrom (Wall :: (ks ++ [t])) l).length ≤ 256) := by
            omega
          simp [hgt, except_error_bind]

lemma build_mapping_eq_foldTerrains (templates : List Template) :
    build_mapping templates =
      foldTerrains initialMappingState (allTerrains templates) := by
  suffices h : ∀ (ts : List Template) (st : MappingState),
      ts.foldlM
        (fun st t => t.symbols.foldlM (fun st2 p => buildMappingStep st2 p.2) st)
        st = foldTerrains st (allTerrains ts) by
    exact h templates initialMappingState
  intro ts
  induction ts with
  | nil => intro st; simp [foldTerrains, allTerrains]
  | cons t ts ih =>
      intro st
      have hsym : ∀ (syms : List (Char × Terrain)) (st : MappingState),
          syms.foldlM (fun st2 p => buildMappingStep st2 p.2) st =
            foldTerrains st (syms.map Prod.snd) := by
        intro syms
        induction syms with
        | nil => intro st; simp [foldTerrains]
        | cons p syms ihs =>
            intro st
            simp only [List.foldlM_cons, List.map_cons, foldTerrains]
            cases buildMappingStep st p.2 with
            | error e => rw [except_error_bind, except_error_bind]
            | ok st2 =>
                rw [except_ok_bind, except_ok_bind]
                exact ihs st2
      have hall : allTerrains (t :: ts) =
          t.symbols.map Prod.snd ++ allTerrains ts := by
        simp [allTerrains]
      simp only [List.foldlM_cons, hall, foldTerrains, List.foldlM_append]
      rw [hsym t.symbols st]
      cases hcase : foldTerrains st (t.symbols.map Prod.snd) with
      | error e =>
          rw [← foldTerrains, hcase, except_error_bind, except_error_bind]
      | ok st2 =>
          rw [← foldTerrains, hcase, except_ok_bind, except_ok_bind]
          exact ih st2

lemma dedupFrom_wall_eq (l : List Terrain) :
    dedupFrom [Wall] l = Wall :: (dedupFrom [Wall] l).drop 1 := by
  obtain ⟨fresh, hf⟩ := dedupFrom_eq_append l [Wall]
  rw [hf]; simp

lemma build_mapping_spec (templates : List Template) :
    build_mapping templates =
      if (newKinds templates).length ≤ 255
      then .ok (stateOf (newKinds templates))
      else .error "too many tiles to set in this floor" := by
  rw [build_mapping_eq_foldTerrains, ← stateOf_nil]
  rw [foldTerrains_stateOf (allTerrains templates) [] (by simp)]
  have hlen : (dedupFrom [Wall] (allTerrains templates)).length =
      (newKinds templates).length + 1 := by
    conv_lhs => rw [dedupFrom_wall_eq (allTerrains templates)]
    simp [newKinds]
  by_cases h : (newKinds templates).length ≤ 255
  · rw [if_pos (by omega), if_pos h]
    rfl
  · rw [if_neg (by omega), if_neg h]

lemma newKinds_nodup (templates : List Template) :
    (Wall :: newKinds templates).Nodup := by
  have h := dedupFrom_nodup (allTerrains templates) [Wall] (by simp)
  rw [dedupFrom_wall_eq (allTerrains templates)] at h
  simpa [newKinds] using h

/-- C9: `build_mapping` scans every template's symbol table and assigns each
newly seen terrain kind (deduplicated, in first-occurrence order) the next
unused integer code — codes 1, 2, … in order, with code 0 always present and
holding the impassable `Wall` kind — it fails with the capacity error exactly
when a code would exceed 255, and on success `mapping` and `reversed_mapping`
are mutual inverses over the assigned codes. -/
theorem build_mapping_correct (templates : List Template) :
    ((∃ e, build_mapping templates = .error e) ↔
      255 < (newKinds templates).length)
    ∧ ∀ st, build_mapping templates = .ok st →
        st.mapping = (0, Wall) ::
          (List.range' 1 (newKinds templates).length).zip (newKinds templates)
        ∧ (st.mapping.map Prod.fst).Nodup
        ∧ (st.mapping.map Prod.snd).Nodup
        ∧ st.reversed_mapping = st.mapping.map Prod.swap
        ∧ ∀ c t, (c, t) ∈ st.mapping ↔ (t, c) ∈ st.reversed_mapping := by
  rw [build_mapping_spec]
  by_cases h : (newKinds templates).length ≤ 255
  · rw [if_pos h]
    constructor
    · constructor
      · rintro ⟨e, he⟩; cases he
      · intro hgt; omega
    · intro st hst
      cases hst
      refine ⟨rfl, ?_, ?_, ?_, ?_⟩
      · rw [mapping_stateOf_fst]
        refine List.Nodup.cons ?_ (List.nodup_range' ..)
        intro hmem
        have := (List.mem_range'_1).1 hmem
        omega
      · rw [mapping_stateOf_snd]
        exact newKinds_nodup templates
      · unfold stateOf
        simp [List.zip_swap]
      · intro c t
        unfold stateOf
        constructor
        · intro hm
          rcases List.mem_cons.1 hm with h0 | hz
          · cases h0; exact List.mem_cons_self _ _
          · refine List.mem_cons_of_mem _ ?_
            have : (t, c) = Prod.swap (c, t) := rfl
            rw [this, ← List.zip_swap]
            exact List.mem_map_of_mem Prod.swap hz
        · intro hm
          rcases List.mem_cons.1 hm with h0 | hz
          · cases h0; exact List.mem_cons_self _ _
          · refine List.mem_cons_of_mem _ ?_
            rw [← List.zip_swap] at hz
            rcases List.mem_map.1 hz with ⟨p, hp, hswap⟩
            cases p
            cases hswap
            exact hp
  · rw [if_neg h]
    constructor
    · constructor
      · intro _; omega
      · intro _; exact ⟨_, rfl⟩
    · intro st hst; cases hst

/-- Concrete input for the witness: two templates whose symbol tables
mention the wall kind, two fresh kinds (3 and 5) and a duplicate. -/
def demoTemplates : List Template :=
  [{ symbols := [('.', 3), ('#', 0), ('+', 5)] },
   { symbols := [('.', 3)] }]

theorem build_mapping_correct_witness :
    build_mapping demoTemplates =
      .ok { mapping := [(0, Wall), (1, 3), (2, 5)],
            reversed_mapping := [(Wall, 0), (3, 1), (5, 2)] }
    ∧ ∀ c t,
        (c, t) ∈ [(0, Wall), (1, 3), (2, 5)] ↔
          (t, c) ∈ [(Wall, 0), ((3 : Terrain), 1), ((5 : Terrain), 2)] := by
  have h := (build_mapping_correct demoTemplates).2
    { mapping := [(0, Wall), (1, 3), (2, 5)],
      reversed_mapping := [(Wall, 0), (3, 1), (5, 2)] } (by rfl)
  exact ⟨rfl, h.2.2.2.2⟩

/-! ## Grids

`numpy` arrays are modelled as lists of rows; `shape0`/`shape1` are
`array.shape[0]` and `array.shape[1]`.  Reads and writes are always
guarded by explicit bounds checks in the embedded code, exactly as in
the source. -/

abbrev IntGrid := List (List ℤ)

abbrev BoolGrid := List (List Bool)

def shape0 (g : List (List α)) : ℕ := g.length

def shape1 (g : List (List α)) : ℕ := (g.headD []).length

/-- `g[y, x]`, for in-bounds `0 ≤ y < shape0`, `0 ≤ x < shape1`. -/
def cellAt (g : List (List ℤ)) (y x : ℤ) : ℤ :=
  (g.getD y.toNat []).getD x.toNat 0

/-- `g[y, x] = v` (no-op when out of range; all call sites are guarded). -/
def gridSet (g : List (List α)) (y x : ℤ) (v : α) : List (List α) :=
  g.set y.toNat ((g.getD y.toNat []).set x.toNat v)

def gridGet (g : List (List α)) (d : α) (y x : ℤ) : α :=
  (g.getD y.toNat []).getD x.toNat d

def zerosLike (g : List (List ℤ)) : BoolGrid :=
  g.map (fun row => row.map (fun _ => false))

def inBounds (g : List (List α)) (y x : ℤ) : Prop :=
  0 ≤ y ∧ y < (shape0 g : ℤ) ∧ 0 ≤ x ∧ x < (shape1 g : ℤ)

instance (g : List (List α)) (y x : ℤ) : Decidable (inBounds g y x) := by
  unfold inBounds
  infer_instance

/-! ## `recursive_shadowcast` and `compute_fov` (finder.py lines 118-248)

The Python recursion is compiled to structural recursion: `scanRow` is
the `while dx <= 0` loop of one row (note that the loop increments `dx`
before using it, so the body runs for `dx = -i, …, 0, 1`), and
`shadowRows` is the `for i in range(row, radius + 1)` loop, spending one
unit of fuel per row.  The recursive call into the next row is passed to
`scanRow` as the callback `recurse`.  Float slopes are modelled as exact
rationals. -/

structure ShadowEnv where
  map_array : IntGrid
  blocking_tiles : List ℤ
  cx : ℤ
  cy : ℤ
  radius : ℕ
  xx : ℤ
  xy : ℤ
  yx : ℤ
  yy : ℤ

/-- One row of `recursive_shadowcast`: the `while dx <= 0` loop, acting on
the state `(fov, start, new_start, blocked)`; returns the final
`(fov, start, blocked)`.  `recurse start end fov` is the recursive call
`recursive_shadowcast(..., i + 1, start, end, ...)`.  The slope
`(dx - 0.5) / (dy + 0.5)` is the exact rational `(2·dx - 1)/(2·dy + 1)`,
built with `Rat.divInt` (and similarly for the right slope). -/
def scanRow (env : ShadowEnv) (recurse : ℚ → ℚ → BoolGrid → BoolGrid)
    (i : ℕ) (end_ : ℚ) :
    List ℤ → BoolGrid → ℚ → ℚ → Bool → BoolGrid × ℚ × Bool
  | [], fov, start, _new_start, blocked => (fov, start, blocked)
  | dx :: rest, fov, start, new_start, blocked =>
      let dy : ℤ := -(i : ℤ)
      let X : ℤ := env.cx + dx * env.xx + dy * env.xy
      let Y : ℤ := env.cy + dx * env.yx + dy * env.yy
      let left_slope : ℚ := Rat.divInt (2 * dx - 1) (2 * dy + 1)
      let right_slope : ℚ := Rat.divInt (2 * dx + 1) (2 * dy - 1)
      if start < right_slope then
        scanRow env recurse i end_ rest fov start new_start blocked
      else if end_ > left_slope then
        (fov, start, blocked)
      else
        let fov2 :=
          if dx * dx + dy * dy < (env.radius : ℤ) * (env.radius : ℤ) then
            if inBounds env.map_array Y X then gridSet fov Y X true else fov
          else fov
        if blocked then
          if inBounds env.map_array Y X ∧
              cellAt env.map_array Y X ∈ env.blocking_tiles then
            scanRow env recurse i end_ rest fov2 start right_slope true
          else
            scanRow env recurse i end_ rest fov2 new_start new_start false
        else
          if inBounds env.map_array Y X ∧
              cellAt env.map_array Y X ∈ env.blocking_tiles ∧
              i < env.radius then
            let fov3 := recurse start left_slope fov2
            scanRow env recurse i end_ rest fov3 start right_slope true
          else
            scanRow env recurse i end_ rest fov2 start new_start blocked

/-- The values taken by `dx` in the body of the `while dx <= 0` loop for
row `i`: `-i, -i + 1, …, 0, 1`. -/
def dxValues (i : ℕ) : List ℤ :=
  (List.range (i + 2)).map (fun (k : ℕ) => (k : ℤ) - (i : ℤ))

/-- The `for i in range(row, radius + 1)` loop of `recursive_shadowcast`,
including the `if start < end: return` guard of each recursive entry
(applied by the caller through `recursive_shadowcast` below and through
the `recurse` callback). -/
def shadowRows (env : ShadowEnv) (end_ : ℚ) :
    ℕ → ℕ → ℚ → BoolGrid → BoolGrid
  | 0, _i, _start, fov => fov
  | fuel + 1, i, start, fov =>
      if env.radius < i then fov
      else
        match scanRow env
            (fun st en fv =>
              if st < en then fv else shadowRows env en fuel (i + 1) st fv)
            i end_ (dxValues i) fov start start false with
        | (fov2, start2, blocked) =>
            if blocked then fov2
            else shadowRows env end_ fuel (i + 1) start2 fov2

/-- `recursive_shadowcast` (finder.py line 118).  `fuel` bounds the number
of rows still to be scanned; every caller passes at least
`radius + 1 - row`, which is enough for the loop to run to completion. -/
def recursive_shadowcast (env : ShadowEnv) (fuel row : ℕ)
    (start end_ : ℚ) (fov : BoolGrid) : BoolGrid :=
  if start < end_ then fov
  else shadowRows env end_ fuel row start fov

/-- The eight octant multipliers of `compute_fov` (finder.py line 234). -/
def multipliers : List (ℤ × ℤ × ℤ × ℤ) :=
  [(1, 0, 0, 1), (0, 1, 1, 0), (-1, 0, 0, 1), (0, -1, 1, 0),
   (-1, 0, 0, -1), (0, -1, -1, 0), (1, 0, 0, -1), (0, 1, -1, 0)]

/-- `compute_fov` (finder.py line 214). -/
def compute_fov (map_array : IntGrid) (player_x player_y : ℤ)
    (radius : ℕ) (blocking_tiles : List ℤ) : BoolGrid :=
  let fov := zerosLike map_array
  let fov :=
    if inBounds map_array player_y player_x
    then gridSet fov player_y player_x true else fov
  multipliers.foldl
    (fun fov m =>
      recursive_shadowcast
        { map_array := map_array, blocking_tiles := blocking_tiles,
          cx := player_x, cy := player_y, radius := radius,
          xx := m.1, xy := m.2.1, yx := m.2.2.1, yy := m.2.2.2 }
        (radius + 1) 1 1 0 fov)
    fov

/-! ## Grid access lemmas -/

/-- A grid is rectangular: every row has length `shape1`.  All `numpy`
arrays are rectangular. -/
def Rect (g : List (List α)) : Prop :=
  ∀ row ∈ g, row.length = shape1 g

instance (g : List (List α)) : Decidable (Rect g) := by
  unfold Rect
  infer_instance

lemma shape0_gridSet (g : List (List α)) (y x : ℤ) (v : α) :
    shape0 (gridSet g y x v) = shape0 g := by
  simp [shape0, gridSet]

lemma shape1_gridSet (g : List (List α)) (y x : ℤ) (v : α)
    (hy : 0 ≤ y) (hylt : y < (shape0 g : ℤ)) (hrect : Rect g) :
    shape1 (gridSet g y x v) = shape1 g := by
  unfold gridSet shape1
  rcases g with _ | ⟨r, rs⟩
  · exfalso
    unfold shape0 at hylt
    simp at hylt
    omega
  · rcases Nat.eq_zero_or_pos y.toNat with h0 | hpos
    · rw [h0]
      simp only [List.getD_cons_zero, List.set_cons_zero, List.headD_cons,
        List.length_set]
    · have hy0 : y.toNat ≠ 0 := by omega
      rcases Nat.exists_eq_succ_of_ne_zero hy0 with ⟨k, hk⟩
      simp [hk]

lemma rect_gridSet (g : List (List α)) (y x : ℤ) (v : α)
    (hy : 0 ≤ y) (hylt : y < (shape0 g : ℤ)) (hrect : Rect g) :
    Rect (gridSet g y x v) := by
  intro row hrow
  rw [shape1_gridSet g y x v hy hylt hrect]
  unfold gridSet at hrow
  rcases List.mem_or_eq_of_mem_set hrow with h | h
  · exact hrect row h
  · subst h
    have hyn : y.toNat < g.length := by
      unfold shape0 at hylt
      omega
    have hmem : g.getD y.toNat [] ∈ g := by
      rw [List.getD_eq_getElem _ _ hyn]
      exact List.getElem_mem hyn
    rw [List.length_set]
    exact hrect _ hmem

lemma gridGet_eq (g : List (List α)) (d : α) (y x : ℤ) :
    gridGet g d y x = ((g[y.toNat]?).getD [])[x.toNat]?.getD d := by
  unfold gridGet
  rw [List.getD_eq_getElem?_getD, List.getD_eq_getElem?_getD]

lemma gridGet_zerosLike (g : IntGrid) (y x : ℤ) :
    gridGet (zerosLike g) false y x = false := by
  rw [gridGet_eq]
  unfold zerosLike
  rw [List.getElem?_map]
  cases hg : g[y.toNat]? with
  | none => rfl
  | some row =>
      simp only [Option.map_some', Option.getD_some]
      rw [List.getElem?_map]
      cases hr : row[x.toNat]? with
      | none => rfl
      | some v => rfl

lemma gridGet_gridSet_same (g : List (List α)) (d v : α) (y x : ℤ)
    (hy : 0 ≤ y) (hylt : y < (shape0 g : ℤ))
    (hx : 0 ≤ x) (hxlt : x < (shape1 g : ℤ)) (hrect : Rect g) :
    gridGet (gridSet g y x v) d y x = v := by
  unfold shape0 at hylt
  have hyn : y.toNat < g.length := by omega
  have hrowmem : g.getD y.toNat [] ∈ g := by
    rw [List.getD_eq_getElem _ _ hyn]
    exact List.getElem_mem hyn
  have hlen : (g.getD y.toNat []).length = shape1 g := hrect _ hrowmem
  have hxn : x.toNat < (g.getD y.toNat []).length := by omega
  rw [gridGet_eq]
  unfold gridSet
  rw [List.getElem?_set_self hyn]
  simp only [Option.getD_some]
  rw [List.getElem?_set_self hxn]
  rfl

lemma gridGet_gridSet_other (g : List (List α)) (d v : α) (y x y2 x2 : ℤ)
    (hne : ¬(y2 = y ∧ x2 = x)) (hy : 0 ≤ y) (hx : 0 ≤ x)
    (hy2 : 0 ≤ y2) (hx2 : 0 ≤ x2) :
    gridGet (gridSet g y x v) d y2 x2 = gridGet g d y2 x2 := by
  rw [gridGet_eq, gridGet_eq]
  unfold gridSet
  by_cases hyy : y2.toNat = y.toNat
  · have hyeq : y2 = y := by omega
    have hxne : x2.toNat ≠ x.toNat := by
      intro hc
      exact hne ⟨hyeq, by omega⟩
    rw [hyy]
    by_cases hylt : y.toNat < g.length
    · rw [List.getElem?_set_self hylt]
      simp only [Option.getD_some]
      rw [List.getElem?_set_ne (Ne.symm hxne),
        List.getD_eq_getElem?_getD]
    · rw [List.set_eq_of_length_le (by omega)]
  · rw [List.getElem?_set_ne (by omega)]
lemma shape0_zerosLike (g : IntGrid) : shape0 (zerosLike g) = shape0 g := by
  simp [shape0, zerosLike]

lemma shape1_zerosLike (g : IntGrid) : shape1 (zerosLike g) = shape1 g := by
  unfold shape1 zerosLike
  rcases g with _ | ⟨r, rs⟩ <;> simp

lemma rect_zerosLike (g : IntGrid) (hrect : Rect g) : Rect (zerosLike g) := by
  intro row hrow
  rw [shape1_zerosLike]
  unfold zerosLike at hrow
  rcases List.mem_map.1 hrow with ⟨r, hr, hmap⟩
  subst hmap
  simpa using hrect r hr

/-! ## Unobstructed behaviour of the shadowcaster -/

/-- No cell of the map is opaque. -/
def NoBlock (env : ShadowEnv) : Prop :=
  ∀ y x : ℤ, inBounds env.map_array y x →
    cellAt env.map_array y x ∉ env.blocking_tiles

lemma right_slope_le_one (dy dx : ℤ) (hdy : dy ≤ -1)
    (hlo : dy - 1 ≤ dx) (hhi : dx ≤ 1) :
    ((dx : ℚ) + 1/2) / ((dy : ℚ) - 1/2) ≤ 1 := by
  have hdyq : (dy : ℚ) ≤ -1 := by exact_mod_cast hdy
  have hdq : (dx : ℚ) ≤ 1 := by exact_mod_cast hhi
  have hloq : (dy : ℚ) - 1 ≤ (dx : ℚ) := by exact_mod_cast hlo
  rw [div_le_one_iff]
  right; right
  constructor
  · linarith
  · linarith

lemma left_slope_nonneg (dy dx : ℤ) (hdy : dy ≤ -1) (hhi : dx ≤ 0) :
    0 ≤ ((dx : ℚ) - 1/2) / ((dy : ℚ) + 1/2) := by
  have hdyq : (dy : ℚ) ≤ -1 := by exact_mod_cast hdy
  have hdq : (dx : ℚ) ≤ 0 := by exact_mod_cast hhi
  apply le_of_lt
  rw [div_pos_iff]
  right
  constructor
  · linarith
  · linarith

lemma left_slope_one_neg (dy : ℤ) (hdy : dy ≤ -1) :
    (((1 : ℤ) : ℚ) - 1/2) / ((dy : ℚ) + 1/2) < 0 := by
  have hdyq : (dy : ℚ) ≤ -1 := by exact_mod_cast hdy
  rw [div_neg_iff]
  left
  constructor
  · norm_num
  · linarith

lemma left_slope_divInt (dx dy : ℤ) :
    (Rat.divInt (2 * dx - 1) (2 * dy + 1) : ℚ) =
      ((dx : ℚ) - 1/2) / ((dy : ℚ) + 1/2) := by
  rw [Rat.divInt_eq_div]
  push_cast
  rw [show (2 * (dx : ℚ) - 1) = 2 * ((dx : ℚ) - 1/2) by ring,
    show (2 * (dy : ℚ) + 1) = 2 * ((dy : ℚ) + 1/2) by ring,
    mul_div_mul_left _ _ (by norm_num)]

lemma right_slope_divInt (dx dy : ℤ) :
    (Rat.divInt (2 * dx + 1) (2 * dy - 1) : ℚ) =
      ((dx : ℚ) + 1/2) / ((dy : ℚ) - 1/2) := by
  rw [Rat.divInt_eq_div]
  push_cast
  rw [show (2 * (dx : ℚ) + 1) = 2 * ((dx : ℚ) + 1/2) by ring,
    show (2 * (dy : ℚ) - 1) = 2 * ((dy : ℚ) - 1/2) by ring,
    mul_div_mul_left _ _ (by norm_num)]

/-- The `dx` values of row `i` that do not hit the final break:
`-i, …, 0`. -/
def negValues (i : ℕ) : List ℤ :=
  (List.range (i + 1)).map (fun (k : ℕ) => (k : ℤ) - (i : ℤ))

lemma dxValues_eq (i : ℕ) : dxValues i = negValues i ++ [1] := by
  unfold dxValues negValues
  rw [List.range_succ, List.map_append]
  simp

lemma mem_negValues (i : ℕ) (dx : ℤ) :
    dx ∈ negValues i ↔ -(i : ℤ) ≤ dx ∧ dx ≤ 0 := by
  unfold negValues
  simp only [List.mem_map, List.mem_range]
  constructor
  · rintro ⟨k, hk, rfl⟩
    omega
  · rintro ⟨h1, h2⟩
    exact ⟨(dx + i).toNat, by omega, by omega⟩

/-- The cells marked in row `i` during an unobstructed scan, as
`(Y, X)` pairs, restricted to `dx` drawn from `negList`. -/
def cellsOfRow (env : ShadowEnv) (i : ℕ) (negList : List ℤ) :
    List (ℤ × ℤ) :=
  negList.filterMap (fun dx =>
    let dy : ℤ := -(i : ℤ)
    let X : ℤ := env.cx + dx * env.xx + dy * env.xy
    let Y : ℤ := env.cy + dx * env.yx + dy * env.yy
    if dx * dx + dy * dy < (env.radius : ℤ) * (env.radius : ℤ) ∧
        inBounds env.map_array Y X
    then some (Y, X) else none)

def rowCells (env : ShadowEnv) (i : ℕ) : List (ℤ × ℤ) :=
  cellsOfRow env i (negValues i)

def markAll (fov : BoolGrid) (cells : List (ℤ × ℤ)) : BoolGrid :=
  cells.foldl (fun fv c => gridSet fv c.1 c.2 true) fov

lemma markAll_append (fov : BoolGrid) (a b : List (ℤ × ℤ)) :
    markAll fov (a ++ b) = markAll (markAll fov a) b := by
  unfold markAll
  rw [List.foldl_append]

lemma scanRow_nil_one (env : ShadowEnv) (recurse : ℚ → ℚ → BoolGrid → BoolGrid)
    (i : ℕ) (hi : 1 ≤ i) (fov : BoolGrid) (ns : ℚ) :
    scanRow env recurse i 0 [1] fov 1 ns false = (fov, 1, false) := by
  rw [scanRow]
  rw [right_slope_divInt 1 (-(i:ℤ)), left_slope_divInt 1 (-(i:ℤ))]
  rw [if_neg (not_lt.2 (right_slope_le_one (-(i:ℤ)) 1 (by omega) (by omega) le_rfl))]
  rw [if_pos (left_slope_one_neg (-(i:ℤ)) (by omega))]


lemma scanRow_noBlock (env : ShadowEnv) (hnb : NoBlock env)
    (recurse : ℚ → ℚ → BoolGrid → BoolGrid) (i : ℕ) (hi : 1 ≤ i) :
    ∀ (negList : List ℤ), (∀ dx ∈ negList, -(i : ℤ) ≤ dx ∧ dx ≤ 0) →
    ∀ (fov : BoolGrid) (ns : ℚ),
    scanRow env recurse i 0 (negList ++ [1]) fov 1 ns false =
      (markAll fov (cellsOfRow env i negList), 1, false) := by
  intro negList
  induction negList with
  | nil =>
      intro _ fov ns
      rw [List.nil_append, scanRow_nil_one env recurse i hi fov ns]
      rfl
  | cons dx rest ih =>
      intro hmem fov ns
      have hdx := hmem dx (List.mem_cons_self _ _)
      rw [List.cons_append, scanRow]
      rw [right_slope_divInt dx (-(i:ℤ)), left_slope_divInt dx (-(i:ℤ))]
      rw [if_neg (not_lt.2 (right_slope_le_one (-(i:ℤ)) dx (by omega)
        (by omega) (by omega)))]
      rw [if_neg (not_lt.2 (left_slope_nonneg (-(i:ℤ)) dx (by omega) hdx.2))]
      simp only [Bool.false_eq_true, if_false]
      rw [if_neg (by
        rintro ⟨hb, hblk, _⟩
        exact hnb _ _ hb hblk)]
      rw [ih (fun d hd => hmem d (List.mem_cons_of_mem _ hd))]
      unfold cellsOfRow
      simp only [List.filterMap_cons]
      by_cases hrad : dx * dx + -(i:ℤ) * -(i:ℤ) <
          (env.radius : ℤ) * (env.radius : ℤ)
      · by_cases hbnd : inBounds env.map_array
            (env.cy + dx * env.yx + -(i:ℤ) * env.yy)
            (env.cx + dx * env.xx + -(i:ℤ) * env.xy)
        · rw [if_pos hrad, if_pos hbnd, if_pos ⟨hrad, hbnd⟩]
          rfl
        · have hno : ¬(dx * dx + -(i:ℤ) * -(i:ℤ) <
              (env.radius : ℤ) * (env.radius : ℤ) ∧
              inBounds env.map_array
                (env.cy + dx * env.yx + -(i:ℤ) * env.yy)
                (env.cx + dx * env.xx + -(i:ℤ) * env.xy)) :=
            fun h => hbnd h.2
          rw [if_pos hrad, if_neg hbnd, if_neg hno]
      · have hno : ¬(dx * dx + -(i:ℤ) * -(i:ℤ) <
              (env.radius : ℤ) * (env.radius : ℤ) ∧
              inBounds env.map_array
                (env.cy + dx * env.yx + -(i:ℤ) * env.yy)
                (env.cx + dx * env.xx + -(i:ℤ) * env.xy)) :=
            fun h => hrad h.1
        rw [if_neg hrad, if_neg hno]

def rowsCells (env : ShadowEnv) : ℕ → ℕ → List (ℤ × ℤ)
  | 0, _ => []
  | fuel + 1, i =>
      if env.radius < i then []
      else rowCells env i ++ rowsCells env fuel (i + 1)

lemma shadowRows_noBlock (env : ShadowEnv) (hnb : NoBlock env) :
    ∀ (fuel i : ℕ), 1 ≤ i → ∀ fov : BoolGrid,
    shadowRows env 0 fuel i 1 fov = markAll fov (rowsCells env fuel i) := by
  intro fuel
  induction fuel with
  | zero => intro i hi fov; rfl
  | succ fuel ih =>
      intro i hi fov
      rw [shadowRows, rowsCells]
      by_cases hrad : env.radius < i
      · rw [if_pos hrad, if_pos hrad]
        rfl
      · rw [if_neg hrad, if_neg hrad]
        rw [dxValues_eq]
        rw [scanRow_noBlock env hnb _ i hi (negValues i)
          (fun dx hdx => (mem_negValues i dx).1 hdx) fov 1]
        simp only []
        rw [if_neg (by simp)]
        rw [ih (i + 1) (by omega)]
        rw [markAll_append]
        rfl

lemma mem_rowCells (env : ShadowEnv) (i : ℕ) (c : ℤ × ℤ) :
    c ∈ rowCells env i ↔
      ∃ dx : ℤ, -(i : ℤ) ≤ dx ∧ dx ≤ 0 ∧
        dx * dx + -(i : ℤ) * -(i : ℤ) <
          (env.radius : ℤ) * (env.radius : ℤ) ∧
        inBounds env.map_array
          (env.cy + dx * env.yx + -(i : ℤ) * env.yy)
          (env.cx + dx * env.xx + -(i : ℤ) * env.xy) ∧
        c = (env.cy + dx * env.yx + -(i : ℤ) * env.yy,
             env.cx + dx * env.xx + -(i : ℤ) * env.xy) := by
  unfold rowCells cellsOfRow
  rw [List.mem_filterMap]
  constructor
  · rintro ⟨dx, hdx, hf⟩
    rcases (mem_negValues i dx).1 hdx with ⟨h1, h2⟩
    simp only [] at hf
    by_cases hcond : dx * dx + -(i : ℤ) * -(i : ℤ) <
        (env.radius : ℤ) * (env.radius : ℤ) ∧
        inBounds env.map_array
          (env.cy + dx * env.yx + -(i : ℤ) * env.yy)
          (env.cx + dx * env.xx + -(i : ℤ) * env.xy)
    · rw [if_pos hcond] at hf
      exact ⟨dx, h1, h2, hcond.1, hcond.2, (Option.some_inj.1 hf).symm⟩
    · rw [if_neg hcond] at hf
      cases hf
  · rintro ⟨dx, h1, h2, h3, h4, h5⟩
    refine ⟨dx, (mem_negValues i dx).2 ⟨h1, h2⟩, ?_⟩
    simp only []
    rw [if_pos ⟨h3, h4⟩, h5]

lemma mem_rowsCells (env : ShadowEnv) :
    ∀ (fuel i : ℕ) (c : ℤ × ℤ),
    c ∈ rowsCells env fuel i ↔
      ∃ r : ℕ, i ≤ r ∧ r ≤ env.radius ∧ r < i + fuel ∧ c ∈ rowCells env r := by
  intro fuel
  induction fuel with
  | zero =>
      intro i c
      rw [rowsCells]
      simp only [List.not_mem_nil, false_iff]
      rintro ⟨r, h1, h2, h3, _⟩
      omega
  | succ fuel ih =>
      intro i c
      rw [rowsCells]
      by_cases hrad : env.radius < i
      · rw [if_pos hrad]
        simp only [List.not_mem_nil, false_iff]
        rintro ⟨r, h1, h2, h3, _⟩
        omega
      · rw [if_neg hrad]
        rw [List.mem_append, ih (i + 1) c]
        constructor
        · rintro (hc | ⟨r, h1, h2, h3, hc⟩)
          · exact ⟨i, le_rfl, by omega, by omega, hc⟩
          · exact ⟨r, by omega, h2, by omega, hc⟩
        · rintro ⟨r, h1, h2, h3, hc⟩
          by_cases hri : r = i
          · subst hri; exact Or.inl hc
          · exact Or.inr ⟨r, by omega, h2, by omega, hc⟩

lemma rowsCells_inBounds (env : ShadowEnv) (fuel i : ℕ) (c : ℤ × ℤ)
    (hc : c ∈ rowsCells env fuel i) : inBounds env.map_array c.1 c.2 := by
  rcases (mem_rowsCells env fuel i c).1 hc with ⟨r, _, _, _, hr⟩
  rcases (mem_rowCells env r c).1 hr with ⟨dx, _, _, _, hb, hceq⟩
  rw [hceq]
  exact hb

lemma shape0_markAll (fov : BoolGrid) (cells : List (ℤ × ℤ)) :
    shape0 (markAll fov cells) = shape0 fov := by
  induction cells generalizing fov with
  | nil => rfl
  | cons c rest ih =>
      unfold markAll
      rw [List.foldl_cons]
      rw [show List.foldl (fun fv c => gridSet fv c.1 c.2 true)
          (gridSet fov c.1 c.2 true) rest =
          markAll (gridSet fov c.1 c.2 true) rest from rfl]
      rw [ih (gridSet fov c.1 c.2 true), shape0_gridSet]

lemma markAll_cons (fov : BoolGrid) (c : ℤ × ℤ) (rest : List (ℤ × ℤ)) :
    markAll fov (c :: rest) = markAll (gridSet fov c.1 c.2 true) rest := rfl

lemma shape1_markAll (fov : BoolGrid) (cells : List (ℤ × ℤ))
    (hrect : Rect fov)
    (hc : ∀ c ∈ cells, 0 ≤ c.1 ∧ c.1 < (shape0 fov : ℤ)) :
    shape1 (markAll fov cells) = shape1 fov := by
  induction cells generalizing fov with
  | nil => rfl
  | cons c rest ih =>
      rcases hc c (List.mem_cons_self _ _) with ⟨h1, h2⟩
      rw [markAll_cons]
      rw [ih (gridSet fov c.1 c.2 true)
        (rect_gridSet fov c.1 c.2 true h1 h2 hrect)
        (fun d hd => by
          rw [shape0_gridSet]
          exact hc d (List.mem_cons_of_mem _ hd))]
      exact shape1_gridSet fov c.1 c.2 true h1 h2 hrect

lemma rect_markAll (fov : BoolGrid) (cells : List (ℤ × ℤ))
    (hrect : Rect fov)
    (hc : ∀ c ∈ cells, 0 ≤ c.1 ∧ c.1 < (shape0 fov : ℤ)) :
    Rect (markAll fov cells) := by
  induction cells generalizing fov with
  | nil => exact hrect
  | cons c rest ih =>
      rcases hc c (List.mem_cons_self _ _) with ⟨h1, h2⟩
      rw [markAll_cons]
      exact ih (gridSet fov c.1 c.2 true)
        (rect_gridSet fov c.1 c.2 true h1 h2 hrect)
        (fun d hd => by
          rw [shape0_gridSet]
          exact hc d (List.mem_cons_of_mem _ hd))

lemma gridGet_markAll (cells : List (ℤ × ℤ)) :
    ∀ (fov : BoolGrid), Rect fov →
    (∀ c ∈ cells, 0 ≤ c.1 ∧ c.1 < (shape0 fov : ℤ) ∧
      0 ≤ c.2 ∧ c.2 < (shape1 fov : ℤ)) →
    ∀ y x : ℤ, 0 ≤ y → y < (shape0 fov : ℤ) → 0 ≤ x → x < (shape1 fov : ℤ) →
    (gridGet (markAll fov cells) false y x = true ↔
      (gridGet fov false y x = true ∨ (y, x) ∈ cells)) := by
  induction cells with
  | nil =>
      intro fov _ _ y x _ _ _ _
      simp [markAll]
  | cons c rest ih =>
      intro fov hrect hc y x hy hylt hx hxlt
      rcases hc c (List.mem_cons_self _ _) with ⟨h1, h2, h3, h4⟩
      rw [markAll_cons]
      have hsh0 : shape0 (gridSet fov c.1 c.2 true) = shape0 fov :=
        shape0_gridSet ..
      have hsh1 : shape1 (gridSet fov c.1 c.2 true) = shape1 fov :=
        shape1_gridSet fov c.1 c.2 true h1 h2 hrect
      rw [ih (gridSet fov c.1 c.2 true)
        (rect_gridSet fov c.1 c.2 true h1 h2 hrect)
        (fun d hd => by
          rw [hsh0, hsh1]
          exact hc d (List.mem_cons_of_mem _ hd))
        y x hy (by rw [hsh0]; exact hylt) hx (by rw [hsh1]; exact hxlt)]
      by_cases heq : y = c.1 ∧ x = c.2
      · rw [heq.1, heq.2,
          gridGet_gridSet_same fov false true c.1 c.2 h1 h2 h3 h4 hrect]
        simp
      · rw [gridGet_gridSet_other fov false true c.1 c.2 y x heq h1 h3 hy hx]
        constructor
        · rintro (h | h)
          · exact Or.inl h
          · exact Or.inr (List.mem_cons_of_mem _ h)
        · rintro (h | h)
          · exact Or.inl h
          · rcases List.mem_cons.1 h with h0 | h0
            · exfalso
              apply heq
              rw [Prod.ext_iff] at h0
              exact ⟨h0.1, h0.2⟩
            · exact Or.inr h0

/-- The environment `compute_fov` builds for one octant multiplier. -/
def octEnv (g : IntGrid) (bt : List ℤ) (px py : ℤ) (R : ℕ)
    (m : ℤ × ℤ × ℤ × ℤ) : ShadowEnv :=
  { map_array := g, blocking_tiles := bt, cx := px, cy := py, radius := R,
    xx := m.1, xy := m.2.1, yx := m.2.2.1, yy := m.2.2.2 }

lemma compute_fov_eq_foldl (g : IntGrid) (px py : ℤ) (R : ℕ)
    (bt : List ℤ) :
    compute_fov g px py R bt =
      multipliers.foldl
        (fun fov m =>
          recursive_shadowcast (octEnv g bt px py R m) (R + 1) 1 1 0 fov)
        (if inBounds g py px
         then gridSet (zerosLike g) py px true else zerosLike g) := rfl

lemma octApply_eq_markAll (g : IntGrid) (bt : List ℤ) (px py : ℤ) (R : ℕ)
    (m : ℤ × ℤ × ℤ × ℤ) (fov : BoolGrid)
    (hnb : ∀ y x : ℤ, inBounds g y x → cellAt g y x ∉ bt) :
    recursive_shadowcast (octEnv g bt px py R m) (R + 1) 1 1 0 fov =
      markAll fov (rowsCells (octEnv g bt px py R m) (R + 1) 1) := by
  unfold recursive_shadowcast
  rw [if_neg (by norm_num)]
  exact shadowRows_noBlock (octEnv g bt px py R m) hnb (R + 1) 1 le_rfl fov

lemma octCells_bounds (g : IntGrid) (bt : List ℤ) (px py : ℤ) (R : ℕ)
    (m : ℤ × ℤ × ℤ × ℤ) (fov : BoolGrid)
    (hsh0 : shape0 fov = shape0 g) (hsh1 : shape1 fov = shape1 g) :
    ∀ c ∈ rowsCells (octEnv g bt px py R m) (R + 1) 1,
      0 ≤ c.1 ∧ c.1 < (shape0 fov : ℤ) ∧
      0 ≤ c.2 ∧ c.2 < (shape1 fov : ℤ) := by
  intro c hc
  have hb := rowsCells_inBounds (octEnv g bt px py R m) (R + 1) 1 c hc
  rcases hb with ⟨h1, h2, h3, h4⟩
  rw [hsh0, hsh1]
  exact ⟨h1, h2, h3, h4⟩

lemma foldOct_char (g : IntGrid) (bt : List ℤ) (px py : ℤ) (R : ℕ)
    (hnb : ∀ y x : ℤ, inBounds g y x → cellAt g y x ∉ bt)
    (ms : List (ℤ × ℤ × ℤ × ℤ)) :
    ∀ fov : BoolGrid, Rect fov →
    shape0 fov = shape0 g → shape1 fov = shape1 g →
    ∀ y x : ℤ, 0 ≤ y → y < (shape0 g : ℤ) → 0 ≤ x → x < (shape1 g : ℤ) →
    (gridGet
        (ms.foldl
          (fun fov m =>
            recursive_shadowcast (octEnv g bt px py R m) (R + 1) 1 1 0 fov)
          fov) false y x = true ↔
      (gridGet fov false y x = true ∨
        ∃ m ∈ ms, (y, x) ∈ rowsCells (octEnv g bt px py R m) (R + 1) 1)) := by
  induction ms with
  | nil =>
      intro fov _ _ _ y x _ _ _ _
      simp
  | cons m ms ih =>
      intro fov hrect hsh0 hsh1 y x hy hylt hx hxlt
      rw [List.foldl_cons]
      have hcb := octCells_bounds g bt px py R m fov hsh0 hsh1
      have hoct := octApply_eq_markAll g bt px py R m fov hnb
      have hsh0m : shape0 (recursive_shadowcast (octEnv g bt px py R m)
          (R + 1) 1 1 0 fov) = shape0 g := by
        rw [hoct, shape0_markAll, hsh0]
      have hsh1m : shape1 (recursive_shadowcast (octEnv g bt px py R m)
          (R + 1) 1 1 0 fov) = shape1 g := by
        rw [hoct]
        rw [shape1_markAll fov _ hrect (fun c hc => ⟨(hcb c hc).1, (hcb c hc).2.1⟩)]
        exact hsh1
      have hrectm : Rect (recursive_shadowcast (octEnv g bt px py R m)
          (R + 1) 1 1 0 fov) := by
        rw [hoct]
        exact rect_markAll fov _ hrect (fun c hc => ⟨(hcb c hc).1, (hcb c hc).2.1⟩)
      rw [ih _ hrectm hsh0m hsh1m y x hy hylt hx hxlt]
      rw [hoct]
      rw [gridGet_markAll _ fov hrect hcb y x hy (by rw [hsh0]; exact hylt)
        hx (by rw [hsh1]; exact hxlt)]
      constructor
      · rintro ((h | h) | h)
        · exact Or.inl h
        · exact Or.inr ⟨m, List.mem_cons_self _ _, h⟩
        · rcases h with ⟨m2, hm2, h⟩
          exact Or.inr ⟨m2, List.mem_cons_of_mem _ hm2, h⟩
      · rintro (h | ⟨m2, hm2, h⟩)
        · exact Or.inl (Or.inl h)
        · rcases List.mem_cons.1 hm2 with h0 | h0
          · subst h0
            exact Or.inl (Or.inr h)
          · exact Or.inr ⟨m2, h0, h⟩

lemma mem_rowsCells_full (env : ShadowEnv) (c : ℤ × ℤ) :
    c ∈ rowsCells env (env.radius + 1) 1 ↔
      ∃ (r : ℕ) (dx : ℤ), 1 ≤ r ∧ r ≤ env.radius ∧ -(r : ℤ) ≤ dx ∧ dx ≤ 0 ∧
        dx * dx + -(r : ℤ) * -(r : ℤ) <
          (env.radius : ℤ) * (env.radius : ℤ) ∧
        inBounds env.map_array
          (env.cy + dx * env.yx + -(r : ℤ) * env.yy)
          (env.cx + dx * env.xx + -(r : ℤ) * env.xy) ∧
        c = (env.cy + dx * env.yx + -(r : ℤ) * env.yy,
             env.cx + dx * env.xx + -(r : ℤ) * env.xy) := by
  rw [mem_rowsCells]
  constructor
  · rintro ⟨r, h1, h2, _, hr⟩
    rcases (mem_rowCells env r c).1 hr with ⟨dx, hd1, hd2, hd3, hd4, hd5⟩
    exact ⟨r, dx, h1, h2, hd1, hd2, hd3, hd4, hd5⟩
  · rintro ⟨r, dx, h1, h2, hd1, hd2, hd3, hd4, hd5⟩
    exact ⟨r, h1, h2, by omega,
      (mem_rowCells env r c).2 ⟨dx, hd1, hd2, hd3, hd4, hd5⟩⟩

lemma octants_disc (g : IntGrid) (bt : List ℤ) (px py : ℤ) (R : ℕ)
    (y x : ℤ) (hb : inBounds g y x) :
    (∃ m ∈ multipliers,
        (y, x) ∈ rowsCells (octEnv g bt px py R m) (R + 1) 1) ↔
      ((y, x) ≠ (py, px) ∧
        (y - py) * (y - py) + (x - px) * (x - px) < (R : ℤ) * (R : ℤ)) := by
  constructor
  · rintro ⟨m, hm, hmem⟩
    have hfull := (mem_rowsCells_full (octEnv g bt px py R m) (y, x)).1 hmem
    rcases hfull with ⟨r, dx, h1, h2, hd1, hd2, hd3, _, hd5⟩
    rw [Prod.ext_iff] at hd5
    rcases hd5 with ⟨hy, hx⟩
    have hd3R : dx * dx + -(r : ℤ) * -(r : ℤ) < (R : ℤ) * (R : ℤ) := hd3
    have hrpos : 1 ≤ (r : ℤ) := by exact_mod_cast h1
    simp only [multipliers, List.mem_cons, List.not_mem_nil, or_false] at hm
    rcases hm with rfl | rfl | rfl | rfl | rfl | rfl | rfl | rfl <;>
      simp only [octEnv] at hy hx <;>
      refine ⟨?_, ?_⟩ <;>
      [skip;
       (have key : (y - py) * (y - py) + (x - px) * (x - px) =
            dx * dx + -(r : ℤ) * -(r : ℤ) := by rw [hy, hx]; ring
        rw [key]; exact hd3R);
       skip;
       (have key : (y - py) * (y - py) + (x - px) * (x - px) =
            dx * dx + -(r : ℤ) * -(r : ℤ) := by rw [hy, hx]; ring
        rw [key]; exact hd3R);
       skip;
       (have key : (y - py) * (y - py) + (x - px) * (x - px) =
            dx * dx + -(r : ℤ) * -(r : ℤ) := by rw [hy, hx]; ring
        rw [key]; exact hd3R);
       skip;
       (have key : (y - py) * (y - py) + (x - px) * (x - px) =
            dx * dx + -(r : ℤ) * -(r : ℤ) := by rw [hy, hx]; ring
        rw [key]; exact hd3R);
       skip;
       (have key : (y - py) * (y - py) + (x - px) * (x - px) =
            dx * dx + -(r : ℤ) * -(r : ℤ) := by rw [hy, hx]; ring
        rw [key]; exact hd3R);
       skip;
       (have key : (y - py) * (y - py) + (x - px) * (x - px) =
            dx * dx + -(r : ℤ) * -(r : ℤ) := by rw [hy, hx]; ring
        rw [key]; exact hd3R);
       skip;
       (have key : (y - py) * (y - py) + (x - px) * (x - px) =
            dx * dx + -(r : ℤ) * -(r : ℤ) := by rw [hy, hx]; ring
        rw [key]; exact hd3R);
       skip;
       (have key : (y - py) * (y - py) + (x - px) * (x - px) =
            dx * dx + -(r : ℤ) * -(r : ℤ) := by rw [hy, hx]; ring
        rw [key]; exact hd3R)] <;>
      (intro hc; rw [Prod.ext_iff] at hc; rcases hc with ⟨hcy, hcx⟩; omega)
  · rintro ⟨hne, hlt⟩
    have hne2 : ¬(y = py ∧ x = px) := by
      intro hc
      exact hne (Prod.ext_iff.2 ⟨hc.1, hc.2⟩)
    have hab : ¬(x - px = 0 ∧ y - py = 0) := by
      intro hc
      exact hne2 ⟨by omega, by omega⟩
    have haR : (x - px) * (x - px) < (R : ℤ) * (R : ℤ) := by nlinarith [hlt]
    have hbR : (y - py) * (y - py) < (R : ℤ) * (R : ℤ) := by nlinarith [hlt]
    have haabs : x - px < (R : ℤ) ∧ -(R : ℤ) < x - px := by
      constructor <;> nlinarith [haR]
    have hbabs : y - py < (R : ℤ) ∧ -(R : ℤ) < y - py := by
      constructor <;> nlinarith [hbR]
    have pick : ∃ m ∈ multipliers, ∃ (r : ℕ) (dx : ℤ),
        1 ≤ r ∧ r ≤ R ∧ -(r : ℤ) ≤ dx ∧ dx ≤ 0 ∧
        dx * dx + -(r : ℤ) * -(r : ℤ) =
          (y - py) * (y - py) + (x - px) * (x - px) ∧
        y = py + dx * m.2.2.1 + -(r : ℤ) * m.2.2.2 ∧
        x = px + dx * m.1 + -(r : ℤ) * m.2.1 := by
      by_cases hbs : y - py < 0
      · by_cases has : x - px ≤ 0
        · by_cases hcmp : y - py ≤ x - px
          · refine ⟨(1, 0, 0, 1), by simp [multipliers],
              (py - y).toNat, x - px,
              by omega, by omega, by omega, by omega, ?_, by
                push_cast
                omega, by
                push_cast
                omega⟩
            have hr : (((py - y).toNat) : ℤ) = py - y := by omega
            rw [hr]
            ring
          · refine ⟨(0, 1, 1, 0), by simp [multipliers],
              (px - x).toNat, y - py,
              by omega, by omega, by omega, by omega, ?_, by
                push_cast
                omega, by
                push_cast
                omega⟩
            have hr : (((px - x).toNat) : ℤ) = px - x := by omega
            rw [hr]
            ring
        · by_cases hcmp : x - px ≤ py - y
          · refine ⟨(-1, 0, 0, 1), by simp [multipliers],
              (py - y).toNat, px - x,
              by omega, by omega, by omega, by omega, ?_, by
                push_cast
                omega, by
                push_cast
                omega⟩
            have hr : (((py - y).toNat) : ℤ) = py - y := by omega
            rw [hr]
            ring
          · refine ⟨(0, -1, 1, 0), by simp [multipliers],
              (x - px).toNat, y - py,
              by omega, by omega, by omega, by omega, ?_, by
                push_cast
                omega, by
                push_cast
                omega⟩
            have hr : (((x - px).toNat) : ℤ) = x - px := by omega
            rw [hr]
            ring
      · by_cases hbz : y - py = 0
        · by_cases has : x - px < 0
          · refine ⟨(0, 1, 1, 0), by simp [multipliers],
              (px - x).toNat, y - py,
              by omega, by omega, by omega, by omega, ?_, by
                push_cast
                omega, by
                push_cast
                omega⟩
            have hr : (((px - x).toNat) : ℤ) = px - x := by omega
            rw [hr]
            ring
          · refine ⟨(0, -1, 1, 0), by simp [multipliers],
              (x - px).toNat, y - py,
              by omega, by omega, by omega, by omega, ?_, by
                push_cast
                omega, by
                push_cast
                omega⟩
            have hr : (((x - px).toNat) : ℤ) = x - px := by omega
            rw [hr]
            ring
        · by_cases has : 0 ≤ x - px
          · by_cases hcmp : x - px ≤ y - py
            · refine ⟨(-1, 0, 0, -1), by simp [multipliers],
                (y - py).toNat, px - x,
                by omega, by omega, by omega, by omega, ?_, by
                  push_cast
                  omega, by
                  push_cast
                  omega⟩
              have hr : (((y - py).toNat) : ℤ) = y - py := by omega
              rw [hr]
              ring
            · refine ⟨(0, -1, -1, 0), by simp [multipliers],
                (x - px).toNat, py - y,
                by omega, by omega, by omega, by omega, ?_, by
                  push_cast
                  omega, by
                  push_cast
                  omega⟩
              have hr : (((x - px).toNat) : ℤ) = x - px := by omega
              rw [hr]
              ring
          · by_cases hcmp : px - x ≤ y - py
            · refine ⟨(1, 0, 0, -1), by simp [multipliers],
                (y - py).toNat, x - px,
                by omega, by omega, by omega, by omega, ?_, by
                  push_cast
                  omega, by
                  push_cast
                  omega⟩
              have hr : (((y - py).toNat) : ℤ) = y - py := by omega
              rw [hr]
              ring
            · refine ⟨(0, 1, -1, 0), by simp [multipliers],
                (px - x).toNat, py - y,
                by omega, by omega, by omega, by omega, ?_, by
                  push_cast
                  omega, by
                  push_cast
                  omega⟩
              have hr : (((px - x).toNat) : ℤ) = px - x := by omega
              rw [hr]
              ring
    rcases pick with ⟨m, hm, r, dx, h1, h2, h3, h4, h5, h6, h7⟩
    refine ⟨m, hm,
      (mem_rowsCells_full (octEnv g bt px py R m) (y, x)).2
        ⟨r, dx, h1, h2, h3, h4, ?_, ?_, ?_⟩⟩
    · show dx * dx + -(r : ℤ) * -(r : ℤ) < (R : ℤ) * (R : ℤ)
      rw [h5]
      exact hlt
    · simp only [octEnv]
      rw [← h6, ← h7]
      exact hb
    · simp only [octEnv]
      rw [Prod.ext_iff]
      exact ⟨h6, h7⟩

lemma initial_fov_char (g : IntGrid) (px py : ℤ) (hrect : Rect g)
    (hp : inBounds g py px) (y x : ℤ)
    (hy : 0 ≤ y) (hylt : y < (shape0 g : ℤ))
    (hx : 0 ≤ x) (hxlt : x < (shape1 g : ℤ)) :
    gridGet (gridSet (zerosLike g) py px true) false y x = true ↔
      (y, x) = (py, px) := by
  rcases hp with ⟨hp1, hp2, hp3, hp4⟩
  have hz0 : shape0 (zerosLike g) = shape0 g := shape0_zerosLike g
  have hz1 : shape1 (zerosLike g) = shape1 g := shape1_zerosLike g
  by_cases heq : y = py ∧ x = px
  · rw [heq.1, heq.2]
    rw [gridGet_gridSet_same (zerosLike g) false true py px
      hp1 (by rw [hz0]; exact hp2) hp3 (by rw [hz1]; exact hp4)
      (rect_zerosLike g hrect)]
    simp
  · rw [gridGet_gridSet_other (zerosLike g) false true py px y x heq
      hp1 hp3 hy hx]
    rw [gridGet_zerosLike]
    simp only [Bool.false_eq_true, false_iff]
    intro hc
    rw [Prod.ext_iff] at hc
    exact heq ⟨hc.1, hc.2⟩

/-- C2 (amended): on a grid with no opaque cells and an in-bounds origin,
`compute_fov` with radius `R ∈ {0, 1, 3, 7}` marks exactly the in-bounds
cells that are the origin itself or whose squared Euclidean distance from
the origin is strictly less than `R²` (the source compares
`dx*dx + dy*dy < radius_squared` with a strict inequality, so cells at
distance exactly `R` are not visible). -/
theorem compute_fov_unobstructed (g : IntGrid) (bt : List ℤ)
    (px py : ℤ) (R : ℕ)
    (hR : R = 0 ∨ R = 1 ∨ R = 3 ∨ R = 7)
    (hrect : Rect g)
    (hnb : ∀ y x : ℤ, inBounds g y x → cellAt g y x ∉ bt)
    (hp : inBounds g py px)
    (y x : ℤ) (hbnd : inBounds g y x) :
    gridGet (compute_fov g px py R bt) false y x = true ↔
      ((y, x) = (py, px) ∨
        (y - py) * (y - py) + (x - px) * (x - px) < (R : ℤ) * (R : ℤ)) := by
  rcases hbnd with ⟨hy, hylt, hx, hxlt⟩
  rw [compute_fov_eq_foldl, if_pos hp]
  have hz0 : shape0 (zerosLike g) = shape0 g := shape0_zerosLike g
  have hz1 : shape1 (zerosLike g) = shape1 g := shape1_zerosLike g
  rcases hp with ⟨hp1, hp2, hp3, hp4⟩
  have hrect0 : Rect (gridSet (zerosLike g) py px true) :=
    rect_gridSet (zerosLike g) py px true hp1 (by rw [hz0]; exact hp2)
      (rect_zerosLike g hrect)
  have hsh0 : shape0 (gridSet (zerosLike g) py px true) = shape0 g := by
    rw [shape0_gridSet, hz0]
  have hsh1 : shape1 (gridSet (zerosLike g) py px true) = shape1 g := by
    rw [shape1_gridSet (zerosLike g) py px true hp1
      (by rw [hz0]; exact hp2) (rect_zerosLike g hrect), hz1]
  rw [foldOct_char g bt px py R hnb multipliers _ hrect0 hsh0 hsh1
    y x hy hylt hx hxlt]
  rw [initial_fov_char g px py hrect ⟨hp1, hp2, hp3, hp4⟩ y x hy hylt hx hxlt]
  rw [octants_disc g bt px py R y x ⟨hy, hylt, hx, hxlt⟩]
  constructor
  · rintro (h | ⟨_, h⟩)
    · exact Or.inl h
    · exact Or.inr h
  · rintro (h | h)
    · exact Or.inl h
    · by_cases horig : (y, x) = (py, px)
      · exact Or.inl horig
      · exact Or.inr ⟨horig, h⟩

/-- A 3×3 all-transparent grid. -/
def fovDemoGrid : IntGrid := [[0, 0, 0], [0, 0, 0], [0, 0, 0]]

lemma fovDemoGrid_cellAt (y x : ℤ) : cellAt fovDemoGrid y x = 0 := by
  unfold cellAt fovDemoGrid
  have hrow : ([[0, 0, 0], [0, 0, 0], [0, 0, 0]] : IntGrid).getD y.toNat []
      = [0, 0, 0] ∨
      ([[0, 0, 0], [0, 0, 0], [0, 0, 0]] : IntGrid).getD y.toNat [] = [] := by
    rcases hn : y.toNat with _ | _ | _ | n
    · exact Or.inl rfl
    · exact Or.inl rfl
    · exact Or.inl rfl
    · exact Or.inr rfl
  rcases hrow with h | h <;> rw [h]
  · rcases hm : x.toNat with _ | _ | _ | m <;> rfl
  · rfl

lemma fovDemoGrid_noBlock :
    ∀ y x : ℤ, inBounds fovDemoGrid y x →
      cellAt fovDemoGrid y x ∉ [(1 : ℤ)] := by
  intro y x _
  rw [fovDemoGrid_cellAt]
  simp

/-- C2 counterexample to the claim as stated: on the all-transparent 3×3
grid with origin (1,1) and radius 1, the cell (0,1) is in bounds at
Euclidean distance exactly 1 ≤ R, yet `compute_fov` does not mark it
(the source uses a strict `<` on the squared radius). -/
theorem compute_fov_claim_counterexample :
    (∀ y x : ℤ, inBounds fovDemoGrid y x →
      cellAt fovDemoGrid y x ∉ [(1 : ℤ)]) ∧
    inBounds fovDemoGrid 0 1 ∧
    ((0 : ℤ) - 1) * (0 - 1) + (1 - 1) * (1 - 1) ≤ 1 * 1 ∧
    gridGet (compute_fov fovDemoGrid 1 1 1 [1]) false 0 1 = false := by
  refine ⟨fovDemoGrid_noBlock, by decide, by decide, by decide⟩

/-- C2 witness for the amended theorem, at the same concrete input:
the origin is visible and the boundary cell (0,1) is exactly excluded. -/
theorem compute_fov_unobstructed_witness :
    (gridGet (compute_fov fovDemoGrid 1 1 1 [1]) false 1 1 = true ↔
      (((1 : ℤ), (1 : ℤ)) = (1, 1) ∨
        ((1 : ℤ) - 1) * (1 - 1) + (1 - 1) * (1 - 1) < (1 : ℤ) * 1)) ∧
    (gridGet (compute_fov fovDemoGrid 1 1 1 [1]) false 0 1 = true ↔
      (((0 : ℤ), (1 : ℤ)) = (1, 1) ∨
        ((0 : ℤ) - 1) * (0 - 1) + (1 - 1) * (1 - 1) < (1 : ℤ) * 1)) := by
  constructor
  · exact compute_fov_unobstructed fovDemoGrid [1] 1 1 1
      (by norm_num) (by decide) fovDemoGrid_noBlock (by decide) 1 1 (by decide)
  · exact compute_fov_unobstructed fovDemoGrid [1] 1 1 1
      (by norm_num) (by decide) fovDemoGrid_noBlock (by decide) 0 1 (by decide)

/-! ## The `Current` view state (current.py)

`Floor` keeps the fields of `damasen.floor.Floor` that the view code
reads: the code grid, the `empty_tile`/`wall_tile` codes (the
`reversed_mapping` lookups of the `Empty`/`Wall` kinds) and the display
glyph of each code (`self.mapping[number].display_character`).
Cells and clouds are represented by their position and display
character; the `floor_cells`/`floor_clouds` dicts become association
lists keyed by position. -/

structure Floor where
  map : IntGrid
  mapping : ℤ → Char
  empty_tile : ℤ
  wall_tile : ℤ

structure Current where
  floor : Floor
  player_cell : ℤ × ℤ
  floor_cells : List ((ℤ × ℤ) × Char)
  floor_clouds : List ((ℤ × ℤ) × Char)
  display_map : String
  display_mask : Option BoolGrid
  los_mask : Option BoolGrid
  memory : Option (List (List Char))

/-- `dict.get((y, x))` on a position-keyed dict. -/
def lookupPos (l : List ((ℤ × ℤ) × Char)) (p : ℤ × ℤ) : Option Char :=
  match l with
  | [] => none
  | (q, ch) :: rest => if q = p then some ch else lookupPos rest p

/-- `Current.project_coords` (current.py line 212). -/
def project_coords (c : Current) (y x direction : ℤ) :
    Except String (Option (ℤ × ℤ)) :=
  let coords : Except String (ℤ × ℤ) :=
    if direction = 0 then .ok (y, x + 1)
    else if direction = 1 then .ok (y + 1, x + 1)
    else if direction = 2 then .ok (y + 1, x)
    else if direction = 3 then .ok (y + 1, x - 1)
    else if direction = 4 then .ok (y, x - 1)
    else if direction = 5 then .ok (y - 1, x - 1)
    else if direction = 6 then .ok (y - 1, x)
    else if direction = 7 then .ok (y - 1, x + 1)
    else .error "invalid direction"
  match coords with
  | .error e => .error e
  | .ok p =>
      if 0 ≤ p.1 ∧ p.1 < (shape0 c.floor.map : ℤ) ∧
          0 ≤ p.2 ∧ p.2 < (shape1 c.floor.map : ℤ)
      then .ok (some p) else .ok none

/-- `Current.move_player` (current.py line 197).  The Python function is
annotated `-> bool` but has no `return` statement: it returns `None` on
every path (printing a message on a blocked move), so the embedded
result carries only the updated state. -/
def move_player (c : Current) (direction : ℤ) : Except String Current :=
  match project_coords c c.player_cell.1 c.player_cell.2 direction with
  | .error e => .error e
  | .ok none => .ok c
  | .ok (some p) =>
      if cellAt c.floor.map p.1 p.2 ≠ c.floor.empty_tile then .ok c
      else .ok { c with player_cell := p }

/-- `Current.display_tile` (current.py line 175): player, then cell,
then cloud, then terrain glyph. -/
def display_tile (c : Current) (y x : ℤ) : Char :=
  if (y, x) = c.player_cell then '@'
  else
    match lookupPos c.floor_cells (y, x) with
    | some ch => ch
    | none =>
        match lookupPos c.floor_clouds (y, x) with
        | some ch => ch
        | none => c.floor.mapping (cellAt c.floor.map y x)

/-- `np.argwhere` on a boolean grid: the coordinates of the `True`
cells, in row-major order. -/
def argwhere (g : BoolGrid) : List (ℤ × ℤ) :=
  ((List.range (shape0 g)).flatMap (fun (yi : ℕ) =>
    (List.range (shape1 g)).map (fun (xi : ℕ) => ((yi : ℤ), (xi : ℤ))))).filter
    (fun p => gridGet g false p.1 p.2)

/-- The display-radius mask
`(y - player_y)² + (x - player_x)² ≤ 14²` (current.py line 120). -/
def displayMaskOf (g : IntGrid) (py px : ℤ) : BoolGrid :=
  (List.range (shape0 g)).map (fun yi =>
    (List.range (shape1 g)).map (fun xi =>
      decide (((yi : ℤ) - py) * ((yi : ℤ) - py) +
        ((xi : ℤ) - px) * ((xi : ℤ) - px) ≤ 14 * 14)))

def onesLike (g : IntGrid) : BoolGrid :=
  g.map (fun row => row.map (fun _ => true))

def spacesLike (g : IntGrid) : List (List Char) :=
  g.map (fun row => row.map (fun _ => ' '))

/-- One iteration of the `for y, x in coords` loop of
`update_visible_map`: the state is `(region, memory)`.  The `numpy`
assignment `visible_region[y - max_y, x - max_x] = character` uses
negative indices `-size ≤ i ≤ 0` on an axis of size
`max - min`, which wrap to `(y - min_y) % (max_y - min_y)` (and likewise
for `x`). -/
def visitCell (c : Current) (lmask : BoolGrid) (min_y min_x : ℤ)
    (sizeY sizeX : ℤ) (st : List (List Char) × List (List Char))
    (p : ℤ × ℤ) : List (List Char) × List (List Char) :=
  let (region, mem) := st
  let row := (p.1 - min_y) % sizeY
  let col := (p.2 - min_x) % sizeX
  if gridGet lmask false p.1 p.2 then
    let ch := display_tile c p.1 p.2
    (gridSet region row col ch, gridSet mem p.1 p.2 ch)
  else
    let ch := gridGet mem ' ' p.1 p.2
    (gridSet region row col ch, mem)

/-- `Current.update_visible_map` (current.py line 134).  Returns `none`
when a `numpy` error would be raised: a missing mask/memory
(`AttributeError` on `None`) or a zero-size `visible_region` axis
(`IndexError` on the assignment). -/
def update_visible_map (c : Current) : Option Current :=
  match c.display_mask, c.los_mask, c.memory with
  | some dmask, some lmask, some mem =>
      let coords := argwhere dmask
      if coords = [] then some { c with display_map := "" }
      else
        let ys := coords.map Prod.fst
        let xs := coords.map Prod.snd
        let min_y := ys.foldl min (ys.headD 0)
        let max_y := ys.foldl max (ys.headD 0)
        let min_x := xs.foldl min (xs.headD 0)
        let max_x := xs.foldl max (xs.headD 0)
        let sizeY := max_y - min_y
        let sizeX := max_x - min_x
        if sizeY = 0 ∨ sizeX = 0 then none
        else
          let region0 : List (List Char) :=
            List.replicate sizeY.toNat (List.replicate sizeX.toNat ' ')
          let st := coords.foldl
            (visitCell c lmask min_y min_x sizeY sizeX) (region0, mem)
          let chars : List Char :=
            st.1.foldl (fun acc row => acc ++ row ++ ['\n']) []
          let stripped :=
            (chars.reverse.dropWhile (fun ch => ch = '\n')).reverse
          some { c with display_map := String.mk stripped,
                        memory := some st.2 }
  | _, _, _ => none

/-- `Current.generate` (current.py line 102): recompute the display
mask and the line-of-sight mask (radius 7, walls opaque), initialise the
memory grid to spaces on first use, then refresh the visible map. -/
def generate (c : Current) (all_seeing : Bool) : Option Current :=
  let py := c.player_cell.1
  let px := c.player_cell.2
  let dmask := displayMaskOf c.floor.map py px
  let blocks := [c.floor.wall_tile]
  let lmask0 := compute_fov c.floor.map px py 7 blocks
  let lmask := if all_seeing then onesLike c.floor.map else lmask0
  let mem := match c.memory with
    | some m => m
    | none => spacesLike c.floor.map
  update_visible_map
    { c with display_mask := some dmask, los_mask := some lmask,
             memory := some mem }

/-! ## C4 and C10: movement -/

lemma project_coords_total (c : Current) (y x d : ℤ)
    (h0 : 0 ≤ d) (h8 : d < 8) :
    ∃ r, project_coords c y x d = .ok r := by
  have hd : d = 0 ∨ d = 1 ∨ d = 2 ∨ d = 3 ∨ d = 4 ∨ d = 5 ∨ d = 6 ∨ d = 7 := by
    omega
  unfold project_coords
  rcases hd with rfl | rfl | rfl | rfl | rfl | rfl | rfl | rfl <;>
    · norm_num
      split <;> exact ⟨_, rfl⟩

/-- C4-support: for directions 0..7 `move_player` never raises, and a
move whose target is out of bounds or not the empty terrain code leaves
the whole state unchanged. -/
theorem move_player_rejected_no_change (c : Current) (d : ℤ)
    (h0 : 0 ≤ d) (h8 : d < 8) :
    (∃ c2, move_player c d = .ok c2) ∧
    (project_coords c c.player_cell.1 c.player_cell.2 d = .ok none →
      move_player c d = .ok c) ∧
    (∀ p, project_coords c c.player_cell.1 c.player_cell.2 d = .ok (some p) →
      cellAt c.floor.map p.1 p.2 ≠ c.floor.empty_tile →
      move_player c d = .ok c) := by
  refine ⟨?_, ?_, ?_⟩
  · rcases project_coords_total c c.player_cell.1 c.player_cell.2 d h0 h8
      with ⟨r, hr⟩
    unfold move_player
    rw [hr]
    rcases r with _ | p
    · exact ⟨c, rfl⟩
    · dsimp only
      by_cases hcell : cellAt c.floor.map p.1 p.2 ≠ c.floor.empty_tile
      · rw [if_pos hcell]; exact ⟨c, rfl⟩
      · rw [if_neg hcell]; exact ⟨_, rfl⟩
  · intro hp
    unfold move_player
    rw [hp]
  · intro p hp hcell
    unfold move_player
    rw [hp]
    dsimp only
    rw [if_pos hcell]

/-- A 2×2 floor whose cell (0,1) is a wall; the player stands at (0,0).
Code 1 is the empty kind, code 0 the wall kind. -/
def demoWalled : Current :=
  { floor := { map := [[1, 0], [1, 1]],
               mapping := fun n => if n = 1 then '.' else '#',
               empty_tile := 1, wall_tile := 0 },
    player_cell := (0, 0), floor_cells := [], floor_clouds := [],
    display_map := "", display_mask := none, los_mask := none,
    memory := none }

/-- C4: moving east into the wall (direction 0) and moving north out of
bounds (direction 6) both return with the state — player position
included — byte-for-byte unchanged and raise nothing; the `-> bool`
annotation notwithstanding, the Python function body has no `return`
statement, so no boolean failure signal exists (it only prints). -/
theorem move_player_blocked_demo :
    move_player demoWalled 0 = .ok demoWalled ∧
    move_player demoWalled 6 = .ok demoWalled := ⟨rfl, rfl⟩

/-- C4 witness-style corollary of the general theorem at the demo
state. -/
theorem move_player_rejected_no_change_witness :
    move_player demoWalled 0 = .ok demoWalled := by
  have h := (move_player_rejected_no_change demoWalled 0
    (by norm_num) (by norm_num)).2.2
  exact h (0, 1) rfl (by decide)

/-- C10: `move_player` never consults the occupants or clouds — the
result on a state with any `floor_cells`/`floor_clouds` is the result on
the bare state with the same occupants re-attached — and a move onto an
in-bounds empty-coded cell always succeeds, regardless of who stands
there. -/
theorem move_player_ignores_occupants (c : Current) (d : ℤ)
    (cells clouds : List ((ℤ × ℤ) × Char)) :
    move_player { c with floor_cells := cells, floor_clouds := clouds } d =
      Except.map
        (fun c2 => { c2 with floor_cells := cells, floor_clouds := clouds })
        (move_player c d) ∧
    (∀ p, project_coords c c.player_cell.1 c.player_cell.2 d = .ok (some p) →
      cellAt c.floor.map p.1 p.2 = c.floor.empty_tile →
      move_player c d = .ok { c with player_cell := p }) := by
  constructor
  · have hproj : project_coords
        { c with floor_cells := cells, floor_clouds := clouds }
        c.player_cell.1 c.player_cell.2 d =
        project_coords c c.player_cell.1 c.player_cell.2 d := rfl
    unfold move_player
    rw [hproj]
    cases hp : project_coords c c.player_cell.1 c.player_cell.2 d with
    | error e => rfl
    | ok r =>
        rcases r with _ | p
        · rfl
        · dsimp only
          by_cases hcell : cellAt c.floor.map p.1 p.2 ≠ c.floor.empty_tile
          · rw [if_pos hcell, if_pos hcell]
            rfl
          · rw [if_neg hcell, if_neg hcell]
            rfl
  · intro p hp hcell
    unfold move_player
    rw [hp]
    dsimp only
    rw [if_neg (fun hc => hc hcell)]

/-- A 1×2 all-empty floor with another occupant on cell (0,1); the
player stands at (0,0). -/
def demoOccupied : Current :=
  { floor := { map := [[1, 1]],
               mapping := fun n => if n = 1 then '.' else '#',
               empty_tile := 1, wall_tile := 0 },
    player_cell := (0, 0), floor_cells := [((0, 1), 'M')],
    floor_clouds := [], display_map := "", display_mask := none,
    los_mask := none, memory := none }

/-- C10 witness: the player moves east onto the cell occupied by the
monster at (0,1). -/
theorem move_player_ignores_occupants_witness :
    move_player demoOccupied 0 = .ok { demoOccupied with player_cell := (0, 1) } := by
  have h := (move_player_ignores_occupants demoOccupied 0
    demoOccupied.floor_cells demoOccupied.floor_clouds).2
  exact h (0, 1) rfl (by decide)

/-! ## C5: memory monotonicity -/

lemma argwhere_nonneg (g : BoolGrid) :
    ∀ p ∈ argwhere g, 0 ≤ p.1 ∧ 0 ≤ p.2 := by
  intro p hp
  unfold argwhere at hp
  rcases List.mem_filter.1 hp with ⟨hmem, _⟩
  rcases List.mem_flatMap.1 hmem with ⟨yi, _, hyi⟩
  rcases List.mem_map.1 hyi with ⟨xi, _, hxi⟩
  rw [← hxi]
  constructor <;> simp

lemma visitFold_memory (c : Current) (lmask : BoolGrid)
    (min_y min_x sizeY sizeX : ℤ) (coords : List (ℤ × ℤ))
    (hc : ∀ p ∈ coords, 0 ≤ p.1 ∧ 0 ≤ p.2) :
    ∀ (st : List (List Char) × List (List Char)) (y x : ℤ),
      0 ≤ y → 0 ≤ x → gridGet lmask false y x = false →
      gridGet
        (coords.foldl (visitCell c lmask min_y min_x sizeY sizeX) st).2
        ' ' y x = gridGet st.2 ' ' y x := by
  induction coords with
  | nil => intro st y x _ _ _; rfl
  | cons p rest ih =>
      intro st y x hy hx hvis
      rcases hc p (List.mem_cons_self _ _) with ⟨hp1, hp2⟩
      rcases st with ⟨region, mem0⟩
      rw [List.foldl_cons]
      rw [ih (fun q hq => hc q (List.mem_cons_of_mem _ hq)) _ y x hy hx hvis]
      unfold visitCell
      dsimp only
      by_cases hv : gridGet lmask false p.1 p.2 = true
      · rw [if_pos hv]
        have hne : ¬(y = p.1 ∧ x = p.2) := by
          rintro ⟨rfl, rfl⟩
          rw [hv] at hvis
          cases hvis
        exact gridGet_gridSet_other mem0 ' ' (display_tile c p.1 p.2)
          p.1 p.2 y x hne hp1 hp2 hy hx
      · rw [if_neg hv]

lemma update_visible_map_spec (c c2 : Current)
    (h : update_visible_map c = some c2) :
    c2.los_mask = c.los_mask ∧
    ∀ lmask mem, c.los_mask = some lmask → c.memory = some mem →
      ∃ mem2, c2.memory = some mem2 ∧
        ∀ y x : ℤ, 0 ≤ y → 0 ≤ x → gridGet lmask false y x = false →
          gridGet mem2 ' ' y x = gridGet mem ' ' y x := by
  unfold update_visible_map at h
  cases hd : c.display_mask with
  | none => rw [hd] at h; cases h
  | some dmask =>
  cases hl : c.los_mask with
  | none => rw [hd, hl] at h; cases h
  | some lmask0 =>
  cases hm : c.memory with
  | none => rw [hd, hl, hm] at h; cases h
  | some mem0 =>
  rw [hd, hl, hm] at h
  dsimp only at h
  by_cases hc0 : argwhere dmask = []
  · rw [if_pos hc0] at h
    cases h
    refine ⟨rfl, ?_⟩
    intro lmask mem hls hms
    cases hls
    cases hms
    exact ⟨mem0, rfl, fun y x _ _ _ => rfl⟩
  · rw [if_neg hc0] at h
    by_cases hsz : (((argwhere dmask).map Prod.fst).foldl max
          (((argwhere dmask).map Prod.fst).headD 0) -
        ((argwhere dmask).map Prod.fst).foldl min
          (((argwhere dmask).map Prod.fst).headD 0) = 0) ∨
        (((argwhere dmask).map Prod.snd).foldl max
          (((argwhere dmask).map Prod.snd).headD 0) -
        ((argwhere dmask).map Prod.snd).foldl min
          (((argwhere dmask).map Prod.snd).headD 0) = 0)
    · rw [if_pos hsz] at h
      cases h
    · rw [if_neg hsz] at h
      cases h
      refine ⟨rfl, ?_⟩
      intro lmask mem hls hms
      cases hls
      cases hms
      refine ⟨_, rfl, ?_⟩
      intro y x hy hx hvis
      exact visitFold_memory c lmask0 _ _ _ _ (argwhere dmask)
        (argwhere_nonneg dmask) _ y x hy hx hvis

/-- C5: one refresh (`generate`, which recomputes the masks and calls
`update_visible_map`) never changes the remembered glyph of a cell that
is not in the freshly computed visibility mask, and a memory cell is
only ever overwritten while it is currently visible. -/
theorem refresh_memory_monotonic (c c2 : Current) (all_seeing : Bool)
    (hgen : generate c all_seeing = some c2)
    (mem : List (List Char)) (hm : c.memory = some mem)
    (y x : ℤ) (hy : 0 ≤ y) (hx : 0 ≤ x)
    (hglyph : gridGet mem ' ' y x ≠ ' ') :
    ∃ lmask mem2, c2.los_mask = some lmask ∧ c2.memory = some mem2 ∧
      (gridGet lmask false y x = false →
        gridGet mem2 ' ' y x = gridGet mem ' ' y x) ∧
      (gridGet mem2 ' ' y x ≠ gridGet mem ' ' y x →
        gridGet lmask false y x = true) := by
  unfold generate at hgen
  rw [hm] at hgen
  dsimp only at hgen
  rcases update_visible_map_spec _ _ hgen with ⟨hlos, hmem⟩
  rcases hmem _ mem rfl rfl with ⟨mem2, hmem2, hinv⟩
  refine ⟨_, mem2, hlos, hmem2, hinv y x hy hx, ?_⟩
  intro hne
  by_cases hv : gridGet (if all_seeing = true then onesLike c.floor.map
      else compute_fov c.floor.map c.player_cell.2 c.player_cell.1 7
        [c.floor.wall_tile]) false y x = true
  · exact hv
  · exact absurd (hinv y x hy hx (by
      rcases hb : gridGet (if all_seeing = true then onesLike c.floor.map
        else compute_fov c.floor.map c.player_cell.2 c.player_cell.1 7
          [c.floor.wall_tile]) false y x with _ | _
      · rfl
      · exact absurd hb hv)) hne

/-- A 2×10 all-empty floor; the player stands at (0,0) and the memory
already holds the glyph `X` at cell (1,9), which lies outside the
radius-7 field of view (squared distance 82 ≥ 49) but inside the
display radius. -/
def demoMemGridMem : List (List Char) :=
  [List.replicate 10 ' ', List.replicate 9 ' ' ++ ['X']]

def demoMem : Current :=
  { floor := { map := [List.replicate 10 1, List.replicate 10 1],
               mapping := fun n => if n = 1 then '.' else '#',
               empty_tile := 1, wall_tile := 0 },
    player_cell := (0, 0), floor_cells := [], floor_clouds := [],
    display_map := "", display_mask := none, los_mask := none,
    memory := some demoMemGridMem }

theorem refresh_memory_monotonic_witness :
    ∃ c2 lmask mem2, generate demoMem false = some c2 ∧
      c2.los_mask = some lmask ∧ c2.memory = some mem2 ∧
      (gridGet lmask false 1 9 = false →
        gridGet mem2 ' ' 1 9 = gridGet demoMemGridMem ' ' 1 9) ∧
      (gridGet mem2 ' ' 1 9 ≠ gridGet demoMemGridMem ' ' 1 9 →
        gridGet lmask false 1 9 = true) := by
  obtain ⟨lmask, mem2, h1, h2, h3, h4⟩ :=
    refresh_memory_monotonic demoMem _ false rfl demoMemGridMem rfl 1 9
      (by norm_num) (by norm_num) (by decide)
  exact ⟨_, lmask, mem2, rfl, h1, h2, h3, h4⟩

/-! ## C3: the rendered map text -/

/-- A 4×4 all-empty floor with the player at (1,1) and another occupant
`M` at (3,1), on the bottom row of the map. -/
def renderDemo : Current :=
  { floor := { map := [[1, 1, 1, 1], [1, 1, 1, 1], [1, 1, 1, 1], [1, 1, 1, 1]],
               mapping := fun n => if n = 1 then '.' else '#',
               empty_tile := 1, wall_tile := 0 },
    player_cell := (1, 1), floor_cells := [((3, 1), 'M')],
    floor_clouds := [], display_map := "", display_mask := none,
    los_mask := none, memory := none }

set_option maxRecDepth 100000 in
/-- C3: evaluating a refresh on the 4×4 demo floor.  The display-mask
bounding rectangle is the whole 4×4 grid, so the claim requires a 4-row,
4-column block in top-to-bottom order, i.e. 19 characters with the `M`
on the last rendered row.  The code allocates
`np.full((max_y - min_y, max_x - min_x), …)` — one row and one column
short — and writes through the wrapped index `(y - max_y, x - max_x)`,
so the rendered text is a 3×3 block whose first row shows the bottom map
row (the `M` above the `@`), and map row 0 and column 0 are dropped. -/
theorem update_visible_map_shape_bug :
    (generate renderDemo false).map (fun c2 => c2.display_map) =
      some ".M.\n.@.\n..." ∧
    (generate renderDemo false).map (fun c2 => c2.memory) =
      some (some [['.', '.', '.', '.'], ['.', '@', '.', '.'],
                  ['.', '.', '.', '.'], ['.', 'M', '.', '.']]) := by
  constructor
  · rfl
  · rfl

/-! ## `dijkstra` (finder.py lines 43-85)

Points are `(x, y)` pairs of Python ints; the bounds test is
`0 <= x < cols and 0 <= y < rows` with `rows, cols = grid.shape`.
Step costs `1` and `1.4` are the exact rationals `5/5` and `7/5`; the
embedded state stores them scaled by 5 as naturals (5 per straight step,
7 per diagonal step), which is order- and sum-isomorphic to the exact
rational costs, so the priority queue pops in the same order.  The
`costs` and `came_from` dicts are association lists where an assignment
prepends a binding and `lookup` returns the newest one.  `heapq` orders
entries by the Python tuple order on `(cost, (x, y))`. -/

abbrev Point := ℤ × ℤ

def directions : List (ℤ × ℤ) :=
  [(0, 1), (0, -1), (1, 0), (-1, 0), (1, 1), (-1, -1), (1, -1), (-1, 1)]

def entryLE (e1 e2 : ℕ × Point) : Prop :=
  e1.1 < e2.1 ∨ (e1.1 = e2.1 ∧ (e1.2.1 < e2.2.1 ∨
    (e1.2.1 = e2.2.1 ∧ e1.2.2 ≤ e2.2.2)))

instance (e1 e2 : ℕ × Point) : Decidable (entryLE e1 e2) := by
  unfold entryLE
  infer_instance

/-- `heapq.heappush`: insert keeping the queue sorted, so that the head
is the minimum. -/
def heappush (pq : List (ℕ × Point)) (e : ℕ × Point) : List (ℕ × Point) :=
  match pq with
  | [] => [e]
  | f :: rest => if entryLE e f then e :: f :: rest
      else f :: heappush rest e

def lookupC (l : List (Point × ℕ)) (p : Point) : Option ℕ :=
  match l with
  | [] => none
  | (q, v) :: rest => if q = p then some v else lookupC rest p

def lookupCf (l : List (Point × Option Point)) (p : Point) :
    Option (Option Point) :=
  match l with
  | [] => none
  | (q, v) :: rest => if q = p then some v else lookupCf rest p

/-- `neighbor not in costs or new_cost < costs[neighbor]`. -/
def improves (old : Option ℕ) (new_cost : ℕ) : Bool :=
  match old with
  | none => true
  | some v => new_cost < v

/-- The `for dx, dy in directions` loop body of `dijkstra`, threading
`(pq, costs, came_from)`. -/
def relaxNeighbors (rows cols : ℕ) (cur : Point) (cost : ℕ) :
    List (ℤ × ℤ) → List (ℕ × Point) → List (Point × ℕ) →
    List (Point × Option Point) →
    List (ℕ × Point) × List (Point × ℕ) × List (Point × Option Point)
  | [], pq, costs, came_from => (pq, costs, came_from)
  | d :: rest, pq, costs, came_from =>
      let neighbor : Point := (cur.1 + d.1, cur.2 + d.2)
      if 0 ≤ neighbor.1 ∧ neighbor.1 < (cols : ℤ) ∧
          0 ≤ neighbor.2 ∧ neighbor.2 < (rows : ℤ) then
        let new_cost := cost + (if d.1.natAbs + d.2.natAbs = 1 then 5 else 7)
        if improves (lookupC costs neighbor) new_cost then
          relaxNeighbors rows cols cur cost rest
            (heappush pq (new_cost, neighbor))
            ((neighbor, new_cost) :: costs)
            ((neighbor, some cur) :: came_from)
        else
          relaxNeighbors rows cols cur cost rest pq costs came_from
      else
        relaxNeighbors rows cols cur cost rest pq costs came_from

/-- The `while pq` loop of `dijkstra`; one unit of fuel per pop. -/
def dijkstraLoop (rows cols : ℕ) (end_ : Point) :
    ℕ → List (ℕ × Point) → List (Point × ℕ) →
    List (Point × Option Point) →
    List (Point × ℕ) × List (Point × Option Point)
  | 0, _, costs, came_from => (costs, came_from)
  | _ + 1, [], costs, came_from => (costs, came_from)
  | fuel + 1, e :: rest, costs, came_from =>
      if e.2 = end_ then (costs, came_from)
      else
        match relaxNeighbors rows cols e.2 e.1 directions rest costs
            came_from with
        | (pq2, costs2, came_from2) =>
            dijkstraLoop rows cols end_ fuel pq2 costs2 came_from2

/-- The `while current is not None` reconstruction loop, building the
path from `end` backwards.  `came_from.get(current, None)` is `None`
both for a missing key and for an explicit `None` value, ending the
loop after the final append.  The parent chain strictly decreases the
stored cost, which is bounded by the largest cost value, so the fuel
chosen by `dijkstra` below always suffices. -/
def reconstructLoop (cf : List (Point × Option Point)) :
    ℕ → Point → List Point
  | 0, _ => []
  | fuel + 1, cur =>
      cur :: match lookupCf cf cur with
      | some (some nxt) => reconstructLoop cf fuel nxt
      | _ => []

/-- `dijkstra` (finder.py line 43).  Only `grid.shape` is read. -/
def dijkstraAux (rows cols : ℕ) (start end_ : Point) : List Point :=
  let fuel := (rows * cols + 1) * (rows * cols + 1) + 1
  match dijkstraLoop rows cols end_ fuel [(0, start)] [(start, 0)]
      [(start, none)] with
  | (costs, came_from) =>
      match lookupCf came_from end_ with
      | none => []
      | some _ =>
          let rfuel := (costs.map Prod.snd).foldl max 0 + 2
          (reconstructLoop came_from rfuel end_).reverse

def dijkstra (grid : IntGrid) (start end_ : Point) : List Point :=
  dijkstraAux (shape0 grid) (shape1 grid) start end_

/-- The exact rational cost of a path: 1 per straight step, 7/5 per
diagonal step. -/
def stepCost (p q : Point) : ℚ :=
  if (q.1 - p.1).natAbs + (q.2 - p.2).natAbs = 1 then 1 else 7/5

def pathCost : List Point → ℚ
  | [] => 0
  | [_] => 0
  | p :: q :: rest => stepCost p q + pathCost (q :: rest)

/-! ## C8: the pathfinder reads only the grid shape -/

/-- C8: `dijkstra` never consults the grid contents: `rows, cols =
grid.shape` is the only read, so two grids of equal shape give the
identical path for the same endpoints, whatever their cell values —
carving can overwrite whatever lies beneath the path. -/
theorem dijkstra_shape_only (g1 g2 : IntGrid) (s e : Point)
    (h0 : shape0 g1 = shape0 g2) (h1 : shape1 g1 = shape1 g2) :
    dijkstra g1 s e = dijkstra g2 s e := by
  unfold dijkstra
  rw [h0, h1]

/-- C8 witness: a grid of walls and a grid of open floor with the same
2×3 shape yield the identical path. -/
theorem dijkstra_shape_only_witness :
    dijkstra [[0, 0, 0], [0, 0, 0]] (0, 0) (2, 1) =
      dijkstra [[7, 1, 4], [2, 9, 5]] (0, 0) (2, 1) :=
  dijkstra_shape_only [[0, 0, 0], [0, 0, 0]] [[7, 1, 4], [2, 9, 5]]
    (0, 0) (2, 1) rfl rfl

/-! ## C7: path endpoints, the trivial path, the straight row, and
unreachable targets -/

/-- One 8-neighbour step landing in bounds (the only moves the search
makes). -/
def gridStep (rows cols : ℕ) (a b : Point) : Prop :=
  (∃ d ∈ directions, b = (a.1 + d.1, a.2 + d.2)) ∧
  0 ≤ b.1 ∧ b.1 < (cols : ℤ) ∧ 0 ≤ b.2 ∧ b.2 < (rows : ℤ)

def gridReach (rows cols : ℕ) (s e : Point) : Prop :=
  Relation.ReflTransGen (gridStep rows cols) s e

def pointInB (g : IntGrid) (p : Point) : Prop :=
  0 ≤ p.1 ∧ p.1 < (shape1 g : ℤ) ∧ 0 ≤ p.2 ∧ p.2 < (shape0 g : ℤ)

lemma dijkstraLoop_cons (rows cols : ℕ) (end_ : Point) (fuel : ℕ)
    (e : ℕ × Point) (rest : List (ℕ × Point)) (costs : List (Point × ℕ))
    (cf : List (Point × Option Point)) :
    dijkstraLoop rows cols end_ (fuel + 1) (e :: rest) costs cf =
      if e.2 = end_ then (costs, cf)
      else
        match relaxNeighbors rows cols e.2 e.1 directions rest costs cf with
        | (pq2, costs2, cf2) =>
            dijkstraLoop rows cols end_ fuel pq2 costs2 cf2 := rfl

lemma reconstructLoop_succ (cf : List (Point × Option Point)) (fuel : ℕ)
    (cur : Point) :
    reconstructLoop cf (fuel + 1) cur =
      cur :: match lookupCf cf cur with
      | some (some nxt) => reconstructLoop cf fuel nxt
      | _ => [] := rfl

lemma dijkstraAux_self (rows cols : ℕ) (s : Point) :
    dijkstraAux rows cols s s = [s] := by
  unfold dijkstraAux
  dsimp only
  rw [dijkstraLoop_cons]
  rw [if_pos rfl]
  dsimp only
  rw [show lookupCf [(s, none)] s = some none by
    unfold lookupCf
    rw [if_pos rfl]]
  dsimp only
  rw [reconstructLoop_succ]
  rw [show lookupCf [(s, none)] s = some none by
    unfold lookupCf
    rw [if_pos rfl]]
  rfl

lemma mem_heappush (e a : ℕ × Point) :
    ∀ pq : List (ℕ × Point), a ∈ heappush pq e ↔ a ∈ pq ∨ a = e := by
  intro pq
  induction pq with
  | nil => simp [heappush]
  | cons f rest ih =>
      unfold heappush
      by_cases h : entryLE e f
      · rw [if_pos h]
        simp only [List.mem_cons]
        tauto
      · rw [if_neg h]
        simp only [List.mem_cons, ih]
        tauto

lemma lookupCf_cons (q : Point) (v : Option Point)
    (cf : List (Point × Option Point)) (p : Point) :
    lookupCf ((q, v) :: cf) p = if q = p then some v else lookupCf cf p := rfl

lemma lookupC_cons (q : Point) (v : ℕ)
    (costs : List (Point × ℕ)) (p : Point) :
    lookupC ((q, v) :: costs) p = if q = p then some v else lookupC costs p :=
  rfl

/-- The reachability invariant used for the unreachable-target case:
every queued point and every `came_from` key has been reached from the
start by in-bounds 8-neighbour steps. -/
def ReachInv (rows cols : ℕ) (s : Point) (pq : List (ℕ × Point))
    (cf : List (Point × Option Point)) : Prop :=
  (∀ e ∈ pq, gridReach rows cols s e.2) ∧
  (∀ p, (lookupCf cf p).isSome → gridReach rows cols s p)

lemma relax_reachInv (rows cols : ℕ) (s cur : Point) (cost : ℕ)
    (hcur : gridReach rows cols s cur) :
    ∀ (L : List (ℤ × ℤ)), (∀ d ∈ L, d ∈ directions) →
    ∀ pq costs cf, ReachInv rows cols s pq cf →
    ReachInv rows cols s
      (relaxNeighbors rows cols cur cost L pq costs cf).1
      (relaxNeighbors rows cols cur cost L pq costs cf).2.2 := by
  intro L
  induction L with
  | nil => intro _ pq costs cf hinv; exact hinv
  | cons d rest ih =>
      intro hL pq costs cf hinv
      have hdmem := hL d (List.mem_cons_self _ _)
      have hrest := fun q hq => hL q (List.mem_cons_of_mem _ hq)
      unfold relaxNeighbors
      dsimp only
      by_cases hb : 0 ≤ cur.1 + d.1 ∧ cur.1 + d.1 < (cols : ℤ) ∧
          0 ≤ cur.2 + d.2 ∧ cur.2 + d.2 < (rows : ℤ)
      · rw [if_pos hb]
        by_cases himp : improves (lookupC costs (cur.1 + d.1, cur.2 + d.2))
            (cost + (if d.1.natAbs + d.2.natAbs = 1 then 5 else 7)) = true
        · rw [if_pos himp]
          apply ih hrest
          have hreachnb : gridReach rows cols s (cur.1 + d.1, cur.2 + d.2) :=
            Relation.ReflTransGen.tail hcur
              ⟨⟨d, hdmem, rfl⟩, hb.1, hb.2.1, hb.2.2.1, hb.2.2.2⟩
          constructor
          · intro e he
            rcases (mem_heappush _ e pq).1 he with h | h
            · exact hinv.1 e h
            · rw [h]
              exact hreachnb
          · intro p hp
            rw [lookupCf_cons] at hp
            by_cases hpq : (cur.1 + d.1, cur.2 + d.2) = p
            · rw [← hpq]
              exact hreachnb
            · rw [if_neg hpq] at hp
              exact hinv.2 p hp
        · rw [if_neg himp]
          exact ih hrest pq costs cf hinv
      · rw [if_neg hb]
        exact ih hrest pq costs cf hinv

lemma loop_reachInv (rows cols : ℕ) (s end_ : Point) :
    ∀ (fuel : ℕ) (pq : List (ℕ × Point)) (costs : List (Point × ℕ))
      (cf : List (Point × Option Point)), ReachInv rows cols s pq cf →
      ∀ p, (lookupCf
          (dijkstraLoop rows cols end_ fuel pq costs cf).2 p).isSome →
        gridReach rows cols s p := by
  intro fuel
  induction fuel with
  | zero => intro pq costs cf hinv p hp; exact hinv.2 p hp
  | succ fuel ih =>
      intro pq costs cf hinv p hp
      rcases pq with _ | ⟨e, rest⟩
      · exact hinv.2 p hp
      · rw [dijkstraLoop_cons] at hp
        by_cases he : e.2 = end_
        · rw [if_pos he] at hp
          exact hinv.2 p hp
        · rw [if_neg he] at hp
          have hrestinv : ReachInv rows cols s rest cf :=
            ⟨fun q hq => hinv.1 q (List.mem_cons_of_mem _ hq), hinv.2⟩
          have hcur : gridReach rows cols s e.2 :=
            hinv.1 e (List.mem_cons_self _ _)
          have hrelax := relax_reachInv rows cols s e.2 e.1 hcur directions
            (fun q hq => hq) rest costs cf hrestinv
          rcases hrx : relaxNeighbors rows cols e.2 e.1 directions rest
              costs cf with ⟨pq2, costs2, cf2⟩
          rw [hrx] at hp hrelax
          exact ih pq2 costs2 cf2 hrelax p hp

lemma dijkstraAux_unreachable (rows cols : ℕ) (s e : Point)
    (h : ¬ gridReach rows cols s e) :
    dijkstraAux rows cols s e = [] := by
  unfold dijkstraAux
  dsimp only
  have hinit : ReachInv rows cols s [(0, s)] [(s, none)] := by
    constructor
    · intro q hq
      rcases List.mem_singleton.1 hq with rfl
      exact Relation.ReflTransGen.refl
    · intro p hp
      rw [lookupCf_cons] at hp
      by_cases hsp : s = p
      · rw [← hsp]
        exact Relation.ReflTransGen.refl
      · rw [if_neg hsp] at hp
        simp [lookupCf] at hp
  have hfin := loop_reachInv rows cols s e
    ((rows * cols + 1) * (rows * cols + 1) + 1) [(0, s)] [(s, 0)]
    [(s, none)] hinit e
  rcases hloop : dijkstraLoop rows cols e
      ((rows * cols + 1) * (rows * cols + 1) + 1) [(0, s)] [(s, 0)]
      [(s, none)] with ⟨costs2, cf2⟩
  rw [hloop] at hfin
  dsimp only at hfin
  cases hcf : lookupCf cf2 e with
  | none => rfl
  | some v =>
      exfalso
      exact h (hfin (by rw [hcf]; rfl))

/-- The invariant that makes path reconstruction reach `start`: costs
strictly decrease along `came_from` parents, only `start` maps to
`None`, and every queue entry over-approximates the stored cost of its
point. -/
def PathInv (s : Point) (pq : List (ℕ × Point))
    (costs : List (Point × ℕ)) (cf : List (Point × Option Point)) : Prop :=
  lookupC costs s = some 0 ∧
  lookupCf cf s = some none ∧
  (∀ p, lookupCf cf p = some none → p = s) ∧
  (∀ p, (lookupCf cf p).isSome → (lookupC costs p).isSome) ∧
  (∀ p pp, lookupCf cf p = some (some pp) →
    ∃ cp cpp, lookupC costs p = some cp ∧ lookupC costs pp = some cpp ∧
      cpp < cp ∧ (lookupCf cf pp).isSome) ∧
  (∀ e ∈ pq, ∃ c, lookupC costs e.2 = some c ∧ c ≤ e.1 ∧
    (lookupCf cf e.2).isSome)

lemma directions_nonzero :
    ∀ d ∈ directions, ¬(d.1 = 0 ∧ d.2 = 0) := by decide

lemma lookupCf_isSome_cons (q : Point) (v : Option Point)
    (cf : List (Point × Option Point)) (p : Point)
    (h : (lookupCf cf p).isSome) :
    (lookupCf ((q, v) :: cf) p).isSome := by
  rw [lookupCf_cons]
  by_cases hq : q = p
  · rw [if_pos hq]; rfl
  · rw [if_neg hq]; exact h

lemma relax_pathInv (rows cols : ℕ) (s cur : Point) (cost : ℕ) :
    ∀ (L : List (ℤ × ℤ)), (∀ d ∈ L, d ∈ directions) →
    ∀ pq costs cf, PathInv s pq costs cf →
    lookupC costs cur = some cost ∨
      (∃ ccur, lookupC costs cur = some ccur ∧ ccur ≤ cost) →
    (lookupCf cf cur).isSome →
    PathInv s (relaxNeighbors rows cols cur cost L pq costs cf).1
      (relaxNeighbors rows cols cur cost L pq costs cf).2.1
      (relaxNeighbors rows cols cur cost L pq costs cf).2.2 := by
  intro L
  induction L with
  | nil => intro _ pq costs cf hinv _ _; exact hinv
  | cons d rest ih =>
      intro hL pq costs cf hinv hcur hcfcur
      obtain ⟨ccur, hccur, hcurle⟩ : ∃ ccur,
          lookupC costs cur = some ccur ∧ ccur ≤ cost := by
        rcases hcur with h | h
        · exact ⟨cost, h, le_rfl⟩
        · exact h
      have hdmem := hL d (List.mem_cons_self _ _)
      have hrest := fun q hq => hL q (List.mem_cons_of_mem _ hq)
      obtain ⟨hs0, hcfs, hnone, hdomc, hparent, hpq⟩ := hinv
      unfold relaxNeighbors
      dsimp only
      by_cases hb : 0 ≤ cur.1 + d.1 ∧ cur.1 + d.1 < (cols : ℤ) ∧
          0 ≤ cur.2 + d.2 ∧ cur.2 + d.2 < (rows : ℤ)
      · rw [if_pos hb]
        set w : ℕ := if d.1.natAbs + d.2.natAbs = 1 then 5 else 7 with hw
        have hwpos : 0 < w := by
          rw [hw]
          split <;> norm_num
        set nb : Point := (cur.1 + d.1, cur.2 + d.2) with hnb
        by_cases himp : improves (lookupC costs nb) (cost + w) = true
        · rw [if_pos himp]
          have hnbne : nb ≠ cur := by
            intro hc
            have hd0 := directions_nonzero d hdmem
            rw [hnb] at hc
            have h1 : cur.1 + d.1 = cur.1 := congrArg Prod.fst hc
            have h2 : cur.2 + d.2 = cur.2 := congrArg Prod.snd hc
            exact hd0 ⟨by omega, by omega⟩
          have hnbs : nb ≠ s := by
            intro hc
            rw [hc, hs0] at himp
            unfold improves at himp
            simp at himp
          apply ih hrest
          · refine ⟨?_, ?_, ?_, ?_, ?_, ?_⟩
            · rw [lookupC_cons, if_neg hnbs]
              exact hs0
            · rw [lookupCf_cons, if_neg hnbs]
              exact hcfs
            · intro p hp
              rw [lookupCf_cons] at hp
              by_cases hq : nb = p
              · rw [if_pos hq] at hp
                cases hp
              · rw [if_neg hq] at hp
                exact hnone p hp
            · intro p hp
              rw [lookupC_cons]
              by_cases hq : nb = p
              · rw [if_pos hq]
                rfl
              · rw [if_neg hq]
                apply hdomc
                rw [lookupCf_cons, if_neg hq] at hp
                exact hp
            · intro p pp hp
              rw [lookupCf_cons] at hp
              by_cases hq : nb = p
              · rw [if_pos hq] at hp
                have hppc : pp = cur := by
                  cases hp
                  rfl
                refine ⟨cost + w, ccur, ?_, ?_, ?_, ?_⟩
                · rw [lookupC_cons, if_pos hq]
                · rw [hppc, lookupC_cons, if_neg hnbne]
                  exact hccur
                · omega
                · rw [hppc]
                  exact lookupCf_isSome_cons _ _ _ _ hcfcur
              · rw [if_neg hq] at hp
                obtain ⟨cp, cpp, h1, h2, h3, h4⟩ := hparent p pp hp
                by_cases hqq : nb = pp
                · refine ⟨cp, cost + w, ?_, ?_, ?_, ?_⟩
                  · rw [lookupC_cons, if_neg hq]
                    exact h1
                  · rw [lookupC_cons, if_pos hqq]
                  · rw [← hqq] at h2
                    unfold improves at himp
                    rw [h2] at himp
                    simp at himp
                    omega
                  · exact lookupCf_isSome_cons _ _ _ _ h4
                · refine ⟨cp, cpp, ?_, ?_, h3, ?_⟩
                  · rw [lookupC_cons, if_neg hq]
                    exact h1
                  · rw [lookupC_cons, if_neg hqq]
                    exact h2
                  · exact lookupCf_isSome_cons _ _ _ _ h4
            · intro e he
              rcases (mem_heappush _ e pq).1 he with h | h
              · obtain ⟨c, h1, h2, h3⟩ := hpq e h
                by_cases hq : nb = e.2
                · refine ⟨cost + w, ?_, ?_, ?_⟩
                  · rw [lookupC_cons, if_pos hq]
                  · rw [← hq] at h1
                    unfold improves at himp
                    rw [h1] at himp
                    simp at himp
                    omega
                  · exact lookupCf_isSome_cons _ _ _ _ h3
                · refine ⟨c, ?_, h2, ?_⟩
                  · rw [lookupC_cons, if_neg hq]
                    exact h1
                  · exact lookupCf_isSome_cons _ _ _ _ h3
              · rw [h]
                refine ⟨cost + w, ?_, le_rfl, ?_⟩
                · rw [lookupC_cons, if_pos rfl]
                · rw [lookupCf_cons, if_pos rfl]
                  rfl
          · right
            refine ⟨ccur, ?_, hcurle⟩
            rw [lookupC_cons, if_neg hnbne]
            exact hccur
          · exact lookupCf_isSome_cons _ _ _ _ hcfcur
        · rw [if_neg himp]
          exact ih hrest pq costs cf
            ⟨hs0, hcfs, hnone, hdomc, hparent, hpq⟩
            (Or.inr ⟨ccur, hccur, hcurle⟩) hcfcur
      · rw [if_neg hb]
        exact ih hrest pq costs cf
          ⟨hs0, hcfs, hnone, hdomc, hparent, hpq⟩
          (Or.inr ⟨ccur, hccur, hcurle⟩) hcfcur

lemma loop_pathInv (rows cols : ℕ) (s end_ : Point) :
    ∀ (fuel : ℕ) (pq : List (ℕ × Point)) (costs : List (Point × ℕ))
      (cf : List (Point × Option Point)), PathInv s pq costs cf →
      PathInv s []
        (dijkstraLoop rows cols end_ fuel pq costs cf).1
        (dijkstraLoop rows cols end_ fuel pq costs cf).2 := by
  intro fuel
  induction fuel with
  | zero =>
      intro pq costs cf hinv
      exact ⟨hinv.1, hinv.2.1, hinv.2.2.1, hinv.2.2.2.1, hinv.2.2.2.2.1,
        fun e he => absurd he (List.not_mem_nil e)⟩
  | succ fuel ih =>
      intro pq costs cf hinv
      rcases pq with _ | ⟨e, rest⟩
      · exact ⟨hinv.1, hinv.2.1, hinv.2.2.1, hinv.2.2.2.1, hinv.2.2.2.2.1,
          fun q hq => absurd hq (List.not_mem_nil q)⟩
      · rw [dijkstraLoop_cons]
        by_cases he : e.2 = end_
        · rw [if_pos he]
          exact ⟨hinv.1, hinv.2.1, hinv.2.2.1, hinv.2.2.2.1,
            hinv.2.2.2.2.1,
            fun q hq => absurd hq (List.not_mem_nil q)⟩
        · rw [if_neg he]
          obtain ⟨c, hc1, hc2, hc3⟩ :=
            hinv.2.2.2.2.2 e (List.mem_cons_self _ _)
          have hrestinv : PathInv s rest costs cf :=
            ⟨hinv.1, hinv.2.1, hinv.2.2.1, hinv.2.2.2.1, hinv.2.2.2.2.1,
              fun q hq => hinv.2.2.2.2.2 q (List.mem_cons_of_mem _ hq)⟩
          have hrelax := relax_pathInv rows cols s e.2 e.1 directions
            (fun q hq => hq) rest costs cf hrestinv
            (Or.inr ⟨c, hc1, hc2⟩) hc3
          rcases hrx : relaxNeighbors rows cols e.2 e.1 directions rest
              costs cf with ⟨pq2, costs2, cf2⟩
          rw [hrx] at hrelax
          exact ih pq2 costs2 cf2 hrelax

lemma le_foldl_max (l : List ℕ) :
    ∀ (acc a : ℕ), a ∈ l ∨ a ≤ acc → a ≤ l.foldl max acc := by
  induction l with
  | nil =>
      intro acc a h
      rcases h with h | h
      · cases h
      · exact h
  | cons b rest ih =>
      intro acc a h
      rw [List.foldl_cons]
      rcases h with h | h
      · rcases List.mem_cons.1 h with rfl | h2
        · exact ih (max acc a) a (Or.inr (le_max_right acc a))
        · exact ih (max acc b) a (Or.inl h2)
      · exact ih (max acc b) a (Or.inr (le_trans h (le_max_left acc b)))

lemma lookupC_le_max (costs : List (Point × ℕ)) (p : Point) (v : ℕ)
    (h : lookupC costs p = some v) :
    v ≤ (costs.map Prod.snd).foldl max 0 := by
  apply le_foldl_max
  left
  induction costs with
  | nil => cases h
  | cons e rest ih =>
      rcases e with ⟨q, w⟩
      rw [lookupC_cons] at h
      by_cases hq : q = p
      · rw [if_pos hq] at h
        cases h
        exact List.mem_cons_self _ _
      · rw [if_neg hq] at h
        exact List.mem_cons_of_mem _ (ih h)

lemma reconstruct_ends (costs : List (Point × ℕ))
    (cf : List (Point × Option Point)) (s : Point)
    (hnone : ∀ p, lookupCf cf p = some none → p = s)
    (hparent : ∀ p pp, lookupCf cf p = some (some pp) →
      ∃ cp cpp, lookupC costs p = some cp ∧ lookupC costs pp = some cpp ∧
        cpp < cp ∧ (lookupCf cf pp).isSome) :
    ∀ cp : ℕ, ∀ (fuel : ℕ) (p : Point), lookupC costs p = some cp →
      (lookupCf cf p).isSome → cp < fuel →
      ∃ l, reconstructLoop cf fuel p = p :: l ∧
        (p :: l).getLast? = some s := by
  intro cp
  induction cp using Nat.strong_induction_on with
  | _ cp ih =>
      intro fuel p hcost hcf hlt
      rcases fuel with _ | f
      · omega
      · rw [reconstructLoop_succ]
        rcases hv : lookupCf cf p with _ | v
        · rw [hv] at hcf
          cases hcf
        · rcases v with _ | pp
          · refine ⟨[], ?_, ?_⟩
            · rfl
            · rw [hnone p hv]
              rfl
          · obtain ⟨cp0, cpp, h1, h2, h3, h4⟩ := hparent p pp hv
            rw [hcost] at h1
            have hcp0 : cp0 = cp := by
              cases h1
              rfl
            rw [hcp0] at h3
            obtain ⟨l2, hrec, hlast⟩ :=
              ih cpp h3 f pp h2 h4 (by omega)
            refine ⟨pp :: l2, ?_, ?_⟩
            · show p :: reconstructLoop cf f pp = p :: pp :: l2
              rw [hrec]
            · rw [List.getLast?_cons_cons]
              exact hlast

lemma dijkstraAux_endpoints (rows cols : ℕ) (s e : Point)
    (h : dijkstraAux rows cols s e ≠ []) :
    (dijkstraAux rows cols s e).head? = some s ∧
    (dijkstraAux rows cols s e).getLast? = some e := by
  have hinit : PathInv s [(0, s)] [(s, 0)] [(s, none)] := by
    refine ⟨?_, ?_, ?_, ?_, ?_, ?_⟩
    · rw [show ([(s, 0)] : List (Point × ℕ)) = (s, 0) :: [] from rfl,
        lookupC_cons, if_pos rfl]
    · rw [show ([(s, none)] : List (Point × Option Point)) =
        (s, none) :: [] from rfl, lookupCf_cons, if_pos rfl]
    · intro p hp
      rw [show ([(s, none)] : List (Point × Option Point)) =
        (s, none) :: [] from rfl, lookupCf_cons] at hp
      by_cases hq : s = p
      · exact hq.symm
      · rw [if_neg hq] at hp
        cases hp
    · intro p hp
      rw [show ([(s, none)] : List (Point × Option Point)) =
        (s, none) :: [] from rfl, lookupCf_cons] at hp
      rw [show ([(s, 0)] : List (Point × ℕ)) = (s, 0) :: [] from rfl,
        lookupC_cons]
      by_cases hq : s = p
      · rw [if_pos hq]
        rfl
      · rw [if_neg hq] at hp
        cases hp
    · intro p pp hp
      rw [show ([(s, none)] : List (Point × Option Point)) =
        (s, none) :: [] from rfl, lookupCf_cons] at hp
      by_cases hq : s = p
      · rw [if_pos hq] at hp
        cases hp
      · rw [if_neg hq] at hp
        cases hp
    · intro q hq
      rcases List.mem_singleton.1 hq with rfl
      refine ⟨0, ?_, le_rfl, ?_⟩
      · rw [show ([(s, 0)] : List (Point × ℕ)) = (s, 0) :: [] from rfl,
          lookupC_cons, if_pos rfl]
      · rw [show ([(s, none)] : List (Point × Option Point)) =
          (s, none) :: [] from rfl, lookupCf_cons, if_pos rfl]
        rfl
  have hfin := loop_pathInv rows cols s e
    ((rows * cols + 1) * (rows * cols + 1) + 1) [(0, s)] [(s, 0)]
    [(s, none)] hinit
  revert h
  unfold dijkstraAux
  dsimp only
  rcases hloop : dijkstraLoop rows cols e
      ((rows * cols + 1) * (rows * cols + 1) + 1) [(0, s)] [(s, 0)]
      [(s, none)] with ⟨costs2, cf2⟩
  rw [hloop] at hfin
  dsimp only at hfin ⊢
  obtain ⟨hs0, hcfs, hnone, hdomc, hparent, _⟩ := hfin
  rcases hcf : lookupCf cf2 e with _ | v
  · intro h
    exact absurd rfl h
  · intro _
    have hcfe : (lookupCf cf2 e).isSome := by
      rw [hcf]
      rfl
    obtain ⟨ce, hce⟩ := Option.isSome_iff_exists.1 (hdomc e hcfe)
    have hbound := lookupC_le_max costs2 e ce hce
    obtain ⟨l, hrec, hlast⟩ := reconstruct_ends costs2 cf2 s hnone hparent
      ce ((costs2.map Prod.snd).foldl max 0 + 2) e hce hcfe (by omega)
    rw [hrec]
    constructor
    · rw [List.head?_reverse]
      exact hlast
    · rw [List.getLast?_reverse]
      rfl

/-! ## C7(b): the straight unobstructed row -/

def rowGrid (N : ℕ) : IntGrid := [List.replicate N 0]

def straightPath (N : ℕ) : List Point :=
  (List.range N).map (fun (k : ℕ) => ((k : ℤ), 0))

/-- The cost dict after the search has settled cells `0..k` of the row,
newest binding first. -/
def rowCosts : ℕ → List (Point × ℕ)
  | 0 => [((0, 0), 0)]
  | k + 1 => ((((k + 1 : ℕ) : ℤ), 0), 5 * (k + 1)) :: rowCosts k

def rowCf : ℕ → List (Point × Option Point)
  | 0 => [((0, 0), none)]
  | k + 1 => ((((k + 1 : ℕ) : ℤ), 0), some ((k : ℤ), 0)) :: rowCf k

lemma rowCosts_lookup_le (k : ℕ) :
    ∀ j : ℕ, j ≤ k → lookupC (rowCosts k) ((j : ℤ), 0) = some (5 * j) := by
  induction k with
  | zero =>
      intro j hj
      interval_cases j
      rfl
  | succ k ih =>
      intro j hj
      rw [rowCosts, lookupC_cons]
      by_cases hq : j = k + 1
      · rw [if_pos (by rw [hq]), hq]
      · rw [if_neg (by
          intro hc
          have h1 : ((k : ℤ) + 1) = (j : ℤ) := congrArg Prod.fst hc
          omega)]
        exact ih j (by omega)

lemma rowCosts_lookup_none (k : ℕ) :
    ∀ p : Point, (∀ j : ℕ, j ≤ k → p ≠ ((j : ℤ), 0)) →
      lookupC (rowCosts k) p = none := by
  induction k with
  | zero =>
      intro p hp
      rw [show rowCosts 0 = [((0, 0), 0)] from rfl]
      rw [show ([((0, 0), 0)] : List (Point × ℕ)) = ((0, 0), 0) :: []
        from rfl, lookupC_cons]
      rw [if_neg (fun hc => hp 0 le_rfl hc.symm)]
      rfl
  | succ k ih =>
      intro p hp
      rw [rowCosts, lookupC_cons]
      rw [if_neg (fun hc => hp (k + 1) le_rfl hc.symm)]
      exact ih p (fun j hj => hp j (by omega))

lemma rowCf_lookup_zero (k : ℕ) :
    lookupCf (rowCf k) ((0 : ℤ), 0) = some none := by
  induction k with
  | zero => rfl
  | succ k ih =>
      rw [rowCf, lookupCf_cons]
      rw [if_neg (by
        intro hc
        have h1 : ((k : ℤ) + 1) = (0 : ℤ) := congrArg Prod.fst hc
        omega)]
      exact ih

lemma rowCf_lookup_succ (k : ℕ) :
    ∀ j : ℕ, j + 1 ≤ k →
      lookupCf (rowCf k) ((((j + 1 : ℕ) : ℤ), 0)) =
        some (some ((j : ℤ), 0)) := by
  induction k with
  | zero => intro j hj; omega
  | succ k ih =>
      intro j hj
      rw [rowCf, lookupCf_cons]
      by_cases hq : j = k
      · rw [if_pos (by rw [hq])]
        rw [hq]
      · rw [if_neg (by
          intro hc
          have h1 : ((k : ℤ) + 1) = ((j : ℤ) + 1) := by
            have := congrArg Prod.fst hc
            push_cast at this ⊢
            omega
          omega)]
        exact ih j (by omega)



lemma relaxNeighbors_nil (rows cols : ℕ) (cur : Point) (cost : ℕ)
    (pq : List (ℕ × Point)) (costs : List (Point × ℕ))
    (cf : List (Point × Option Point)) :
    relaxNeighbors rows cols cur cost [] pq costs cf = (pq, costs, cf) := rfl

lemma relaxNeighbors_cons2 (rows cols : ℕ) (cur : Point) (cost : ℕ)
    (d : ℤ × ℤ) (rest : List (ℤ × ℤ)) (pq : List (ℕ × Point))
    (costs : List (Point × ℕ)) (cf : List (Point × Option Point)) :
    relaxNeighbors rows cols cur cost (d :: rest) pq costs cf =
      if 0 ≤ cur.1 + d.1 ∧ cur.1 + d.1 < (cols : ℤ) ∧
          0 ≤ cur.2 + d.2 ∧ cur.2 + d.2 < (rows : ℤ) then
        if improves (lookupC costs (cur.1 + d.1, cur.2 + d.2))
            (cost + (if d.1.natAbs + d.2.natAbs = 1 then 5 else 7)) then
          relaxNeighbors rows cols cur cost rest
            (heappush pq
              (cost + (if d.1.natAbs + d.2.natAbs = 1 then 5 else 7),
                (cur.1 + d.1, cur.2 + d.2)))
            (((cur.1 + d.1, cur.2 + d.2),
              cost + (if d.1.natAbs + d.2.natAbs = 1 then 5 else 7)) :: costs)
            (((cur.1 + d.1, cur.2 + d.2), some cur) :: cf)
        else relaxNeighbors rows cols cur cost rest pq costs cf
      else relaxNeighbors rows cols cur cost rest pq costs cf := rfl

lemma rowRelaxTail (N : ℕ) (x : ℤ) (c : ℕ) (pq : List (ℕ × Point))
    (costs : List (Point × ℕ)) (cf : List (Point × Option Point)) :
    relaxNeighbors 1 N (x, 0) c ((1 : ℤ × ℤ) :: ((-1:ℤ),(-1:ℤ)) ::
      ((1:ℤ),(-1:ℤ)) :: ((-1:ℤ),(1:ℤ)) :: ([] : List (ℤ × ℤ)))
      pq costs cf = (pq, costs, cf) := by
  rw [relaxNeighbors_cons2]
  dsimp only
  simp only [Prod.fst_one, Prod.snd_one]
  have h1 : ¬((0:ℤ) ≤ x + 1 ∧ x + 1 < (N:ℤ) ∧
      (0:ℤ) ≤ 0 + 1 ∧ (0:ℤ) + 1 < ((1:ℕ):ℤ)) := by omega
  rw [if_neg h1]
  rw [relaxNeighbors_cons2]
  dsimp only
  have h2 : ¬((0:ℤ) ≤ x + -1 ∧ x + -1 < (N:ℤ) ∧
      (0:ℤ) ≤ 0 + -1 ∧ (0:ℤ) + -1 < ((1:ℕ):ℤ)) := by omega
  rw [if_neg h2]
  rw [relaxNeighbors_cons2]
  dsimp only
  have h3 : ¬((0:ℤ) ≤ x + 1 ∧ x + 1 < (N:ℤ) ∧
      (0:ℤ) ≤ 0 + -1 ∧ (0:ℤ) + -1 < ((1:ℕ):ℤ)) := by omega
  rw [if_neg h3]
  rw [relaxNeighbors_cons2]
  dsimp only
  have h4 : ¬((0:ℤ) ≤ x + -1 ∧ x + -1 < (N:ℤ) ∧
      (0:ℤ) ≤ 0 + 1 ∧ (0:ℤ) + 1 < ((1:ℕ):ℤ)) := by omega
  rw [if_neg h4]
  rfl


lemma rowRelax (N k : ℕ) (h : k + 2 ≤ N) :
    relaxNeighbors 1 N ((k : ℤ), 0) (5 * k) directions []
      (rowCosts k) (rowCf k) =
      ([(5 * (k + 1), (((k + 1 : ℕ) : ℤ), 0))], rowCosts (k + 1),
        rowCf (k + 1)) := by
  rw [show directions = ((0:ℤ),(1:ℤ)) :: ((0:ℤ),(-1:ℤ)) :: ((1:ℤ),(0:ℤ)) ::
    ((-1:ℤ),(0:ℤ)) :: ((1:ℤ),(1:ℤ)) :: ((-1:ℤ),(-1:ℤ)) :: ((1:ℤ),(-1:ℤ)) ::
    ((-1:ℤ),(1:ℤ)) :: ([] : List (ℤ × ℤ)) from rfl]
  rw [relaxNeighbors_cons2]
  dsimp only
  have hno1 : ¬((0:ℤ) ≤ (k:ℤ) + 0 ∧ (k:ℤ) + 0 < (N:ℤ) ∧
      (0:ℤ) ≤ 0 + 1 ∧ (0:ℤ) + 1 < ((1:ℕ):ℤ)) := by
    omega
  rw [if_neg hno1]
  rw [relaxNeighbors_cons2]
  dsimp only
  have hno2 : ¬((0:ℤ) ≤ (k:ℤ) + 0 ∧ (k:ℤ) + 0 < (N:ℤ) ∧
      (0:ℤ) ≤ 0 + -1 ∧ (0:ℤ) + -1 < ((1:ℕ):ℤ)) := by
    omega
  rw [if_neg hno2]
  rw [relaxNeighbors_cons2]
  dsimp only
  have hyes3 : (0:ℤ) ≤ (k:ℤ) + 1 ∧ (k:ℤ) + 1 < (N:ℤ) ∧
      (0:ℤ) ≤ 0 + 0 ∧ (0:ℤ) + 0 < ((1:ℕ):ℤ) := by
    omega
  rw [if_pos hyes3]
  norm_num
  have hlk : lookupC (rowCosts k) ((k:ℤ) + 1, 0) = none := by
    apply rowCosts_lookup_none
    intro j hj hc
    have h1 : (k : ℤ) + 1 = (j : ℤ) := congrArg Prod.fst hc
    omega
  rw [hlk]
  rw [if_pos (show improves none (5 * k + 5) = true from rfl)]
  rw [show heappush [] ((5 * k + 5 : ℕ), ((k:ℤ) + 1, (0:ℤ))) =
    [(5 * k + 5, ((k:ℤ) + 1, 0))] from rfl]
  rw [relaxNeighbors_cons2]
  dsimp only
  by_cases hk : k = 0
  · subst hk
    have hno4 : ¬((0:ℤ) ≤ ((0:ℕ):ℤ) + -1 ∧ ((0:ℕ):ℤ) + -1 < (N:ℤ) ∧
        (0:ℤ) ≤ 0 + 0 ∧ (0:ℤ) + 0 < ((1:ℕ):ℤ)) := by omega
    rw [if_neg hno4]
    rw [rowRelaxTail]
    norm_num [rowCosts, rowCf]
  · have hyes4 : (0:ℤ) ≤ (k:ℤ) + -1 ∧ (k:ℤ) + -1 < (N:ℤ) ∧
        (0:ℤ) ≤ 0 + 0 ∧ (0:ℤ) + 0 < ((1:ℕ):ℤ) := by omega
    rw [if_pos hyes4]
    norm_num
    have hne : ((k:ℤ) + 1, (0:ℤ)) ≠ ((k:ℤ) + -1, (0:ℤ)) := by
      intro hc
      have h1 : (k:ℤ) + 1 = (k:ℤ) + -1 := congrArg Prod.fst hc
      omega
    rw [lookupC_cons, if_neg hne]
    rw [show ((k:ℤ) + -1) = ((k - 1 : ℕ) : ℤ) from by omega]
    rw [rowCosts_lookup_le k (k - 1) (by omega)]
    have hfalse : ¬(improves (some (5 * (k - 1))) (5 * k + 5) = true) := by
      simp only [improves, decide_eq_true_eq]
      omega
    rw [if_neg hfalse]
    rw [rowRelaxTail]
    norm_num [rowCosts, rowCf]
    omega

lemma rowStep (N k fuel : ℕ) (h : k + 2 ≤ N) :
    dijkstraLoop 1 N (((N:ℤ) - 1), 0) (fuel + 1)
      [(5 * k, ((k : ℤ), 0))] (rowCosts k) (rowCf k) =
    dijkstraLoop 1 N (((N:ℤ) - 1), 0) fuel
      [(5 * (k + 1), (((k + 1 : ℕ) : ℤ), 0))] (rowCosts (k + 1))
      (rowCf (k + 1)) := by
  rw [dijkstraLoop_cons]
  have hne : ¬(((5 * k, ((k : ℤ), (0:ℤ))) : ℕ × Point).2 =
      (((N:ℤ) - 1), 0)) := by
    intro hc
    have h1 : (k : ℤ) = (N:ℤ) - 1 := congrArg Prod.fst hc
    omega
  rw [if_neg hne]
  dsimp only
  rw [rowRelax N k h]

lemma rowRun (N : ℕ) :
    ∀ j k fuel, k + j + 1 = N → j + 1 ≤ fuel →
    dijkstraLoop 1 N (((N:ℤ) - 1), 0) fuel
      [(5 * k, ((k : ℤ), 0))] (rowCosts k) (rowCf k) =
      (rowCosts (N - 1), rowCf (N - 1)) := by
  intro j
  induction j with
  | zero =>
      intro k fuel hk hf
      obtain ⟨f, rfl⟩ : ∃ f, fuel = f + 1 := ⟨fuel - 1, by omega⟩
      rw [dijkstraLoop_cons]
      rw [if_pos (show (((5 * k, ((k : ℤ), (0:ℤ))) : ℕ × Point)).2 =
          (((N:ℤ) - 1), 0) from by
        dsimp only
        rw [show (k : ℤ) = (N:ℤ) - 1 from by omega])]
      rw [show k = N - 1 from by omega]
  | succ j ih =>
      intro k fuel hk hf
      obtain ⟨f, rfl⟩ : ∃ f, fuel = f + 1 := ⟨fuel - 1, by omega⟩
      rw [rowStep N k f (by omega)]
      exact ih (k + 1) f (by omega) (by omega)

lemma rowReconstruct (m : ℕ) :
    ∀ k fuel, k + 1 ≤ fuel → k ≤ m →
    reconstructLoop (rowCf m) fuel ((k : ℤ), 0) =
      ((List.range (k + 1)).map (fun (j : ℕ) => ((j : ℤ), (0:ℤ)))).reverse := by
  intro k
  induction k with
  | zero =>
      intro fuel hf _
      obtain ⟨f, rfl⟩ : ∃ f, fuel = f + 1 := ⟨fuel - 1, by omega⟩
      rw [reconstructLoop_succ]
      rw [show (((0:ℕ):ℤ), (0:ℤ)) = ((0:ℤ), (0:ℤ)) from by norm_num]
      rw [rowCf_lookup_zero m]
      rfl
  | succ k ih =>
      intro fuel hf hm
      obtain ⟨f, rfl⟩ : ∃ f, fuel = f + 1 := ⟨fuel - 1, by omega⟩
      rw [reconstructLoop_succ]
      rw [rowCf_lookup_succ m k (by omega)]
      dsimp only
      rw [ih f (by omega) (by omega)]
      simp [List.range_succ]

lemma pathCost_cons (p q : Point) (rest : List Point) :
    pathCost (p :: q :: rest) = stepCost p q + pathCost (q :: rest) := rfl

lemma pathCost_range' (len : ℕ) : ∀ a : ℕ,
    pathCost ((List.range' a (len + 1)).map
      (fun (j : ℕ) => ((j : ℤ), (0:ℤ)))) = (len : ℚ) := by
  induction len with
  | zero =>
      intro a
      rw [List.range'_one]
      norm_num [pathCost]
  | succ len ih =>
      intro a
      rw [List.range'_succ]
      have htail := ih (a + 1)
      rw [List.range'_succ] at htail ⊢
      dsimp only [List.map_cons]
      rw [pathCost_cons]
      dsimp only [List.map_cons] at htail
      rw [htail]
      have h1 : ((a + 1 : ℕ) : ℤ) - (a : ℤ) = 1 := by push_cast; ring
      have hs : stepCost ((a : ℤ), (0:ℤ)) (((a + 1 : ℕ) : ℤ), (0:ℤ)) = 1 := by
        simp [stepCost, h1]
      rw [hs]
      push_cast
      ring

lemma pathCost_straightPath (N : ℕ) (h : 1 ≤ N) :
    pathCost (straightPath N) = (N : ℚ) - 1 := by
  unfold straightPath
  rw [List.range_eq_range']
  rw [show N = (N - 1) + 1 from by omega]
  rw [pathCost_range']
  push_cast [show (N - 1) + 1 - 1 = N - 1 from by omega]
  ring

lemma dijkstra_row (N : ℕ) (hN : 2 ≤ N) :
    dijkstra (rowGrid N) ((0:ℤ), (0:ℤ)) (((N:ℤ) - 1), 0) = straightPath N := by
  unfold dijkstra
  rw [show shape0 (rowGrid N) = 1 from rfl]
  rw [show shape1 (rowGrid N) = N from by simp [shape1, rowGrid]]
  unfold dijkstraAux
  dsimp only
  have hA : 1 * N + 1 ≤ (1 * N + 1) * (1 * N + 1) :=
    Nat.le_mul_of_pos_left _ (by omega)
  have hrun : dijkstraLoop 1 N (((N:ℤ) - 1), 0) ((1*N+1)*(1*N+1)+1)
      [(0, ((0:ℤ), (0:ℤ)))] [(((0:ℤ), (0:ℤ)), 0)] [(((0:ℤ), (0:ℤ)), none)] =
      (rowCosts (N - 1), rowCf (N - 1)) :=
    rowRun N (N - 1) 0 ((1*N+1)*(1*N+1)+1) (by omega) (by omega)
  rw [hrun]
  dsimp only
  rw [show (((N:ℤ) - 1), (0:ℤ)) = ((((N - 1 : ℕ)) : ℤ), (0:ℤ)) from by
    rw [show (N:ℤ) - 1 = ((N - 1 : ℕ) : ℤ) from by omega]]
  rw [show N - 1 = (N - 2) + 1 from by omega]
  rw [rowCf_lookup_succ ((N - 2) + 1) (N - 2) le_rfl]
  dsimp only
  have hmax : 5 * ((N - 2) + 1) ≤
      ((rowCosts ((N - 2) + 1)).map Prod.snd).foldl max 0 :=
    lookupC_le_max _ _ _ (rowCosts_lookup_le ((N - 2) + 1) ((N - 2) + 1) le_rfl)
  rw [rowReconstruct ((N - 2) + 1) ((N - 2) + 1)
    (((rowCosts ((N - 2) + 1)).map Prod.snd).foldl max 0 + 2)
    (by omega) le_rfl]
  rw [List.reverse_reverse]
  rw [show ((N - 2) + 1) + 1 = N from by omega]
  rfl

/-- C7: `dijkstra` with `start == end` returns the single-element path
`[start]` of cost `0`; on the unobstructed 1×N straight row it returns
the straight path `(0,0), (1,0), …, (N−1,0)` whose cost is `(N−1)×1.0`;
every non-empty returned path begins at `start` and ends at `end`; and
when `end` is unreachable by in-bounds 8-neighbour steps it returns the
empty path rather than raising. -/
theorem dijkstra_path_spec (g : IntGrid) (s e : Point) (N : ℕ)
    (hN : 1 ≤ N) :
    (dijkstra g s s = [s] ∧ pathCost [s] = 0) ∧
    (dijkstra (rowGrid N) ((0:ℤ), (0:ℤ)) (((N:ℤ) - 1), 0) = straightPath N ∧
      pathCost (straightPath N) = (N : ℚ) - 1) ∧
    (dijkstra g s e ≠ [] →
      (dijkstra g s e).head? = some s ∧ (dijkstra g s e).getLast? = some e) ∧
    (¬ gridReach (shape0 g) (shape1 g) s e → dijkstra g s e = []) := by
  refine ⟨⟨dijkstraAux_self _ _ _, rfl⟩,
    ⟨?_, pathCost_straightPath N hN⟩, ?_, ?_⟩
  · rcases Nat.lt_or_ge N 2 with h2 | h2
    · have h1 : N = 1 := by omega
      subst h1
      rw [show ((((1:ℕ):ℤ)) - 1, (0:ℤ)) = ((0:ℤ), (0:ℤ)) from by norm_num]
      rw [show dijkstra (rowGrid 1) ((0:ℤ), (0:ℤ)) ((0:ℤ), (0:ℤ)) =
        dijkstraAux (shape0 (rowGrid 1)) (shape1 (rowGrid 1)) ((0:ℤ), (0:ℤ))
          ((0:ℤ), (0:ℤ)) from rfl]
      rw [dijkstraAux_self]
      rfl
    · exact dijkstra_row N h2
  · exact fun h => dijkstraAux_endpoints _ _ _ _ h
  · exact fun h => dijkstraAux_unreachable _ _ _ _ h

/-- C7 witness: on a concrete 2×2 grid with `start = end = (0,0)` the
path is `[(0,0)]`, and on the 1×3 row the returned path is the straight
path of cost `2`. -/
theorem dijkstra_path_spec_witness :
    dijkstra [[0, 0], [0, 0]] ((0:ℤ), (0:ℤ)) ((0:ℤ), (0:ℤ)) =
      [((0:ℤ), (0:ℤ))] ∧
    dijkstra (rowGrid 3) ((0:ℤ), (0:ℤ)) ((((3:ℕ):ℤ)) - 1, 0) =
      straightPath 3 ∧
    pathCost (straightPath 3) = 2 := by
  obtain ⟨⟨h1, _⟩, ⟨h3, h4⟩, _, _⟩ :=
    dijkstra_path_spec [[0, 0], [0, 0]] ((0:ℤ), (0:ℤ)) ((0:ℤ), (0:ℤ)) 3
      (by norm_num)
  refine ⟨h1, h3, ?_⟩
  rw [h4]
  norm_num

/-! ## C6: `Floor.place_template_entrances` (floor.py lines 172-204)

```python
entrance = terrains[Entrance]
entrances = list(np.argwhere(map == entrance))
if not entrances:
    raise ValueError("there is no entrance on template {template}")
if len(entrances) < template.min_entrances:
    raise ValueError(f"there should be at least {temlate.min_entrances}, ...")
if len(entrances) > template.max_entrances:
    no_entrance_tile = terrains[template.no_entrance_tile]
    to_remove = len(entrances) - template.max_entrances
    for _ in range(to_remove):
        index = random.randint(0, len(entrances) - 1)
        (y, x) = entrances.pop(index)
        map[y, x] = no_entrance_tile
return entrances
```

`random.randint(0, len - 1)` is modelled by an oracle stream `rng`: the
pick at step `t` is `rng t % len`, which ranges over exactly the indices
the real generator can produce.  The f-string of the second `raise`
evaluates `temlate.min_entrances` — an undefined name — so that branch
raises `NameError`, not the intended `ValueError`; and comparing
`len(entrances) > None` when `max_entrances` is `None` raises
`TypeError`.  The mutated map is returned alongside the surviving
entrance list. -/

def eqMask (g : IntGrid) (v : ℤ) : BoolGrid :=
  g.map (fun row => row.map (fun c => decide (c = v)))

def removeEntrances (rng : ℕ → ℕ) (tile : ℤ) :
    ℕ → IntGrid → List (ℤ × ℤ) → ℕ →
    Except String (IntGrid × List (ℤ × ℤ))
  | _, map, entrances, 0 => .ok (map, entrances)
  | t, map, entrances, n + 1 =>
      match entrances with
      | [] => .error "ValueError: empty range for randrange"
      | e0 :: rest =>
          let idx := rng t % (e0 :: rest).length
          let p := (e0 :: rest).getD idx e0
          removeEntrances rng tile (t + 1) (gridSet map p.1 p.2 tile)
            ((e0 :: rest).eraseIdx idx) n

def place_template_entrances (rng : ℕ → ℕ) (map : IntGrid)
    (template : Template) (terrains : Terrain → ℤ) :
    Except String (IntGrid × List (ℤ × ℤ)) :=
  let entrance := terrains Entrance
  let entrances := argwhere (eqMask map entrance)
  if entrances.isEmpty then
    .error "there is no entrance on template {template}"
  else if entrances.length < template.min_entrances then
    .error "NameError: name temlate is not defined"
  else
    match template.max_entrances with
    | none => .error "TypeError: int > NoneType is not supported"
    | some mx =>
        if entrances.length > mx then
          removeEntrances rng (terrains template.no_entrance_tile) 0 map
            entrances (entrances.length - mx)
        else
          .ok (map, entrances)

/-- C6: entrance reconciliation does NOT fail "exactly when the
entrance count is below `min_entrances`", and the failure is not always
the entrance-count error.  On a one-entrance map with
`min_entrances = 2` the shortfall branch crashes with a `NameError`
(the raise at floor.py line 189 spells the template variable `temlate`),
not the claimed entrance-count `ValueError`; on a zero-entrance map with
`min_entrances = 0` the code fails anyway (floor.py line 183 raises on
an empty entrance list before consulting `min_entrances`, though
`0 ≥ min_entrances`); the surplus path does work as claimed: with three
entrances and `max_entrances = 1`, two picks recolor two entrances to
the fallback tile and the surviving coordinate is returned. -/
theorem place_template_entrances_demo :
    place_template_entrances (fun _ => 0) [[0, 2, 0]]
        { symbols := [], min_entrances := 2, max_entrances := some 1 }
        (fun t => (t : ℤ)) =
      .error "NameError: name temlate is not defined" ∧
    place_template_entrances (fun _ => 0) [[0, 0]]
        { symbols := [], min_entrances := 0, max_entrances := some 1 }
        (fun t => (t : ℤ)) =
      .error "there is no entrance on template {template}" ∧
    place_template_entrances (fun _ => 0) [[2, 0, 2, 2]]
        { symbols := [], min_entrances := 1, max_entrances := some 1 }
        (fun t => (t : ℤ)) =
      .ok ([[0, 0, 0, 2]], [((0:ℤ), (3:ℤ))]) :=
  ⟨rfl, rfl, rfl⟩

/-! ## C1: `compute_mst` (finder.py lines 8-40)

```python
def distance(p1, p2):
    return ((p1[0] - p2[0]) ** 2 + (p1[1] - p2[1]) ** 2) ** 0.5

def compute_mst(entrances):
    graph = []
    for (i, p1), (j, p2) in itertools.combinations(enumerate(entrances), 2):
        dist = distance(p1, p2)
        graph.append((dist, i, j))
    graph.sort()
    mst = []
    parent = {i: i for i in range(len(entrances))}
    def find(n):
        while parent[n] != n:
            n = parent[n]
        return n
    def union(n1, n2):
        parent[find(n1)] = find(n2)
    for cost, i, j in graph:
        if find(i) != find(j):
            union(i, j)
            mst.append((entrances[i], entrances[j]))
    return mst
```

Entrances are integer grid coordinates, so every pairwise distance is
`sqrt` of the natural number `dist2`.  `sqrt` is strictly monotone, so
Python's sort of `(dist, i, j)` tuples coincides with the lexicographic
sort of the exact keys `(dist2, i, j)`, which are pairwise distinct;
distances are modelled exactly.  The `parent` dict is an association
list where assignment prepends and lookup returns the newest binding;
`find`'s unbounded `while` loop is run with fuel `n + 1`, which the
stabilization invariant proved below shows is never exhausted (parent
chains pass pairwise-distinct nodes).  The `mst` list of point pairs is
recovered from the accepted index pairs by a final map, exactly the
pairs `(entrances[i], entrances[j])` appended by the source. -/

def dist2 (p q : ℤ × ℤ) : ℕ := ((p.1 - q.1) ^ 2 + (p.2 - q.2) ^ 2).toNat

/-- A `graph` entry `(dist, i, j)`, with the exact squared distance
standing in for the float. -/
abbrev EdgeK := ℕ × ℕ × ℕ

def keyLE (a b : EdgeK) : Prop :=
  a.1 < b.1 ∨ (a.1 = b.1 ∧ (a.2.1 < b.2.1 ∨
    (a.2.1 = b.2.1 ∧ a.2.2 ≤ b.2.2)))

instance (a b : EdgeK) : Decidable (keyLE a b) := by
  unfold keyLE
  infer_instance

def keyLT (a b : EdgeK) : Prop :=
  a.1 < b.1 ∨ (a.1 = b.1 ∧ (a.2.1 < b.2.1 ∨
    (a.2.1 = b.2.1 ∧ a.2.2 < b.2.2)))

instance (a b : EdgeK) : Decidable (keyLT a b) := by
  unfold keyLT
  infer_instance

/-- `list.sort` via insertion, the unique stable sort for the total
order on the pairwise-distinct keys. -/
def insertK (e : EdgeK) : List EdgeK → List EdgeK
  | [] => [e]
  | f :: rest => if keyLE e f then e :: f :: rest else f :: insertK e rest

def sortK : List EdgeK → List EdgeK
  | [] => []
  | e :: rest => insertK e (sortK rest)

/-- `itertools.combinations(enumerate(entrances), 2)` keyed by
`(dist, i, j)`. -/
def combEdges (pts : List (ℤ × ℤ)) : List EdgeK :=
  (List.range pts.length).flatMap (fun (i : ℕ) =>
    ((List.range pts.length).filter (fun (j : ℕ) => decide (i < j))).map
      (fun (j : ℕ) => (dist2 (pts.getD i (0, 0)) (pts.getD j (0, 0)), i, j)))

def lookupN (l : List (ℕ × ℕ)) (x : ℕ) : Option ℕ :=
  match l with
  | [] => none
  | (k, v) :: rest => if k = x then some v else lookupN rest x

/-- `find`: follow parent pointers to the root.  The fuel only bounds
the unbounded `while`; under the loop invariant a root is always
reached first. -/
def findUF (parent : List (ℕ × ℕ)) : ℕ → ℕ → ℕ
  | 0, x => x
  | fuel + 1, x =>
      match lookupN parent x with
      | none => x
      | some p => if p = x then x else findUF parent fuel p

def initParent (n : ℕ) : List (ℕ × ℕ) :=
  (List.range n).map (fun (i : ℕ) => (i, i))

/-- The `for cost, i, j in graph` loop, accumulating accepted index
pairs; `union(i, j)` prepends `(find(i), find(j))`. -/
def kruskalLoop (n : ℕ) :
    List EdgeK → List (ℕ × ℕ) → List (ℕ × ℕ) → List (ℕ × ℕ)
  | [], _, acc => acc
  | (_, i, j) :: rest, parent, acc =>
      let ri := findUF parent (n + 1) i
      let rj := findUF parent (n + 1) j
      if ri = rj then kruskalLoop n rest parent acc
      else kruskalLoop n rest ((ri, rj) :: parent) (acc ++ [(i, j)])

def compute_mst_idx (pts : List (ℤ × ℤ)) : List (ℕ × ℕ) :=
  kruskalLoop pts.length (sortK (combEdges pts)) (initParent pts.length) []

def compute_mst (pts : List (ℤ × ℤ)) : List ((ℤ × ℤ) × (ℤ × ℤ)) :=
  (compute_mst_idx pts).map
    (fun e => (pts.getD e.1 (0, 0), pts.getD e.2 (0, 0)))

/-! Connectivity over an undirected edge list, and a canonical
labelling used to count components. -/

def edgeRelOf (E : List (ℕ × ℕ)) (x y : ℕ) : Prop :=
  (x, y) ∈ E ∨ (y, x) ∈ E

def conn (E : List (ℕ × ℕ)) (x y : ℕ) : Prop :=
  Relation.EqvGen (edgeRelOf E) x y

/-- Merge-as-you-go labelling: both endpoints of every edge get the
same label, and labels agree exactly on connected vertices. -/
def labelsOf : List (ℕ × ℕ) → ℕ → ℕ
  | [] => id
  | (i, j) :: rest =>
      let L := labelsOf rest
      fun x => if L x = L i then L j else L x

/-- The number of connected components among vertices `0..n-1`. -/
def ncnt (n : ℕ) (E : List (ℕ × ℕ)) : ℕ :=
  ((Finset.range n).image (labelsOf E)).card

def keyOf (pts : List (ℤ × ℤ)) (e : ℕ × ℕ) : EdgeK :=
  (dist2 (pts.getD e.1 (0, 0)) (pts.getD e.2 (0, 0)), e.1, e.2)

lemma conn_of_sub (E E' : List (ℕ × ℕ)) (h : ∀ e ∈ E, e ∈ E') :
    ∀ x y, conn E x y → conn E' x y := by
  intro x y hc
  induction hc with
  | rel a b hab =>
      exact Relation.EqvGen.rel a b (hab.imp (h _) (h _))
  | refl a => exact Relation.EqvGen.refl a
  | symm a b _ ih => exact Relation.EqvGen.symm a b ih
  | trans a b c _ _ ih1 ih2 => exact Relation.EqvGen.trans a b c ih1 ih2

lemma conn_edge (E : List (ℕ × ℕ)) (i j : ℕ) (h : (i, j) ∈ E) :
    conn E i j :=
  Relation.EqvGen.rel i j (Or.inl h)

lemma conn_cons_iff (i j : ℕ) (E : List (ℕ × ℕ)) (x y : ℕ) :
    conn ((i, j) :: E) x y ↔
      conn E x y ∨ (conn E x i ∧ conn E j y) ∨ (conn E x j ∧ conn E i y) := by
  constructor
  · intro h
    induction h with
    | rel a b hab =>
        rcases hab with hab | hab
        · rcases List.mem_cons.1 hab with heq | hmem
          · injection heq with h1 h2
            subst h1
            subst h2
            exact Or.inr (Or.inl ⟨Relation.EqvGen.refl _,
              Relation.EqvGen.refl _⟩)
          · exact Or.inl (Relation.EqvGen.rel a b (Or.inl hmem))
        · rcases List.mem_cons.1 hab with heq | hmem
          · injection heq with h1 h2
            subst h1
            subst h2
            exact Or.inr (Or.inr ⟨Relation.EqvGen.refl _,
              Relation.EqvGen.refl _⟩)
          · exact Or.inl (Relation.EqvGen.rel a b (Or.inr hmem))
    | refl a => exact Or.inl (Relation.EqvGen.refl a)
    | symm a b _ ih =>
        rcases ih with h1 | ⟨h1, h2⟩ | ⟨h1, h2⟩
        · exact Or.inl (Relation.EqvGen.symm a b h1)
        · exact Or.inr (Or.inr ⟨Relation.EqvGen.symm _ _ h2,
            Relation.EqvGen.symm _ _ h1⟩)
        · exact Or.inr (Or.inl ⟨Relation.EqvGen.symm _ _ h2,
            Relation.EqvGen.symm _ _ h1⟩)
    | trans a b c _ _ ih1 ih2 =>
        rcases ih1 with h1 | ⟨h1, h2⟩ | ⟨h1, h2⟩ <;>
          rcases ih2 with h3 | ⟨h3, h4⟩ | ⟨h3, h4⟩
        · exact Or.inl (Relation.EqvGen.trans _ _ _ h1 h3)
        · exact Or.inr (Or.inl ⟨Relation.EqvGen.trans _ _ _ h1 h3, h4⟩)
        · exact Or.inr (Or.inr ⟨Relation.EqvGen.trans _ _ _ h1 h3, h4⟩)
        · exact Or.inr (Or.inl ⟨h1, Relation.EqvGen.trans _ _ _ h2 h3⟩)
        · exact Or.inr (Or.inl ⟨h1, h4⟩)
        · exact Or.inl (Relation.EqvGen.trans _ _ _ h1 h4)
        · exact Or.inr (Or.inr ⟨h1, Relation.EqvGen.trans _ _ _ h2 h3⟩)
        · exact Or.inl (Relation.EqvGen.trans _ _ _ h1 h4)
        · exact Or.inr (Or.inr ⟨h1, h4⟩)
  · intro h
    have hmono := conn_of_sub E ((i, j) :: E)
      (fun e he => List.mem_cons_of_mem _ he)
    have hij : conn ((i, j) :: E) i j :=
      conn_edge _ _ _ (List.mem_cons_self _ _)
    rcases h with h | ⟨h1, h2⟩ | ⟨h1, h2⟩
    · exact hmono _ _ h
    · exact Relation.EqvGen.trans _ _ _
        (Relation.EqvGen.trans _ _ _ (hmono _ _ h1) hij) (hmono _ _ h2)
    · exact Relation.EqvGen.trans _ _ _
        (Relation.EqvGen.trans _ _ _ (hmono _ _ h1)
          (Relation.EqvGen.symm _ _ hij)) (hmono _ _ h2)

lemma labels_correct (E : List (ℕ × ℕ)) : ∀ x y : ℕ,
    conn E x y ↔ labelsOf E x = labelsOf E y := by
  induction E with
  | nil =>
      intro x y
      constructor
      · intro h
        induction h with
        | rel a b hab =>
            rcases hab with hab | hab <;> exact absurd hab (List.not_mem_nil _)
        | refl a => rfl
        | symm _ _ _ ih => exact ih.symm
        | trans _ _ _ _ _ ih1 ih2 => exact ih1.trans ih2
      · intro h
        have hxy : x = y := h
        subst hxy
        exact Relation.EqvGen.refl x
  | cons e rest ih =>
      rcases e with ⟨i, j⟩
      intro x y
      rw [conn_cons_iff]
      simp only [ih, labelsOf]
      split_ifs <;> omega

lemma conn_mono_of_edges (E E' : List (ℕ × ℕ))
    (h : ∀ e ∈ E, conn E' e.1 e.2) : ∀ x y, conn E x y → conn E' x y := by
  intro x y hc
  induction hc with
  | rel a b hab =>
      rcases hab with hab | hab
      · exact h (a, b) hab
      · exact Relation.EqvGen.symm _ _ (h (b, a) hab)
  | refl a => exact Relation.EqvGen.refl a
  | symm a b _ ih => exact Relation.EqvGen.symm a b ih
  | trans a b c _ _ ih1 ih2 => exact Relation.EqvGen.trans a b c ih1 ih2

lemma label_card_le (n : ℕ) (f g : ℕ → ℕ)
    (h : ∀ x ∈ Finset.range n, ∀ y ∈ Finset.range n, g x = g y → f x = f y) :
    ((Finset.range n).image f).card ≤ ((Finset.range n).image g).card := by
  classical
  apply Finset.card_le_card_of_surjOn
    (fun v => if hv : ∃ x ∈ Finset.range n, g x = v then f hv.choose else v)
  intro w hw
  rcases Finset.mem_image.1 hw with ⟨x, hx, rfl⟩
  refine ⟨g x, Finset.mem_image_of_mem g hx, ?_⟩
  have hex : ∃ y ∈ Finset.range n, g y = g x := ⟨x, hx, rfl⟩
  simp only [dif_pos hex]
  exact h _ hex.choose_spec.1 _ hx hex.choose_spec.2

lemma ncnt_le_of_conn_le (n : ℕ) (A B : List (ℕ × ℕ))
    (h : ∀ x y, conn B x y → conn A x y) : ncnt n A ≤ ncnt n B :=
  label_card_le n (labelsOf A) (labelsOf B) (fun x _ y _ hg =>
    (labels_correct A x y).1 (h x y ((labels_correct B x y).2 hg)))

lemma ncnt_congr (n : ℕ) (E E' : List (ℕ × ℕ))
    (h : ∀ x y, conn E x y ↔ conn E' x y) : ncnt n E = ncnt n E' :=
  le_antisymm (ncnt_le_of_conn_le n E E' (fun x y hc => (h x y).2 hc))
    (ncnt_le_of_conn_le n E' E (fun x y hc => (h x y).1 hc))

lemma ncnt_perm (n : ℕ) (E E' : List (ℕ × ℕ)) (h : E.Perm E') :
    ncnt n E = ncnt n E' :=
  ncnt_congr n E E' (fun x y =>
    ⟨conn_of_sub E E' (fun e he => h.mem_iff.1 he) x y,
     conn_of_sub E' E (fun e he => h.mem_iff.2 he) x y⟩)

lemma image_labels_cons (n i j : ℕ) (E : List (ℕ × ℕ)) :
    (Finset.range n).image (labelsOf ((i, j) :: E)) =
      ((Finset.range n).image (labelsOf E)).image
        (fun u => if u = labelsOf E i then labelsOf E j else u) := by
  rw [Finset.image_image]
  apply Finset.image_congr
  intro x _
  rfl

lemma ncnt_cons_conn (n i j : ℕ) (E : List (ℕ × ℕ)) (h : conn E i j) :
    ncnt n ((i, j) :: E) = ncnt n E := by
  have hl : labelsOf E i = labelsOf E j := (labels_correct E i j).1 h
  unfold ncnt
  rw [image_labels_cons]
  congr 1
  refine Finset.image_congr (fun u _ => ?_) |>.trans (Finset.image_id)
  by_cases hu : u = labelsOf E i
  · rw [if_pos hu, hu, hl]
    rfl
  · rw [if_neg hu]
    rfl

lemma ncnt_cons_not_conn (n i j : ℕ) (E : List (ℕ × ℕ))
    (hi : i < n) (hj : j < n) (h : ¬ conn E i j) :
    ncnt n ((i, j) :: E) + 1 = ncnt n E := by
  classical
  have hl : labelsOf E i ≠ labelsOf E j :=
    fun hc => h ((labels_correct E i j).2 hc)
  have hiS : labelsOf E i ∈ (Finset.range n).image (labelsOf E) :=
    Finset.mem_image_of_mem _ (Finset.mem_range.2 hi)
  have hjS : labelsOf E j ∈ (Finset.range n).image (labelsOf E) :=
    Finset.mem_image_of_mem _ (Finset.mem_range.2 hj)
  unfold ncnt
  rw [image_labels_cons]
  have himg : ((Finset.range n).image (labelsOf E)).image
      (fun u => if u = labelsOf E i then labelsOf E j else u) =
      ((Finset.range n).image (labelsOf E)).erase (labelsOf E i) := by
    ext u
    simp only [Finset.mem_image, Finset.mem_erase]
    constructor
    · rintro ⟨v, hv, rfl⟩
      by_cases hvi : v = labelsOf E i
      · rw [if_pos hvi]
        exact ⟨Ne.symm hl, Finset.mem_image.1 hjS⟩
      · rw [if_neg hvi]
        exact ⟨hvi, hv⟩
    · rintro ⟨hu, huS⟩
      exact ⟨u, huS, if_neg hu⟩
  rw [himg, Finset.card_erase_of_mem hiS]
  have : 1 ≤ ((Finset.range n).image (labelsOf E)).card :=
    Finset.card_pos.2 ⟨_, hiS⟩
  omega

lemma ncnt_cons_ge (n i j : ℕ) (E : List (ℕ × ℕ)) :
    ncnt n E ≤ ncnt n ((i, j) :: E) + 1 := by
  classical
  unfold ncnt
  rw [image_labels_cons]
  have hsub : ((Finset.range n).image (labelsOf E)).erase (labelsOf E i) ⊆
      ((Finset.range n).image (labelsOf E)).image
        (fun u => if u = labelsOf E i then labelsOf E j else u) := by
    intro u hu
    rcases Finset.mem_erase.1 hu with ⟨hne, huS⟩
    exact Finset.mem_image.2 ⟨u, huS, if_neg hne⟩
  have h1 := Finset.card_le_card hsub
  by_cases hmem : labelsOf E i ∈ (Finset.range n).image (labelsOf E)
  · rw [Finset.card_erase_of_mem hmem] at h1
    omega
  · rw [Finset.erase_eq_of_not_mem hmem] at h1
    omega

lemma ncnt_nil (n : ℕ) : ncnt n [] = n := by
  unfold ncnt
  rw [show labelsOf [] = id from rfl, Finset.image_id, Finset.card_range]

lemma ncnt_ge (n : ℕ) : ∀ E : List (ℕ × ℕ), n ≤ ncnt n E + E.length := by
  intro E
  induction E with
  | nil =>
      rw [ncnt_nil]
      simp
  | cons e rest ih =>
      rcases e with ⟨i, j⟩
      have := ncnt_cons_ge n i j rest
      simp only [List.length_cons]
      omega

lemma ncnt_conn_all (n : ℕ) (hn : 1 ≤ n) (E : List (ℕ × ℕ))
    (h : ∀ x y, x < n → y < n → conn E x y) : ncnt n E = 1 := by
  unfold ncnt
  rw [Finset.card_eq_one]
  refine ⟨labelsOf E 0, ?_⟩
  ext u
  simp only [Finset.mem_image, Finset.mem_singleton, Finset.mem_range]
  constructor
  · rintro ⟨x, hx, rfl⟩
    exact ((labels_correct E x 0).1 (h x 0 hx hn))
  · rintro rfl
    exact ⟨0, hn, rfl⟩

lemma forest_suffix (n : ℕ) (C B : List (ℕ × ℕ))
    (h : ncnt n (C ++ B) + (C ++ B).length = n) :
    ncnt n B + B.length = n := by
  have hdrop : ∀ C' : List (ℕ × ℕ),
      ncnt n B ≤ ncnt n (C' ++ B) + C'.length := by
    intro C'
    induction C' with
    | nil => simp
    | cons e rest ih =>
        rcases e with ⟨i, j⟩
        have := ncnt_cons_ge n i j (rest ++ B)
        simp only [List.cons_append, List.length_cons]
        omega
  have h1 := hdrop C
  have h2 := ncnt_ge n B
  rw [List.length_append] at h
  omega

lemma exchange (n : ℕ) (A B : List (ℕ × ℕ))
    (hB : ncnt n B + B.length = n) (hlt : A.length < B.length) :
    ∃ e ∈ B, ¬ conn A e.1 e.2 := by
  by_contra hfull
  push_neg at hfull
  have h1 : ncnt n A ≤ ncnt n B :=
    ncnt_le_of_conn_le n A B
      (conn_mono_of_edges B A (fun e he => hfull e he))
  have h2 := ncnt_ge n A
  omega

lemma lookupN_cons (k v : ℕ) (rest : List (ℕ × ℕ)) (x : ℕ) :
    lookupN ((k, v) :: rest) x = if k = x then some v else lookupN rest x :=
  rfl

def Root (parent : List (ℕ × ℕ)) (r : ℕ) : Prop :=
  lookupN parent r = some r

lemma findUF_zero (parent : List (ℕ × ℕ)) (x : ℕ) :
    findUF parent 0 x = x := rfl

lemma findUF_succ_none (parent : List (ℕ × ℕ)) (fuel x : ℕ)
    (h : lookupN parent x = none) : findUF parent (fuel + 1) x = x := by
  unfold findUF
  rw [h]

lemma findUF_succ_self (parent : List (ℕ × ℕ)) (fuel x : ℕ)
    (h : lookupN parent x = some x) : findUF parent (fuel + 1) x = x := by
  unfold findUF
  rw [h]
  dsimp only
  rw [if_pos rfl]

lemma findUF_succ_step (parent : List (ℕ × ℕ)) (fuel x p : ℕ)
    (h : lookupN parent x = some p) (hne : p ≠ x) :
    findUF parent (fuel + 1) x = findUF parent fuel p := by
  conv_lhs => unfold findUF
  rw [h]
  dsimp only
  rw [if_neg hne]

lemma findUF_root (parent : List (ℕ × ℕ)) (r : ℕ) (hr : Root parent r) :
    ∀ fuel, findUF parent fuel r = r := by
  intro fuel
  cases fuel with
  | zero => rfl
  | succ f => exact findUF_succ_self parent f r hr

lemma findUF_stable (parent : List (ℕ × ℕ)) :
    ∀ (B x : ℕ), Root parent (findUF parent B x) →
      ∀ g, B ≤ g → findUF parent g x = findUF parent B x := by
  intro B
  induction B with
  | zero =>
      intro x hr g _
      rw [findUF_zero] at hr ⊢
      exact findUF_root parent x hr g
  | succ B ih =>
      intro x hr g hg
      obtain ⟨g2, rfl⟩ : ∃ g2, g = g2 + 1 := ⟨g - 1, by omega⟩
      cases hl : lookupN parent x with
      | none =>
          rw [findUF_succ_none parent B x hl,
            findUF_succ_none parent g2 x hl]
      | some p =>
          by_cases hpx : p = x
          · subst hpx
            rw [findUF_succ_self parent B p hl,
              findUF_succ_self parent g2 p hl]
          · rw [findUF_succ_step parent B x p hl hpx] at hr ⊢
            rw [findUF_succ_step parent g2 x p hl hpx]
            exact ih p hr g2 (by omega)

lemma root_union_right (parent : List (ℕ × ℕ)) (r1 r2 : ℕ)
    (h2 : Root parent r2) (hne : r1 ≠ r2) :
    Root ((r1, r2) :: parent) r2 := by
  unfold Root
  rw [lookupN_cons, if_neg hne]
  exact h2

lemma root_union_other (parent : List (ℕ × ℕ)) (r1 r2 r : ℕ)
    (hr : Root parent r) (hne : r1 ≠ r) :
    Root ((r1, r2) :: parent) r := by
  unfold Root
  rw [lookupN_cons, if_neg hne]
  exact hr

lemma findUF_union (parent : List (ℕ × ℕ)) (r1 r2 : ℕ)
    (h1 : Root parent r1) (h2 : Root parent r2) (hne : r1 ≠ r2) :
    ∀ (B x : ℕ), Root parent (findUF parent B x) →
      findUF ((r1, r2) :: parent) (B + 1) x =
        (if findUF parent B x = r1 then r2 else findUF parent B x) ∧
      Root ((r1, r2) :: parent)
        (if findUF parent B x = r1 then r2 else findUF parent B x) := by
  have hr2' : Root ((r1, r2) :: parent) r2 := root_union_right parent r1 r2 h2 hne
  intro B
  induction B with
  | zero =>
      intro x hr
      rw [findUF_zero] at hr ⊢
      by_cases hx1 : x = r1
      · subst hx1
        rw [if_pos rfl]
        constructor
        · rw [findUF_succ_step ((x, r2) :: parent) 0 x r2
            (by rw [lookupN_cons, if_pos rfl]) (fun hc => hne (hc ▸ rfl))]
          rfl
        · exact hr2'
      · rw [if_neg hx1]
        have hlx : lookupN ((r1, r2) :: parent) x = some x := by
          rw [lookupN_cons, if_neg (fun hc => hx1 hc.symm)]
          exact hr
        exact ⟨findUF_succ_self _ 0 x hlx, hlx⟩
  | succ B ih =>
      intro x hr
      cases hl : lookupN parent x with
      | none =>
          rw [findUF_succ_none parent B x hl] at hr
          rw [Root, hl] at hr
          cases hr
      | some p =>
          by_cases hpx : p = x
          · subst hpx
            rw [findUF_succ_self parent B p hl] at hr ⊢
            by_cases hx1 : p = r1
            · subst hx1
              rw [if_pos rfl]
              constructor
              · rw [findUF_succ_step ((p, r2) :: parent) (B + 1) p r2
                  (by rw [lookupN_cons, if_pos rfl])
                  (fun hc => hne (hc ▸ rfl))]
                exact findUF_root _ r2 hr2' (B + 1)
              · exact hr2'
            · rw [if_neg hx1]
              have hlx : lookupN ((r1, r2) :: parent) p = some p := by
                rw [lookupN_cons, if_neg (fun hc => hx1 hc.symm)]
                exact hl
              exact ⟨findUF_succ_self _ (B + 1) p hlx, hlx⟩
          · have hx1 : x ≠ r1 := by
              intro hc
              subst hc
              rw [Root] at h1
              rw [h1] at hl
              cases hl
              exact hpx rfl
            rw [findUF_succ_step parent B x p hl hpx] at hr ⊢
            have hlx : lookupN ((r1, r2) :: parent) x = some p := by
              rw [lookupN_cons, if_neg (fun hc => hx1 hc.symm)]
              exact hl
            rw [findUF_succ_step ((r1, r2) :: parent) (B + 1) x p hlx hpx]
            exact ih p hr

/-- The Kruskal loop invariant: some fuel bound `B` reaches a root for
every vertex, labels (roots at full fuel) agree exactly on
`acc`-connected vertices, `acc` is a forest, and endpoints are in
range. -/
def KInv (n : ℕ) (parent : List (ℕ × ℕ)) (acc : List (ℕ × ℕ)) : Prop :=
  (∃ B, B ≤ acc.length + 1 ∧ ∀ x, x < n → Root parent (findUF parent B x)) ∧
  (∀ x y, x < n → y < n →
    (conn acc x y ↔ findUF parent (n + 1) x = findUF parent (n + 1) y)) ∧
  ncnt n acc + acc.length = n ∧
  (∀ e ∈ acc, e.1 < n ∧ e.2 < n)

lemma ncnt_pos (n : ℕ) (hn : 1 ≤ n) (E : List (ℕ × ℕ)) : 1 ≤ ncnt n E :=
  Finset.card_pos.2 ⟨labelsOf E 0,
    Finset.mem_image_of_mem _ (Finset.mem_range.2 hn)⟩

lemma conn_append_single (acc : List (ℕ × ℕ)) (e : ℕ × ℕ) (x y : ℕ) :
    conn (acc ++ [e]) x y ↔ conn (e :: acc) x y :=
  ⟨conn_of_sub _ _ (fun f hf => (List.perm_append_singleton e acc).mem_iff.1 hf) x y,
   conn_of_sub _ _ (fun f hf => (List.perm_append_singleton e acc).mem_iff.2 hf) x y⟩

lemma kruskalLoop_cons (n c i j : ℕ) (rest : List EdgeK)
    (parent acc : List (ℕ × ℕ)) :
    kruskalLoop n ((c, i, j) :: rest) parent acc =
      if findUF parent (n + 1) i = findUF parent (n + 1) j then
        kruskalLoop n rest parent acc
      else kruskalLoop n rest
        ((findUF parent (n + 1) i, findUF parent (n + 1) j) :: parent)
        (acc ++ [(i, j)]) := rfl

lemma KInv_accept (n : ℕ) (parent acc : List (ℕ × ℕ)) (i j : ℕ)
    (hInv : KInv n parent acc) (hi : i < n) (hj : j < n)
    (hne : findUF parent (n + 1) i ≠ findUF parent (n + 1) j) :
    KInv n ((findUF parent (n + 1) i, findUF parent (n + 1) j) :: parent)
      (acc ++ [(i, j)]) ∧ ¬ conn acc i j := by
  obtain ⟨⟨B, hB, hroot⟩, hlab, hcnt, hbnd⟩ := hInv
  have hn1 : 1 ≤ n := by omega
  have hlen : acc.length + 1 ≤ n := by
    have := ncnt_pos n hn1 acc
    omega
  have hBn : B ≤ n + 1 := by omega
  -- full-fuel find agrees with fuel-B find, and is a root
  have hstab : ∀ x, x < n →
      findUF parent (n + 1) x = findUF parent B x :=
    fun x hx => findUF_stable parent B x (hroot x hx) (n + 1) hBn
  have hrootL : ∀ x, x < n → Root parent (findUF parent (n + 1) x) := by
    intro x hx
    rw [hstab x hx]
    exact hroot x hx
  set r1 := findUF parent (n + 1) i with hr1
  set r2 := findUF parent (n + 1) j with hr2
  have hroot1 : Root parent r1 := hrootL i hi
  have hroot2 : Root parent r2 := hrootL j hj
  have hnotconn : ¬ conn acc i j := by
    intro hc
    exact hne ((hlab i j hi hj).1 hc)
  have hunion := findUF_union parent r1 r2 hroot1 hroot2 hne
  -- the new labels merge r1 into r2
  have hL' : ∀ x, x < n →
      findUF ((r1, r2) :: parent) (n + 1) x =
        (if findUF parent (n + 1) x = r1 then r2
          else findUF parent (n + 1) x) ∧
      Root ((r1, r2) :: parent)
        (findUF ((r1, r2) :: parent) (n + 1) x) := by
    intro x hx
    have hu := hunion B x (by rw [← hstab x hx]; exact hrootL x hx)
    have hstep : findUF ((r1, r2) :: parent) (n + 1) x =
        findUF ((r1, r2) :: parent) (B + 1) x :=
      findUF_stable ((r1, r2) :: parent) (B + 1) x
        (by rw [hu.1]; exact hu.2) (n + 1) (by omega)
    rw [hstep, hu.1, ← hstab x hx]
    exact ⟨rfl, by rw [hstab x hx]; exact hu.2⟩
  refine ⟨⟨⟨B + 1, by simp; omega, ?_⟩, ?_, ?_, ?_⟩, hnotconn⟩
  · intro x hx
    have hu := hunion B x (by rw [← hstab x hx]; exact hrootL x hx)
    rw [hu.1]
    exact hu.2
  · intro x y hx hy
    rw [conn_append_single, conn_cons_iff, (hL' x hx).1, (hL' y hy).1]
    rw [hlab x y hx hy, hlab x i hx hi, hlab j y hj hy,
      hlab x j hx hj, hlab i y hi hy]
    rw [← hr1, ← hr2]
    split_ifs <;> omega
  · have hperm := ncnt_perm n (acc ++ [(i, j)]) ((i, j) :: acc)
      (List.perm_append_singleton _ _)
    have hdec := ncnt_cons_not_conn n i j acc hi hj hnotconn
    simp only [List.length_append, List.length_cons, List.length_nil]
    omega
  · intro e he
    rcases List.mem_append.1 he with he | he
    · exact hbnd e he
    · rcases List.mem_singleton.1 he with rfl
      exact ⟨hi, hj⟩

lemma kruskalLoop_spec (n : ℕ) (w : ℕ × ℕ → EdgeK) :
    ∀ (edges : List EdgeK) (parent acc : List (ℕ × ℕ)),
      KInv n parent acc →
      (∀ e ∈ edges, e = w e.2 ∧ e.2.1 < e.2.2 ∧ e.2.2 < n) →
      List.Pairwise keyLT edges →
      (∀ f ∈ acc, ∀ e ∈ edges, keyLT (w f) e) →
      List.Pairwise keyLT (acc.map w) →
      (ncnt n (kruskalLoop n edges parent acc) +
          (kruskalLoop n edges parent acc).length = n) ∧
      (∀ e ∈ kruskalLoop n edges parent acc, e.1 < n ∧ e.2 < n) ∧
      (∃ Δ, kruskalLoop n edges parent acc = acc ++ Δ) ∧
      (∀ e ∈ edges, conn (kruskalLoop n edges parent acc) e.2.1 e.2.2) ∧
      (∀ e ∈ edges, e.2 ∈ kruskalLoop n edges parent acc ∨
        conn ((kruskalLoop n edges parent acc).filter
          (fun f => decide (keyLT (w f) e))) e.2.1 e.2.2) ∧
      List.Pairwise keyLT ((kruskalLoop n edges parent acc).map w) := by
  intro edges
  induction edges with
  | nil =>
      intro parent acc hInv _ _ _ hsacc
      obtain ⟨_, _, hcnt, hbnd⟩ := hInv
      exact ⟨hcnt, hbnd, ⟨[], by simp [kruskalLoop]⟩,
        fun e he => absurd he (List.not_mem_nil _),
        fun e he => absurd he (List.not_mem_nil _), hsacc⟩
  | cons e rest ih =>
      rcases e with ⟨c, i, j⟩
      intro parent acc hInv hw hsort hlt hsacc
      obtain ⟨hwhead, hij, hjn⟩ := hw (c, i, j) (List.mem_cons_self _ _)
      have hin : i < n := lt_trans hij hjn
      rw [kruskalLoop_cons]
      by_cases heq : findUF parent (n + 1) i = findUF parent (n + 1) j
      · -- rejected: i and j already share a root, hence are connected
        rw [if_pos heq]
        have hconn : conn acc i j := (hInv.2.1 i j hin hjn).2 heq
        obtain ⟨h1, h2, ⟨Δ, hΔ⟩, h4, h5, h6⟩ := ih parent acc hInv
          (fun f hf => hw f (List.mem_cons_of_mem _ hf))
          (List.pairwise_cons.1 hsort).2
          (fun f hf e' he' => hlt f hf e' (List.mem_cons_of_mem _ he'))
          hsacc
        have haccsub : ∀ f ∈ acc, f ∈ kruskalLoop n rest parent acc := by
          intro f hf
          rw [hΔ]
          exact List.mem_append_left _ hf
        refine ⟨h1, h2, ⟨Δ, hΔ⟩, ?_, ?_, h6⟩
        · intro e' he'
          rcases List.mem_cons.1 he' with rfl | he'
          · exact conn_of_sub acc _ haccsub i j hconn
          · exact h4 e' he'
        · intro e' he'
          rcases List.mem_cons.1 he' with rfl | he'
          · refine Or.inr (conn_of_sub acc _ ?_ i j hconn)
            intro f hf
            rw [List.mem_filter]
            exact ⟨haccsub f hf, decide_eq_true
              (hlt f hf (c, i, j) (List.mem_cons_self _ _))⟩
          · exact h5 e' he'
      · -- accepted
        rw [if_neg heq]
        obtain ⟨hInv', hnc⟩ := KInv_accept n parent acc i j hInv hin hjn heq
        have hlt' : ∀ f ∈ acc ++ [(i, j)], ∀ e' ∈ rest, keyLT (w f) e' := by
          intro f hf e' he'
          rcases List.mem_append.1 hf with hf | hf
          · exact hlt f hf e' (List.mem_cons_of_mem _ he')
          · rcases List.mem_singleton.1 hf with rfl
            rw [← hwhead]
            exact (List.pairwise_cons.1 hsort).1 e' he'
        have hsacc' : List.Pairwise keyLT ((acc ++ [(i, j)]).map w) := by
          rw [List.map_append]
          rw [List.pairwise_append]
          refine ⟨hsacc, List.pairwise_singleton _ _, ?_⟩
          intro a ha b hb
          rcases List.mem_map.1 ha with ⟨f, hf, rfl⟩
          have hb2 : b = w (i, j) := List.mem_singleton.1 hb
          subst hb2
          rw [← hwhead]
          exact hlt f hf (c, i, j) (List.mem_cons_self _ _)
        obtain ⟨h1, h2, ⟨Δ, hΔ⟩, h4, h5, h6⟩ := ih
          ((findUF parent (n + 1) i, findUF parent (n + 1) j) :: parent)
          (acc ++ [(i, j)]) hInv'
          (fun f hf => hw f (List.mem_cons_of_mem _ hf))
          (List.pairwise_cons.1 hsort).2 hlt' hsacc'
        have hijmem : (i, j) ∈ kruskalLoop n rest
            ((findUF parent (n + 1) i, findUF parent (n + 1) j) :: parent)
            (acc ++ [(i, j)]) := by
          rw [hΔ]
          exact List.mem_append_left _ (List.mem_append_right _
            (List.mem_singleton.2 rfl))
        refine ⟨h1, h2, ⟨(i, j) :: Δ, by rw [hΔ, List.append_assoc]; rfl⟩,
          ?_, ?_, h6⟩
        · intro e' he'
          rcases List.mem_cons.1 he' with rfl | he'
          · exact conn_edge _ i j hijmem
          · exact h4 e' he'
        · intro e' he'
          rcases List.mem_cons.1 he' with rfl | he'
          · exact Or.inl hijmem
          · exact h5 e' he'

lemma lookupN_append (A B : List (ℕ × ℕ)) (x : ℕ) :
    lookupN (A ++ B) x = match lookupN A x with
      | some v => some v
      | none => lookupN B x := by
  induction A with
  | nil => rfl
  | cons e rest ih =>
      rcases e with ⟨k, v⟩
      rw [List.cons_append, lookupN_cons, lookupN_cons]
      by_cases hk : k = x
      · rw [if_pos hk, if_pos hk]
      · rw [if_neg hk, if_neg hk, ih]

lemma lookupN_initParent (n : ℕ) (x : ℕ) :
    lookupN (initParent n) x = if x < n then some x else none := by
  induction n with
  | zero =>
      rw [show initParent 0 = [] from rfl]
      rw [if_neg (by omega)]
      rfl
  | succ n ih =>
      rw [show initParent (n + 1) = initParent n ++ [(n, n)] from by
        unfold initParent
        rw [List.range_succ, List.map_append]
        rfl]
      rw [lookupN_append, ih]
      by_cases hx : x < n
      · rw [if_pos hx]
        dsimp only
        rw [if_pos (show x < n + 1 from by omega)]
      · rw [if_neg hx]
        dsimp only
        rw [lookupN_cons]
        by_cases hxe : n = x
        · rw [if_pos hxe, hxe, if_pos (show x < x + 1 from by omega)]
        · rw [if_neg hxe]
          have hn1 : ¬ x < n + 1 := by omega
          rw [if_neg hn1]
          rfl

lemma KInv_init (n : ℕ) : KInv n (initParent n) [] := by
  have hroot : ∀ x, x < n → Root (initParent n) x := by
    intro x hx
    unfold Root
    rw [lookupN_initParent, if_pos hx]
  have hfind : ∀ x fuel, x < n → findUF (initParent n) fuel x = x :=
    fun x fuel hx => findUF_root _ x (hroot x hx) fuel
  refine ⟨⟨1, by omega, ?_⟩, ?_, ?_, ?_⟩
  · intro x hx
    rw [hfind x 1 hx]
    exact hroot x hx
  · intro x y hx hy
    rw [hfind x (n + 1) hx, hfind y (n + 1) hy]
    constructor
    · intro hc
      exact (labels_correct [] x y).1 hc
    · intro hc
      exact (labels_correct [] x y).2 hc
  · rw [ncnt_nil]
    rfl
  · intro e he
    exact absurd he (List.not_mem_nil _)

lemma keyLE_total (a b : EdgeK) : keyLE a b ∨ keyLE b a := by
  unfold keyLE
  omega

lemma keyLE_trans (a b c : EdgeK) (h1 : keyLE a b) (h2 : keyLE b c) :
    keyLE a c := by
  unfold keyLE at *
  omega

lemma keyLT_of_keyLE_ne (a b : EdgeK) (h : keyLE a b) (hne : a ≠ b) :
    keyLT a b := by
  rcases a with ⟨a1, a2, a3⟩
  rcases b with ⟨b1, b2, b3⟩
  unfold keyLE at h
  unfold keyLT
  dsimp only at h ⊢
  have hne2 : ¬(a1 = b1 ∧ a2 = b2 ∧ a3 = b3) := by
    intro hc
    exact hne (by rw [hc.1, hc.2.1, hc.2.2])
  omega

lemma insertK_perm (e : EdgeK) (l : List EdgeK) :
    (insertK e l).Perm (e :: l) := by
  induction l with
  | nil => exact List.Perm.refl _
  | cons f rest ih =>
      unfold insertK
      by_cases h : keyLE e f
      · rw [if_pos h]
      · rw [if_neg h]
        exact (ih.cons f).trans (List.Perm.swap e f rest)

lemma sortK_perm (l : List EdgeK) : (sortK l).Perm l := by
  induction l with
  | nil => exact List.Perm.refl _
  | cons e rest ih =>
      unfold sortK
      exact (insertK_perm e (sortK rest)).trans (ih.cons e)

lemma insertK_sorted (e : EdgeK) (l : List EdgeK)
    (h : List.Pairwise keyLE l) : List.Pairwise keyLE (insertK e l) := by
  induction l with
  | nil => exact List.pairwise_singleton _ _
  | cons f rest ih =>
      rcases List.pairwise_cons.1 h with ⟨hf, hrest⟩
      unfold insertK
      by_cases hef : keyLE e f
      · rw [if_pos hef]
        refine List.pairwise_cons.2 ⟨?_, h⟩
        intro g hg
        rcases List.mem_cons.1 hg with rfl | hg
        · exact hef
        · exact keyLE_trans e f g hef (hf g hg)
      · rw [if_neg hef]
        have hfe : keyLE f e := (keyLE_total e f).resolve_left hef
        refine List.pairwise_cons.2 ⟨?_, ih hrest⟩
        intro g hg
        rcases (insertK_perm e rest).mem_iff.1 hg with hg2
        rcases List.mem_cons.1 hg2 with rfl | hg2
        · exact hfe
        · exact hf g hg2

lemma sortK_sorted (l : List EdgeK) : List.Pairwise keyLE (sortK l) := by
  induction l with
  | nil => exact List.Pairwise.nil
  | cons e rest ih =>
      unfold sortK
      exact insertK_sorted e (sortK rest) ih

lemma combEdges_sound (pts : List (ℤ × ℤ)) (e : EdgeK)
    (he : e ∈ combEdges pts) :
    e = keyOf pts e.2 ∧ e.2.1 < e.2.2 ∧ e.2.2 < pts.length := by
  unfold combEdges at he
  rcases List.mem_flatMap.1 he with ⟨i, hi, hinner⟩
  rcases List.mem_map.1 hinner with ⟨j, hj, rfl⟩
  rcases List.mem_filter.1 hj with ⟨hjr, hij⟩
  refine ⟨rfl, ?_, List.mem_range.1 hjr⟩
  exact of_decide_eq_true hij

lemma combEdges_complete (pts : List (ℤ × ℤ)) (i j : ℕ)
    (hij : i < j) (hj : j < pts.length) :
    keyOf pts (i, j) ∈ combEdges pts := by
  unfold combEdges
  refine List.mem_flatMap.2 ⟨i, List.mem_range.2 (by omega), ?_⟩
  refine List.mem_map.2 ⟨j, ?_, rfl⟩
  exact List.mem_filter.2 ⟨List.mem_range.2 hj, decide_eq_true hij⟩

lemma combEdges_nodup (pts : List (ℤ × ℤ)) : (combEdges pts).Nodup := by
  unfold combEdges
  rw [List.nodup_flatMap]
  constructor
  · intro i _
    refine List.Nodup.map ?_ (List.Nodup.filter _ (List.nodup_range _))
    intro a b hab
    exact congrArg (fun t => t.2.2) hab
  · refine List.Pairwise.imp ?_ (List.pairwise_lt_range _)
    intro a b hab
    rw [Function.onFun, List.disjoint_left]
    intro e hea heb
    rcases List.mem_map.1 hea with ⟨ja, _, rfl⟩
    rcases List.mem_map.1 heb with ⟨jb, _, heq⟩
    have h2 : b = a := congrArg (fun t => t.2.1) heq
    omega

lemma ncnt_le (n : ℕ) (E : List (ℕ × ℕ)) : ncnt n E ≤ n := by
  unfold ncnt
  exact le_trans Finset.card_image_le (le_of_eq (Finset.card_range n))

lemma compute_mst_idx_spec (pts : List (ℤ × ℤ)) :
    (ncnt pts.length (compute_mst_idx pts) +
      (compute_mst_idx pts).length = pts.length) ∧
    (∀ e ∈ compute_mst_idx pts, e.1 < pts.length ∧ e.2 < pts.length) ∧
    (∀ i j, i < j → j < pts.length → conn (compute_mst_idx pts) i j) ∧
    (∀ i j, i < j → j < pts.length → ((i, j) ∈ compute_mst_idx pts ∨
      conn ((compute_mst_idx pts).filter
        (fun f => decide (keyLT (keyOf pts f) (keyOf pts (i, j))))) i j)) ∧
    List.Pairwise keyLT ((compute_mst_idx pts).map (keyOf pts)) := by
  have hperm := sortK_perm (combEdges pts)
  have hnodup : (sortK (combEdges pts)).Nodup :=
    (hperm.nodup_iff).2 (combEdges_nodup pts)
  have hsortLT : List.Pairwise keyLT (sortK (combEdges pts)) := by
    have h1 := sortK_sorted (combEdges pts)
    have h2 : List.Pairwise (fun a b : EdgeK => a ≠ b)
        (sortK (combEdges pts)) := hnodup
    exact (h1.and h2).imp (fun hab => keyLT_of_keyLE_ne _ _ hab.1 hab.2)
  have hspec := kruskalLoop_spec pts.length (keyOf pts)
    (sortK (combEdges pts)) (initParent pts.length) []
    (KInv_init pts.length)
    (fun e he => combEdges_sound pts e (hperm.mem_iff.1 he))
    hsortLT
    (fun f hf => absurd hf (List.not_mem_nil _))
    List.Pairwise.nil
  obtain ⟨h1, h2, _, h4, h5, h6⟩ := hspec
  refine ⟨h1, h2, ?_, ?_, h6⟩
  · intro i j hij hj
    exact h4 (keyOf pts (i, j))
      (hperm.mem_iff.2 (combEdges_complete pts i j hij hj))
  · intro i j hij hj
    exact h5 (keyOf pts (i, j))
      (hperm.mem_iff.2 (combEdges_complete pts i j hij hj))

lemma compute_mst_idx_conn (pts : List (ℤ × ℤ)) :
    ∀ a b, a < pts.length → b < pts.length →
      conn (compute_mst_idx pts) a b := by
  intro a b ha hb
  rcases Nat.lt_trichotomy a b with h | h | h
  · exact (compute_mst_idx_spec pts).2.2.1 a b h hb
  · subst h
    exact Relation.EqvGen.refl a
  · exact Relation.EqvGen.symm _ _ ((compute_mst_idx_spec pts).2.2.1 b a h ha)

lemma compute_mst_idx_length (pts : List (ℤ × ℤ)) (hn : 1 ≤ pts.length) :
    (compute_mst_idx pts).length = pts.length - 1 := by
  have h1 := (compute_mst_idx_spec pts).1
  have h2 : ncnt pts.length (compute_mst_idx pts) = 1 :=
    ncnt_conn_all pts.length hn _ (compute_mst_idx_conn pts)
  omega

lemma compute_mst_idx_small (pts : List (ℤ × ℤ)) (hn : pts.length ≤ 1) :
    compute_mst_idx pts = [] := by
  have h1 := (compute_mst_idx_spec pts).1
  have h2 := ncnt_le pts.length (compute_mst_idx pts)
  have h3 : (compute_mst_idx pts).length = 0 := by
    rcases Nat.le_one_iff_eq_zero_or_eq_one.1 hn with h | h
    · rw [h] at h1
      omega
    · have h4 : ncnt pts.length (compute_mst_idx pts) = 1 :=
        ncnt_conn_all pts.length (by omega) _ (compute_mst_idx_conn pts)
      omega
  exact List.length_eq_zero.1 h3

lemma keyLT_irrefl (a : EdgeK) : ¬ keyLT a a := by
  unfold keyLT
  omega

lemma keyLT_asymm (a b : EdgeK) (h1 : keyLT a b) (h2 : keyLT b a) : False := by
  unfold keyLT at h1 h2
  omega

lemma keyLT_trans (a b c : EdgeK) (h1 : keyLT a b) (h2 : keyLT b c) :
    keyLT a c := by
  unfold keyLT at h1 h2 ⊢
  omega

lemma dist2_symm (p q : ℤ × ℤ) : dist2 p q = dist2 q p := by
  unfold dist2
  rw [show (p.1 - q.1) ^ 2 = (q.1 - p.1) ^ 2 from by ring,
    show (p.2 - q.2) ^ 2 = (q.2 - p.2) ^ 2 from by ring]

lemma mem_take_of_keyLT (w2 : (ℕ × ℕ) → EdgeK) (F : List (ℕ × ℕ))
    (hs : List.Pairwise keyLT (F.map w2)) (k : ℕ) (hk : k < F.length)
    (g : ℕ × ℕ) (hg : g ∈ F) (hlt : keyLT (w2 g) (w2 (F.get ⟨k, hk⟩))) :
    g ∈ F.take k := by
  obtain ⟨m, hm, rfl⟩ := List.mem_iff_getElem.1 hg
  rcases Nat.lt_trichotomy m k with h | h | h
  · refine List.mem_iff_getElem.2 ⟨m, ?_, ?_⟩
    · rw [List.length_take]
      omega
    · rw [List.getElem_take]
  · exfalso
    have heq : F[m] = F.get ⟨k, hk⟩ := by
      rw [show F.get ⟨k, hk⟩ = F[k] from rfl]
      congr 1
    rw [heq] at hlt
    exact keyLT_irrefl _ hlt
  · exfalso
    have hpair := List.pairwise_iff_getElem.1 hs k m
      (by rw [List.length_map]; exact hk)
      (by rw [List.length_map]; exact hm) h
    rw [List.getElem_map, List.getElem_map] at hpair
    exact keyLT_asymm _ _ hlt (by
      rw [show F.get ⟨k, hk⟩ = F[k] from rfl]
      exact hpair)

lemma take_le_get (l : List EdgeK) (hs : List.Pairwise keyLE l) (k : ℕ)
    (hk : k < l.length) (e : EdgeK) (he : e ∈ l.take (k + 1)) :
    e.1 ≤ (l.get ⟨k, hk⟩).1 := by
  obtain ⟨m, hm, rfl⟩ := List.mem_iff_getElem.1 he
  have hm2 := hm
  rw [List.length_take] at hm2
  rw [List.getElem_take]
  have hm3 : m < l.length := by omega
  rcases Nat.lt_or_ge m k with h | h
  · have hpair := List.pairwise_iff_getElem.1 hs m k hm3 hk h
    unfold keyLE at hpair
    rw [show l.get ⟨k, hk⟩ = l[k] from rfl]
    omega
  · have hmk : m = k := by omega
    subst hmk
    rw [show l.get ⟨m, hk⟩ = l[m] from rfl]

lemma sum_sqrt_le (l1 : List ℕ) : ∀ (l2 : List ℕ),
    l1.length = l2.length →
    (∀ k (h1 : k < l1.length) (h2 : k < l2.length),
      l1.get ⟨k, h1⟩ ≤ l2.get ⟨k, h2⟩) →
    (l1.map (fun (d : ℕ) => Real.sqrt (d : ℝ))).sum ≤
      (l2.map (fun (d : ℕ) => Real.sqrt (d : ℝ))).sum := by
  induction l1 with
  | nil =>
      intro l2 hlen _
      rcases l2 with _ | ⟨b, l2⟩
      · exact le_refl _
      · cases hlen
  | cons a l1 ih =>
      intro l2 hlen h
      rcases l2 with _ | ⟨b, l2⟩
      · cases hlen
      · simp only [List.map_cons, List.sum_cons]
        refine add_le_add ?_ (ih l2 (Nat.succ_injective hlen) ?_)
        · refine Real.sqrt_le_sqrt ?_
          have h0 : a ≤ b := h 0 (Nat.succ_pos _) (Nat.succ_pos _)
          exact_mod_cast h0
        · intro k h1 h2
          exact h (k + 1) (Nat.succ_lt_succ h1) (Nat.succ_lt_succ h2)

lemma greedy_dominates (pts : List (ℤ × ℤ)) (T : List (ℕ × ℕ))
    (hTb : ∀ e ∈ T, e.1 < pts.length ∧ e.2 < pts.length)
    (hTforest : ncnt pts.length T + T.length = pts.length) :
    ∀ k (hk1 : k < (compute_mst_idx pts).length)
      (hk2 : k < (sortK (T.map (keyOf pts))).length),
      (keyOf pts ((compute_mst_idx pts).get ⟨k, hk1⟩)).1 ≤
        ((sortK (T.map (keyOf pts))).get ⟨k, hk2⟩).1 := by
  intro k hk1 hk2
  by_contra hcon
  push_neg at hcon
  obtain ⟨hforest, hbnd, hconn_sp, hc4, hsorted⟩ := compute_mst_idx_spec pts
  have hpermT : ((sortK (T.map (keyOf pts))).map
      (fun e : EdgeK => e.2)).Perm T := by
    have h1 : (sortK (T.map (keyOf pts))).Perm (T.map (keyOf pts)) :=
      sortK_perm _
    have h2 := h1.map (fun e : EdgeK => e.2)
    refine h2.trans ?_
    rw [List.map_map]
    rw [show ((fun e : EdgeK => e.2) ∘ keyOf pts) = id from by
      funext f
      rfl]
    rw [List.map_id]
  have hBlen : (((sortK (T.map (keyOf pts))).take (k + 1)).map
      (fun e : EdgeK => e.2)).length = k + 1 := by
    rw [List.length_map, List.length_take]
    omega
  have hforestB : ncnt pts.length (((sortK (T.map (keyOf pts))).take
        (k + 1)).map (fun e : EdgeK => e.2)) +
      (((sortK (T.map (keyOf pts))).take (k + 1)).map
        (fun e : EdgeK => e.2)).length = pts.length := by
    have hsplit : (sortK (T.map (keyOf pts))).map (fun e : EdgeK => e.2) =
        ((sortK (T.map (keyOf pts))).take (k + 1)).map
          (fun e : EdgeK => e.2) ++
        ((sortK (T.map (keyOf pts))).drop (k + 1)).map
          (fun e : EdgeK => e.2) := by
      rw [← List.map_append, List.take_append_drop]
    have hforestBC : ncnt pts.length
        (((sortK (T.map (keyOf pts))).take (k + 1)).map
          (fun e : EdgeK => e.2) ++
         ((sortK (T.map (keyOf pts))).drop (k + 1)).map
          (fun e : EdgeK => e.2)) +
        (((sortK (T.map (keyOf pts))).take (k + 1)).map
          (fun e : EdgeK => e.2) ++
         ((sortK (T.map (keyOf pts))).drop (k + 1)).map
          (fun e : EdgeK => e.2)).length = pts.length := by
      rw [← hsplit, ncnt_perm pts.length _ T hpermT, hpermT.length_eq]
      exact hTforest
    apply forest_suffix pts.length
      (((sortK (T.map (keyOf pts))).drop (k + 1)).map
        (fun e : EdgeK => e.2))
    rw [ncnt_perm pts.length _ _ (List.perm_append_comm),
      (List.perm_append_comm).length_eq]
    exact hforestBC
  have hAlen : ((compute_mst_idx pts).take k).length = k := by
    rw [List.length_take]
    omega
  obtain ⟨g, hgB, hgnc⟩ := exchange pts.length
    ((compute_mst_idx pts).take k)
    (((sortK (T.map (keyOf pts))).take (k + 1)).map
      (fun e : EdgeK => e.2)) hforestB (by omega)
  obtain ⟨e, heTake, rfl⟩ := List.mem_map.1 hgB
  have heS : e ∈ sortK (T.map (keyOf pts)) := List.mem_of_mem_take heTake
  obtain ⟨f0, hf0T, hf0key⟩ : ∃ f ∈ T, keyOf pts f = e := by
    have hmem := (sortK_perm _).mem_iff.1 heS
    rcases List.mem_map.1 hmem with ⟨f, hf, rfl⟩
    exact ⟨f, hf, rfl⟩
  have hgf : e.2 = f0 := by
    rw [← hf0key]
    rfl
  have hew : e.1 ≤ ((sortK (T.map (keyOf pts))).get ⟨k, hk2⟩).1 :=
    take_le_get _ (sortK_sorted _) k hk2 e heTake
  have he1 : e.1 = dist2 (pts.getD e.2.1 (0, 0)) (pts.getD e.2.2 (0, 0)) := by
    rw [← hf0key]
    rfl
  have hgT : e.2.1 < pts.length ∧ e.2.2 < pts.length := by
    rw [hgf]
    exact hTb f0 hf0T
  have hkey : ∀ i j, i < j → j < pts.length →
      dist2 (pts.getD i (0, 0)) (pts.getD j (0, 0)) = e.1 →
      conn ((compute_mst_idx pts).take k) i j := by
    intro i j hij hjn hdist
    have hklt : keyLT (keyOf pts (i, j))
        (keyOf pts ((compute_mst_idx pts).get ⟨k, hk1⟩)) := by
      refine Or.inl ?_
      rw [show (keyOf pts (i, j)).1 =
        dist2 (pts.getD i (0, 0)) (pts.getD j (0, 0)) from rfl, hdist]
      omega
    rcases hc4 i j hij hjn with hmem | hconnF
    · exact conn_edge _ i j
        (mem_take_of_keyLT (keyOf pts) _ hsorted k hk1 (i, j) hmem hklt)
    · refine conn_of_sub _ _ ?_ i j hconnF
      intro f hf
      rcases List.mem_filter.1 hf with ⟨hfF, hfkey⟩
      exact mem_take_of_keyLT (keyOf pts) _ hsorted k hk1 f hfF
        (keyLT_trans _ _ _ (of_decide_eq_true hfkey) hklt)
  rcases Nat.lt_trichotomy e.2.1 e.2.2 with hor | hor | hor
  · exact hgnc (hkey e.2.1 e.2.2 hor hgT.2 he1.symm)
  · exact hgnc (hor ▸ Relation.EqvGen.refl _)
  · exact hgnc (Relation.EqvGen.symm _ _ (hkey e.2.2 e.2.1 hor hgT.1
      (by rw [dist2_symm]; exact he1.symm)))

lemma compute_mst_optimal (pts : List (ℤ × ℤ)) (T : List (ℕ × ℕ))
    (hTb : ∀ e ∈ T, e.1 < pts.length ∧ e.2 < pts.length)
    (hTconn : ∀ a b, a < pts.length → b < pts.length → conn T a b)
    (hTlen : T.length = pts.length - 1) :
    ((compute_mst_idx pts).map (fun f => Real.sqrt
      ((dist2 (pts.getD f.1 (0, 0)) (pts.getD f.2 (0, 0)) : ℕ) : ℝ))).sum ≤
    (T.map (fun f => Real.sqrt
      ((dist2 (pts.getD f.1 (0, 0)) (pts.getD f.2 (0, 0)) : ℕ) : ℝ))).sum := by
  by_cases hn : pts.length = 0
  · have hF : compute_mst_idx pts = [] := compute_mst_idx_small pts (by omega)
    have hT : T = [] := List.length_eq_zero.1 (by omega)
    rw [hF, hT]
  · have hn1 : 1 ≤ pts.length := by omega
    have hTforest : ncnt pts.length T + T.length = pts.length := by
      rw [ncnt_conn_all pts.length hn1 T hTconn]
      omega
    have hFlen := compute_mst_idx_length pts hn1
    have hsTlen : (sortK (T.map (keyOf pts))).length = pts.length - 1 := by
      rw [(sortK_perm _).length_eq, List.length_map, hTlen]
    have hL : (compute_mst_idx pts).map (fun f => Real.sqrt
        ((dist2 (pts.getD f.1 (0, 0)) (pts.getD f.2 (0, 0)) : ℕ) : ℝ)) =
        ((compute_mst_idx pts).map (fun f => dist2 (pts.getD f.1 (0, 0))
          (pts.getD f.2 (0, 0)))).map (fun (d : ℕ) => Real.sqrt (d : ℝ)) := by
      rw [List.map_map]
      rfl
    have hmid : (((compute_mst_idx pts).map (fun f => dist2
        (pts.getD f.1 (0, 0)) (pts.getD f.2 (0, 0)))).map
          (fun (d : ℕ) => Real.sqrt (d : ℝ))).sum ≤
        (((sortK (T.map (keyOf pts))).map (fun e : EdgeK => e.1)).map
          (fun (d : ℕ) => Real.sqrt (d : ℝ))).sum := by
      apply sum_sqrt_le
      · rw [List.length_map, List.length_map, hFlen, hsTlen]
      · intro k h1 h2
        rw [List.length_map] at h1 h2
        have hdom := greedy_dominates pts T hTb hTforest k h1 h2
        rw [show ((compute_mst_idx pts).map (fun f => dist2
            (pts.getD f.1 (0, 0)) (pts.getD f.2 (0, 0)))).get
            ⟨k, by rw [List.length_map]; exact h1⟩ =
          (keyOf pts ((compute_mst_idx pts).get ⟨k, h1⟩)).1 from by
            rw [show ∀ (l : List (ℕ × ℕ)) (g : (ℕ × ℕ) → ℕ) (hh : k < (l.map g).length) (hh2 : k < l.length),
              (l.map g).get ⟨k, hh⟩ = g (l.get ⟨k, hh2⟩) from ?_]
            · rfl
            · intro l g hh hh2
              simp [List.getElem_map]]
        rw [show ((sortK (T.map (keyOf pts))).map (fun e : EdgeK => e.1)).get
            ⟨k, by rw [List.length_map]; exact h2⟩ =
          ((sortK (T.map (keyOf pts))).get ⟨k, h2⟩).1 from by
            simp [List.getElem_map]]
        exact hdom
    have hR : (((sortK (T.map (keyOf pts))).map (fun e : EdgeK => e.1)).map
        (fun (d : ℕ) => Real.sqrt (d : ℝ))).sum =
        (T.map (fun f => Real.sqrt
          ((dist2 (pts.getD f.1 (0, 0)) (pts.getD f.2 (0, 0)) : ℕ) : ℝ))).sum := by
      have hp := ((sortK_perm (T.map (keyOf pts))).map
        (fun e : EdgeK => e.1)).map (fun (d : ℕ) => Real.sqrt (d : ℝ))
      rw [hp.sum_eq]
      rw [List.map_map, List.map_map]
      rfl
    rw [hL]
    rw [← hR]
    exact hmid

/-- C1: `compute_mst` returns an empty edge list for 0 or 1 entrances
(no error), exactly `N - 1` point-pair edges for `N ≥ 1`, the accepted
index pairs connect every entrance to every other (a spanning tree,
being connected with `N - 1` edges), and the total Euclidean weight
(`√dist2` summed over the edges) is at most that of every other
spanning index graph over the same points — any edge list within range
that connects all indices using `N - 1` edges. -/
theorem compute_mst_correct (pts : List (ℤ × ℤ)) :
    (pts.length ≤ 1 → compute_mst pts = []) ∧
    (1 ≤ pts.length → (compute_mst pts).length = pts.length - 1) ∧
    (∀ a b, a < pts.length → b < pts.length →
      conn (compute_mst_idx pts) a b) ∧
    (∀ T : List (ℕ × ℕ),
      (∀ e ∈ T, e.1 < pts.length ∧ e.2 < pts.length) →
      (∀ a b, a < pts.length → b < pts.length → conn T a b) →
      T.length = pts.length - 1 →
      ((compute_mst pts).map (fun e =>
        Real.sqrt ((dist2 e.1 e.2 : ℕ) : ℝ))).sum ≤
      (T.map (fun f => Real.sqrt ((dist2 (pts.getD f.1 (0, 0))
        (pts.getD f.2 (0, 0)) : ℕ) : ℝ))).sum) := by
  have hmap : (compute_mst pts).map (fun e =>
      Real.sqrt ((dist2 e.1 e.2 : ℕ) : ℝ)) =
      (compute_mst_idx pts).map (fun f => Real.sqrt
        ((dist2 (pts.getD f.1 (0, 0)) (pts.getD f.2 (0, 0)) : ℕ) : ℝ)) := by
    unfold compute_mst
    rw [List.map_map]
    rfl
  refine ⟨?_, ?_, compute_mst_idx_conn pts, ?_⟩
  · intro hn
    unfold compute_mst
    rw [compute_mst_idx_small pts hn]
    rfl
  · intro hn
    unfold compute_mst
    rw [List.length_map]
    exact compute_mst_idx_length pts hn
  · intro T hTb hTconn hTlen
    rw [hmap]
    exact compute_mst_optimal pts T hTb hTconn hTlen

/-- C1 witness: three entrances `(0,0), (3,0), (0,4)`; the MST keeps
the two short edges (lengths 3 and 4) and its total weight is at most
that of the spanning tree `{0-1, 1-2}` (lengths 3 and 5). -/
theorem compute_mst_correct_witness :
    (compute_mst [((0:ℤ), (0:ℤ)), ((3:ℤ), (0:ℤ)), ((0:ℤ), (4:ℤ))]).length
      = 2 ∧
    ((compute_mst [((0:ℤ), (0:ℤ)), ((3:ℤ), (0:ℤ)), ((0:ℤ), (4:ℤ))]).map
      (fun e => Real.sqrt ((dist2 e.1 e.2 : ℕ) : ℝ))).sum ≤
    (([((0:ℕ), (1:ℕ)), (1, 2)]).map (fun f =>
      Real.sqrt ((dist2 ([((0:ℤ), (0:ℤ)), ((3:ℤ), (0:ℤ)),
        ((0:ℤ), (4:ℤ))].getD f.1 (0, 0))
        ([((0:ℤ), (0:ℤ)), ((3:ℤ), (0:ℤ)), ((0:ℤ), (4:ℤ))].getD f.2
          (0, 0)) : ℕ) : ℝ))).sum := by
  obtain ⟨h1, h2, h3, h4⟩ := compute_mst_correct
    [((0:ℤ), (0:ℤ)), ((3:ℤ), (0:ℤ)), ((0:ℤ), (4:ℤ))]
  have e01 : conn [((0:ℕ), (1:ℕ)), (1, 2)] 0 1 :=
    conn_edge _ _ _ (List.mem_cons_self _ _)
  have e12 : conn [((0:ℕ), (1:ℕ)), (1, 2)] 1 2 :=
    conn_edge _ _ _ (List.mem_cons_of_mem _ (List.mem_cons_self _ _))
  refine ⟨h2 (by norm_num), h4 [((0:ℕ), (1:ℕ)), (1, 2)] (by decide) ?_ rfl⟩
  intro a b ha hb
  have ha3 : a < 3 := ha
  have hb3 : b < 3 := hb
  clear ha hb
  interval_cases a <;> interval_cases b
  · exact Relation.EqvGen.refl _
  · exact e01
  · exact Relation.EqvGen.trans _ _ _ e01 e12
  · exact Relation.EqvGen.symm _ _ e01
  · exact Relation.EqvGen.refl _
  · exact e12
  · exact Relation.EqvGen.symm _ _ (Relation.EqvGen.trans _ _ _ e01 e12)
  · exact Relation.EqvGen.symm _ _ e12
  · exact Relation.EqvGen.refl _

end Damasen
